import Mathlib

/-!
# folder-organizer

A shallow embedding of `internal/utils/organize.go`, `internal/utils/cleaner.go` and
`internal/types/types.go`, followed by theorems about the embedded functions.

Conventions of the embedding.

* Go strings are Lean `String`s, handled through their character lists.
* The Go library functions the program calls (`strings.*`, `path/filepath.*`, `fmt.Sprintf`,
  `encoding/json.Unmarshal`) are modelled for the Unix build, where `filepath.Separator` is `/`
  and `filepath.ToSlash` is the identity.
* A Go `map[string]T` is an association list with `mapSet`/`mapGet`; ranging over the map visits
  the list from its head, so a statement quantified over all lists covers every iteration order.
* Go `int` counters are `Nat` (they only ever count files and directories).
* The file system is a tree of named files and directories for the walks, and the list of paths
  that exist for the worker; the outcome of `os.MkdirAll` and of a move, and the failures of
  `os.Stat` other than a missing path, are given by `FileOps`.
* The case tables of package `unicode` are a parameter `caseTable` of the functions that lower a
  string; ASCII is lowered as the source does, without the table.
* The goroutines of `OrganizeFiles` are run one after the other: both walks first, on the tree as
  it was at the call, then the jobs in the order they were sent.
* Loops without a bound in the source (`worker`, `CleanupEmptyDirs`) take a bound on the number of
  rounds and answer `none` when it is reached; the theorems show which bound suffices, and when
  none does.
-/

namespace FolderOrganizer

/-! ## Library models: package `unicode` -/

namespace unicode

/-- Go `unicode.ToLower(r)`. A rune up to `unicode.MaxASCII` is lowered in place (`A`..`Z` become
`a`..`z`, every other one stays); for a rune above, the source looks the rune up in the case
tables of the Go release (`unicode.To(unicode.LowerCase, r)`). Those tables are not part of the
program: `caseTable` stands for that lookup, and the theorems hold for every table. -/
def ToLower (caseTable : Char → Char) (r : Char) : Char :=
  if r.val ≤ 127 then Char.toLower r else caseTable r

/-- The rows `U+00C0`..`U+00D6` and `U+00D8`..`U+00DE` of Go's `unicode.CaseRanges` (the
lower-case letter is 32 further); every other rune is left as it is. The concrete scenarios are
evaluated with this table; they hold no letter above Latin-1. -/
def latin1 (r : Char) : Char :=
  if (0xC0 ≤ r.val ∧ r.val ≤ 0xD6) ∨ (0xD8 ≤ r.val ∧ r.val ≤ 0xDE) then
    Char.ofNat (r.toNat + 32)
  else r

end unicode

/-! ## Library models: package `strings` -/

namespace strings

/-- Character-level test that the second list starts the first one. -/
def hasPrefixChars : List Char → List Char → Bool
  | _, [] => true
  | [], _ :: _ => false
  | c :: cs, p :: ps => if c = p then hasPrefixChars cs ps else false

/-- Go `strings.HasPrefix(s, prefix)`. -/
def HasPrefix (s pfx : String) : Bool :=
  hasPrefixChars s.data pfx.data

/-- Go `strings.HasSuffix(s, suffix)`. -/
def HasSuffix (s sfx : String) : Bool :=
  hasPrefixChars s.data.reverse sfx.data.reverse

/-- Go `strings.TrimPrefix(s, prefix)`: `s` without the leading `prefix`, or `s` itself. -/
def TrimPrefix (s pfx : String) : String :=
  if HasPrefix s pfx then String.mk (s.data.drop pfx.data.length) else s

/-- Go `strings.TrimSuffix(s, suffix)`: `s` without the trailing `suffix`, or `s` itself. -/
def TrimSuffix (s sfx : String) : String :=
  if HasSuffix s sfx then String.mk (s.data.take (s.data.length - sfx.data.length)) else s

/-- Go `strings.Contains(s, sep)` for a one-character `sep` (the only use in the program). -/
def Contains (s : String) (sep : Char) : Bool :=
  s.data.any (fun c => decide (c = sep))

/-- Pieces of a character list between occurrences of `sep`; always at least one piece. -/
def splitChars (sep : Char) : List Char → List (List Char)
  | [] => [[]]
  | c :: cs =>
    if c = sep then [] :: splitChars sep cs
    else
      match splitChars sep cs with
      | [] => [[c]]
      | piece :: pieces => (c :: piece) :: pieces

/-- Go `strings.Split(s, sep)` for a one-character `sep` (the only use in the program). -/
def Split (s : String) (sep : Char) : List String :=
  (splitChars sep s.data).map String.mk

/-- The character lists one after the other, with `sep` between neighbours. -/
def joinChars (sep : Char) : List (List Char) → List Char
  | [] => []
  | [piece] => piece
  | piece :: next :: pieces => piece ++ sep :: joinChars sep (next :: pieces)

/-- Go `strings.Join(elems, sep)` for a one-character `sep`. -/
def Join (elems : List String) (sep : Char) : String :=
  String.mk (joinChars sep (elems.map String.data))

/-- Go `strings.ToLower(s)`: every rune of `s` is replaced by its `unicode.ToLower` (the source
has a fast path for a string of ASCII bytes, which lowers `A`..`Z` and gives the same string). -/
def ToLower (caseTable : Char → Char) (s : String) : String :=
  String.mk (s.data.map (unicode.ToLower caseTable))

end strings

/-! ## Library models: package `path/filepath` (Unix) -/

namespace filepath

/-- Go `filepath.Separator` on Unix. -/
def Separator : Char := '/'

/-- Go `filepath.ToSlash` on Unix: the separator already is a slash. -/
def ToSlash (path : String) : String := path

/-- Whether the character list holds a separator. -/
def hasSeparator (cs : List Char) : Bool :=
  cs.any (fun c => decide (c = Separator))

/-- The suffix starting at the last dot that has no separator after it: Go scans from the end of
the string towards the front and stops at the first dot or separator it meets. -/
def lastDotSuffix : List Char → Option (List Char)
  | [] => none
  | c :: cs =>
    match lastDotSuffix cs with
    | some r => some r
    | none => if c = '.' && !hasSeparator cs then some (c :: cs) else none

/-- Go `filepath.Ext(path)`: the suffix beginning at the final dot in the final element of `path`,
empty if there is no dot. -/
def Ext (path : String) : String :=
  match lastDotSuffix path.data with
  | some r => String.mk r
  | none => ""

/-- One element of the path seen by `Clean`. `out` holds the elements kept so far, last one first.
Empty and `.` elements are dropped; `..` removes the element before it when there is one that is
not itself `..`, is kept in front of a path that is not rooted, and is dropped at the root. -/
def cleanStep (rooted : Bool) (out : List (List Char)) (elem : List Char) : List (List Char) :=
  if elem = [] then out
  else if elem = ['.'] then out
  else if elem = ['.', '.'] then
    match out with
    | [] => if rooted then [] else [elem]
    | top :: below => if top = ['.', '.'] then elem :: out else below
  else elem :: out

/-- Go `filepath.Clean(path)` on Unix, element by element. -/
def Clean (path : String) : String :=
  match path.data with
  | [] => "."
  | c :: cs =>
    let rooted : Bool := decide (c = Separator)
    let out := (strings.splitChars Separator (c :: cs)).foldl (cleanStep rooted) []
    let body := strings.joinChars Separator out.reverse
    let res := if rooted then Separator :: body else body
    if res = [] then "." else String.mk res

/-- Go `filepath.Join(elem...)`: the elements from the first non-empty one on, joined by the
separator and cleaned; the empty string when every element is empty. -/
def Join (elem : List String) : String :=
  match elem.dropWhile (fun e => decide (e = "")) with
  | [] => ""
  | rest => Clean (strings.Join rest Separator)

end filepath

/-! ## Library model: `encoding/json` -/

/-- A JSON value, as held by a `json.RawMessage` of a document that parsed. The value of a number
plays no role in the program; an object keeps its fields in the order of the document. -/
inductive Json where
  | null : Json
  | bool (b : Bool) : Json
  | num (n : Int) : Json
  | str (s : String) : Json
  | arr (items : List Json) : Json
  | obj (fields : List (String × Json)) : Json

namespace json

/-- Decoding of the elements of a JSON array into a Go `[]string`: a string element is taken, a
`null` element leaves the zero value `""`, any other element is a type error. -/
def stringElems : List Json → Option (List String)
  | [] => some []
  | Json.str s :: rest =>
    match stringElems rest with
    | some ss => some (s :: ss)
    | none => none
  | Json.null :: rest =>
    match stringElems rest with
    | some ss => some ("" :: ss)
    | none => none
  | _ :: _ => none

/-- Success of `json.Unmarshal(data, &v)` for `v` of type `[]string`, with the decoded slice:
`null` decodes to the nil slice, an array decodes element by element, anything else is an error. -/
def unmarshalStrings : Json → Option (List String)
  | Json.null => some []
  | Json.arr items => stringElems items
  | _ => none

/-- Whether a later field of the object has the same key: decoding into a Go map keeps the last
value of a repeated key. -/
def overwrittenLater (key : String) (rest : List (String × Json)) : Bool :=
  rest.any (fun kv => decide (kv.1 = key))

end json

/-! ## `internal/types/types.go` -/

deriving instance DecidableEq for Except

/-- Go `types.Category`: a list of extensions and a map from name to subcategory. -/
inductive Category where
  | mk (Extensions : List String) (Subcategories : List (String × Category)) : Category

/-- The `Extensions` field. -/
def Category.Extensions : Category → List String
  | Category.mk exts _ => exts

/-- The `Subcategories` field. -/
def Category.Subcategories : Category → List (String × Category)
  | Category.mk _ subs => subs

/-- Go `map[k] = v` on a map from names to categories. -/
def setSubcategory : List (String × Category) → String → Category → List (String × Category)
  | [], k, v => [(k, v)]
  | (k0, v0) :: rest, k, v =>
    if k0 = k then (k, v) :: rest else (k0, v0) :: setSubcategory rest k v

/-- Go `types.ExtensionMapping`: its one field `ExtToPath`, a map from extension to directory path
relative to the source. -/
abbrev ExtensionMapping := List (String × String)

/-- Go `m[k] = v` on the extension mapping: overwrite the entry of `k`, or add one. -/
def mapSet : ExtensionMapping → String → String → ExtensionMapping
  | [], k, v => [(k, v)]
  | (k0, v0) :: rest, k, v =>
    if k0 = k then (k, v) :: rest else (k0, v0) :: mapSet rest k v

/-- Go `v, ok := m[k]` on the extension mapping. -/
def mapGet : ExtensionMapping → String → Option String
  | [], _ => none
  | (k0, v0) :: rest, k => if k0 = k then some v0 else mapGet rest k

/-- Go `types.Config`: the `categories` object of the configuration file, a map from top-level
category name to raw JSON. -/
structure Config where
  Categories : List (String × Json)

/-- Go `types.FileJob`. -/
structure FileJob where
  SourcePath : String
  TargetDir : String
  Filename : String
deriving DecidableEq, Repr

/-- Go `types.Stats` (the mutex only serialises the increments). -/
structure Stats where
  TotalFiles : Nat
  ProcessedFiles : Nat
  OrganizedFiles : Nat
  SkippedFiles : Nat
deriving DecidableEq, Repr

/-- Go `(*Stats).IncrementProcessed`. -/
def Stats.IncrementProcessed (s : Stats) : Stats :=
  { s with ProcessedFiles := s.ProcessedFiles + 1 }

/-- Go `(*Stats).IncrementOrganized`. -/
def Stats.IncrementOrganized (s : Stats) : Stats :=
  { s with OrganizedFiles := s.OrganizedFiles + 1 }

/-- Go `(*Stats).IncrementSkipped`. -/
def Stats.IncrementSkipped (s : Stats) : Stats :=
  { s with SkippedFiles := s.SkippedFiles + 1 }

/-! ## `internal/utils/organize.go`: the category resolver -/

mutual

/-- Go `parseCategory`. The three attempts of the source are decided by the kind of the value:
`null` and arrays whose elements are all strings (or `null`) pass the first attempt
(`[]string`); every other array passes the second (`[]json.RawMessage`) and is read item by item;
an object passes the third (`map[string]json.RawMessage`); strings, numbers and booleans pass
none. -/
def parseCategory : Json → Except String Category
  | Json.null => Except.ok (Category.mk [] [])
  | Json.arr items =>
    match json.stringElems items with
    | some extensions => Except.ok (Category.mk extensions [])
    | none => parseItems items (Category.mk [] [])
  | Json.obj fields => parseFields fields (Category.mk [] [])
  | Json.bool _ => Except.error "unable to parse category data"
  | Json.num _ => Except.error "unable to parse category data"
  | Json.str _ => Except.error "unable to parse category data"

/-- The loop over the items of a mixed array in `parseCategory`: a string array adds its strings to
`Extensions`, an object adds each of its keys as a subcategory, any other item is passed over. -/
def parseItems : List Json → Category → Except String Category
  | [], category => Except.ok category
  | Json.obj fields :: rest, category =>
    match parseFields fields category with
    | Except.ok category1 => parseItems rest category1
    | Except.error e => Except.error e
  | Json.null :: rest, category => parseItems rest category
  | Json.arr strs :: rest, category =>
    match json.stringElems strs with
    | some strArray =>
      parseItems rest (Category.mk (category.Extensions ++ strArray) category.Subcategories)
    | none => parseItems rest category
  | Json.bool _ :: rest, category => parseItems rest category
  | Json.num _ :: rest, category => parseItems rest category
  | Json.str _ :: rest, category => parseItems rest category

/-- The loop `for subName, subData := range objMap` of `parseCategory` (the same in the second and
the third attempt): every key of the decoded map is parsed and stored as a subcategory; the first
failure is returned. -/
def parseFields : List (String × Json) → Category → Except String Category
  | [], category => Except.ok category
  | (subName, subData) :: rest, category =>
    if json.overwrittenLater subName rest then parseFields rest category
    else
      match parseCategory subData with
      | Except.error e => Except.error ("error parsing subcategory " ++ subName ++ ": " ++ e)
      | Except.ok subCategory =>
        parseFields rest
          (Category.mk category.Extensions
            (setSubcategory category.Subcategories subName subCategory))

end

/-- The normalisation of a configured extension in `buildExtensionMapping` and
`processSubcategories`: `if !strings.HasPrefix(ext, ".") { ext = "." + ext }`. -/
def ensureDot (ext : String) : String :=
  if !strings.HasPrefix ext "." then "." ++ ext else ext

/-- The loops `for _, ext := range ....Extensions` of `buildExtensionMapping` and
`processSubcategories`: every extension, given a leading dot when it has none, is mapped to
`path`. -/
def addExtensions (mapping : ExtensionMapping) (path : String) : List String → ExtensionMapping
  | [] => mapping
  | ext :: rest => addExtensions (mapSet mapping (ensureDot ext) path) path rest

mutual

/-- The body of the loop of `processSubcategories` for one subcategory whose path `currentPath` has
been computed: its extensions are mapped to `currentPath`, then its subcategories are processed
below `currentPath`. -/
def processCategory (mapping : ExtensionMapping) (currentPath : String) :
    Category → ExtensionMapping
  | Category.mk exts subs =>
    processSubcategories (addExtensions mapping currentPath exts) currentPath subs

/-- Go `processSubcategories`; its error result is always nil, so the model returns the mapping. -/
def processSubcategories (mapping : ExtensionMapping) (parentPath : String) :
    List (String × Category) → ExtensionMapping
  | [] => mapping
  | (subName, subCat) :: rest =>
    let currentPath := filepath.Join [parentPath, subName]
    processSubcategories (processCategory mapping currentPath subCat) parentPath rest

end

/-- The loop `for topName, rawData := range config.Categories` of `buildExtensionMapping`. -/
def buildLoop (mapping : ExtensionMapping) : List (String × Json) → Except String ExtensionMapping
  | [] => Except.ok mapping
  | (topName, rawData) :: rest =>
    match parseCategory rawData with
    | Except.error e =>
      Except.error ("error parsing top-level category " ++ topName ++ ": " ++ e)
    | Except.ok category =>
      let mapping1 := addExtensions mapping topName category.Extensions
      let mapping2 := processSubcategories mapping1 topName category.Subcategories
      buildLoop mapping2 rest

/-- Go `buildExtensionMapping`. -/
def buildExtensionMapping (config : Config) : Except String ExtensionMapping :=
  buildLoop [] config.Categories

/-! ## Vocabulary of the statements about the category resolver -/

/-- The categories of a configuration after `parseCategory`, in the order of the configuration;
the first failure is returned. -/
def parseAll : List (String × Json) → Except String (List (String × Category))
  | [] => Except.ok []
  | (topName, rawData) :: rest =>
    match parseCategory rawData with
    | Except.error e =>
      Except.error ("error parsing top-level category " ++ topName ++ ": " ++ e)
    | Except.ok category =>
      match parseAll rest with
      | Except.error e => Except.error e
      | Except.ok cats => Except.ok ((topName, category) :: cats)

mutual

/-- Every extension listed in the subtree of a category, each with the names on the way from the
top-level category to the node that lists it; `chain` holds the names down to this category. -/
def categoryListings (chain : List String) : Category → List (List String × String)
  | Category.mk exts subs => exts.map (fun e => (chain, e)) ++ subListings chain subs

/-- The listings of the subcategories of the node reached by `chain`. -/
def subListings (chain : List String) : List (String × Category) → List (List String × String)
  | [] => []
  | (subName, subCat) :: rest =>
    categoryListings (chain ++ [subName]) subCat ++ subListings chain rest

end

/-- Every extension listed anywhere in the parsed configuration, with the chain `[t, s1, .., sk]`
of the node that lists it. -/
def configListings : List (String × Category) → List (List String × String)
  | [] => []
  | (topName, category) :: rest => categoryListings [topName] category ++ configListings rest

/-- The path of a chain `[t, s1, .., sk]`: `t` itself, joined with `s1`, then with `s2`, and so on,
each time by `filepath.Join`. -/
def joinChain : List String → String
  | [] => ""
  | t :: ss => ss.foldl (fun path s => filepath.Join [path, s]) t

/-- A plain path component: not empty, not `.` or `..`, and without a separator. -/
def plainName (s : String) : Bool :=
  s.data ≠ [] && s.data ≠ ['.'] && s.data ≠ ['.', '.'] && !filepath.hasSeparator s.data

/-- The normalisation the specification describes for a configured extension: lower-case, with a
leading dot. -/
def lowerDotted (caseTable : Char → Char) (ext : String) : String :=
  ensureDot (strings.ToLower caseTable ext)

/-- A configuration whose categories are all flat string arrays. -/
def flatConfig (cats : List (String × List String)) : Config :=
  { Categories := cats.map (fun tc => (tc.1, Json.arr (tc.2.map Json.str))) }

/-- The writes `mapping.ExtToPath[k] = v` of a list of pairs, one after the other. -/
def applyWrites (mapping : ExtensionMapping) (ws : List (String × String)) : ExtensionMapping :=
  ws.foldl (fun m kv => mapSet m kv.1 kv.2) mapping

/-- The write caused by a listing: the extension with its dot, mapped to the path of the chain. -/
def listingWrite (l : List String × String) : String × String :=
  (ensureDot l.2, joinChain l.1)

/-! ## Vocabulary of the statements about `parseCategory` -/

/-- The specification's reading of the accepted shapes: the value is an array whose elements are
all strings, or any other array, or an object. -/
def matchesAcceptedShape : Json → Bool
  | Json.arr _ => true
  | Json.obj _ => true
  | _ => false

mutual

/-- Whether the value, or the value of some subcategory key that `parseCategory` descends into, is
a JSON string, number or boolean. -/
def scalarReached : Json → Bool
  | Json.null => false
  | Json.bool _ => true
  | Json.num _ => true
  | Json.str _ => true
  | Json.arr items =>
    match json.stringElems items with
    | some _ => false
    | none => scalarInItems items
  | Json.obj fields => scalarInFields fields

/-- The same for the items of a mixed array: only its objects are descended into. -/
def scalarInItems : List Json → Bool
  | [] => false
  | Json.obj fields :: rest => scalarInFields fields || scalarInItems rest
  | Json.null :: rest => scalarInItems rest
  | Json.bool _ :: rest => scalarInItems rest
  | Json.num _ :: rest => scalarInItems rest
  | Json.str _ :: rest => scalarInItems rest
  | Json.arr _ :: rest => scalarInItems rest

/-- The same for the keys of an object: the value kept for each key is descended into. -/
def scalarInFields : List (String × Json) → Bool
  | [] => false
  | (subName, subData) :: rest =>
    (!json.overwrittenLater subName rest && scalarReached subData) || scalarInFields rest

end

/-- Whether a result of `parseCategory` is an error. -/
def isError (r : Except String Category) : Bool :=
  match r with
  | Except.error _ => true
  | Except.ok _ => false

/-- The configuration of the concrete scenario of the specification. -/
def scenarioConfig : Config :=
  { Categories :=
      [("images", Json.arr [Json.str ".jpg"]),
       ("docs", Json.obj [("text", Json.arr [Json.str ".txt"])])] }

/-! ## `internal/utils/organize.go`: the tree classifier -/

/-- Go `types.OrganizeOptions`. -/
structure OrganizeOptions where
  ConfigPath : String
  SourcePath : String
  NumWorkers : Int
  Recursive : Bool
  ShowProgress : Bool

/-- A directory entry as `filepath.WalkDir` meets it: a regular file, or a directory with its
entries in the order `os.ReadDir` returns them. -/
inductive Tree where
  | file (name : String) : Tree
  | dir (name : String) (entries : List Tree) : Tree

/-- The result of `filepath.Rel(opts.SourcePath, path)` for an entry named `name` of the directory
whose relative path is `relDir`; the source root itself has relative path `.`. For a path that the
walk reached from the root `filepath.Rel` does not fail, so the error branches that follow it in
the callbacks are never taken. -/
def relChild (relDir name : String) : String :=
  if relDir = "." then name else relDir ++ "/" ++ name

/-- The set `targetFolders` built in both passes of `OrganizeFiles`: the first component of every
destination path of the mapping. -/
def targetFolders (extToFolder : ExtensionMapping) : List String :=
  extToFolder.map (fun kv => (strings.Split kv.2 filepath.Separator).headD "")

/-- The test of the counting pass (lines 55-73) that ends in `return nil` before
`stats.TotalFiles++`: the relative path has more than two parts, the first is a target folder and
the second is the extension of the file name without its dot. -/
def countingSkips (extToFolder : ExtensionMapping) (relPath name : String) : Bool :=
  match strings.Split (filepath.ToSlash relPath) '/' with
  | part0 :: part1 :: _ :: _ =>
    if (targetFolders extToFolder).contains part0 then
      if part1 = strings.TrimPrefix (filepath.Ext name) "." then true else false
    else false
  | _ => false

/-- The test of the dispatching pass (lines 132-152) that ends in the file being counted as
processed and skipped: as in the counting pass, and the file name starts with a dot. -/
def dispatchSkips (extToFolder : ExtensionMapping) (relPath name : String) : Bool :=
  match strings.Split (filepath.ToSlash relPath) '/' with
  | part0 :: part1 :: _ :: _ =>
    if (targetFolders extToFolder).contains part0 then
      if strings.HasPrefix name "." && part1 = strings.TrimPrefix (filepath.Ext name) "." then true
      else false
    else false
  | _ => false

/-- The callback of the counting pass on a regular file. -/
def countFile (extToFolder : ExtensionMapping) (relPath name : String) (stats : Stats) : Stats :=
  if countingSkips extToFolder relPath name then stats
  else { stats with TotalFiles := stats.TotalFiles + 1 }

mutual

/-- The counting pass (the first `filepath.WalkDir`) on one entry: a file is passed to the
callback, a directory is descended into. -/
def countEntry (extToFolder : ExtensionMapping) (relDir : String) : Tree → Stats → Stats
  | Tree.file name, stats => countFile extToFolder (relChild relDir name) name stats
  | Tree.dir name entries, stats => countEntries extToFolder (relChild relDir name) entries stats

/-- The counting pass on the entries of a directory, in order. -/
def countEntries (extToFolder : ExtensionMapping) (relDir : String) : List Tree → Stats → Stats
  | [], stats => stats
  | entry :: rest, stats =>
    countEntries extToFolder relDir rest (countEntry extToFolder relDir entry stats)

end

/-- The state of the dispatching pass: the counters and the jobs sent to the channel so far. -/
structure Dispatch where
  stats : Stats
  jobs : List FileJob
deriving DecidableEq, Repr

/-- The two increments of a file that is skipped. -/
def Dispatch.skip (st : Dispatch) : Dispatch :=
  { st with stats := st.stats.IncrementProcessed.IncrementSkipped }

/-- The callback of the dispatching pass on a regular file (lines 123-177). -/
def dispatchFile (caseTable : Char → Char) (extToFolder : ExtensionMapping)
    (sourcePath path relPath name : String) (st : Dispatch) : Dispatch :=
  if dispatchSkips extToFolder relPath name then st.skip
  else
    let ext := strings.ToLower caseTable (filepath.Ext name)
    if ext = "" then st.skip
    else
      match mapGet extToFolder ext with
      | some folder =>
        let extFolder := String.mk (ext.data.drop 1)
        { st with jobs := st.jobs ++
            [{ SourcePath := path,
               TargetDir := filepath.Join [sourcePath, folder, extFolder],
               Filename := name }] }
      | none => st.skip

/-- The callback of the dispatching pass on a directory (lines 105-121): whether it answers
`fs.SkipDir`. -/
def prunesDir (opts : OrganizeOptions) (path relPath : String) : Bool :=
  if !opts.Recursive && path ≠ opts.SourcePath then
    if !strings.Contains relPath filepath.Separator && relPath ≠ "." then true else false
  else false

mutual

/-- The dispatching pass (the second `filepath.WalkDir`) on one entry of the directory with path
`dirPath` and relative path `relDir`. -/
def dispatchEntry (caseTable : Char → Char) (extToFolder : ExtensionMapping)
    (opts : OrganizeOptions) (dirPath relDir : String) : Tree → Dispatch → Dispatch
  | Tree.file name, st =>
    dispatchFile caseTable extToFolder opts.SourcePath (filepath.Join [dirPath, name])
      (relChild relDir name) name st
  | Tree.dir name entries, st =>
    if prunesDir opts (filepath.Join [dirPath, name]) (relChild relDir name) then st
    else
      dispatchEntries caseTable extToFolder opts (filepath.Join [dirPath, name])
        (relChild relDir name) entries st

/-- The dispatching pass on the entries of a directory, in order. -/
def dispatchEntries (caseTable : Char → Char) (extToFolder : ExtensionMapping)
    (opts : OrganizeOptions) (dirPath relDir : String) : List Tree → Dispatch → Dispatch
  | [], st => st
  | entry :: rest, st =>
    dispatchEntries caseTable extToFolder opts dirPath relDir rest
      (dispatchEntry caseTable extToFolder opts dirPath relDir entry st)

end

/-! ## `internal/utils/organize.go`: the worker -/

/-- Go `fmt.Sprintf("%s_%d%s", baseName, counter, ext)`. -/
def numberedName (baseName : String) (counter : Nat) (ext : String) : String :=
  baseName ++ "_" ++ Nat.repr counter ++ ext

/-- The answers of `os.Stat` that `worker` tells apart: no error (`err == nil`), an error for
which `os.IsNotExist` holds, and any other error (a name that is too long, a directory that may not
be searched, ...). -/
inductive StatResult where
  | found : StatResult
  | notExist : StatResult
  | otherError : StatResult
deriving DecidableEq, Repr

/-- The loop of `worker` (lines 353-360) that looks for a free name: `stat` is `os.Stat`,
`counter` is the number tried next. The loop is left only when `os.IsNotExist(err)` holds; after
any other answer the next number is tried. The loop of the source has no bound; `fuel` bounds the
number of names tried, and `none` means the bound was reached. -/
def freeTarget (stat : String → StatResult) (targetDir baseName ext : String) :
    Nat → Nat → Option String
  | 0, _ => none
  | fuel + 1, counter =>
    let targetPath := filepath.Join [targetDir, numberedName baseName counter ext]
    if stat targetPath = StatResult.notExist then some targetPath
    else freeTarget stat targetDir baseName ext fuel (counter + 1)

/-- The target path chosen by `worker` (lines 344-361): the numbered names are tried when
`os.Stat` of the file name in the target directory answers without error (`err == nil`); after any
other answer the path of the file name itself is kept. -/
def chooseTarget (stat : String → StatResult) (targetDir filename : String) (fuel : Nat) :
    Option String :=
  let targetPath := filepath.Join [targetDir, filename]
  if stat targetPath = StatResult.found then
    let ext := filepath.Ext filename
    let baseName := strings.TrimSuffix filename ext
    freeTarget stat targetDir baseName ext fuel 1
  else some targetPath

/-- What the file operations of `worker` do: whether `os.MkdirAll` succeeds on a directory,
whether the move (`os.Rename`, or else `moveFileFallback`) from a path to a path succeeds, and
whether `os.Stat` of a path fails with an error other than the one of a path that does not
exist. -/
structure FileOps where
  mkdirOk : String → Bool
  moveOk : String → String → Bool
  statFails : String → Bool

/-- Go `os.Stat(path)` as far as `worker` looks at it, when `paths` are the paths that exist. -/
def osStat (ops : FileOps) (paths : List String) (path : String) : StatResult :=
  if ops.statFails path then StatResult.otherError
  else if paths.contains path then StatResult.found
  else StatResult.notExist

/-- The state of the workers: the counters and the paths that exist (files and directories). -/
structure WorkerState where
  stats : Stats
  paths : List String
deriving DecidableEq, Repr

/-- The body of the loop of `worker` for one job (lines 334-377). A failed `os.MkdirAll` or a
failed move counts the file as processed and skipped; a move that succeeds takes the source path
away, makes the target path exist and counts the file as processed and organized. The directory
made by `os.MkdirAll` is recorded when it is new. `none` means that the search for a free name did
not end within `fuel` names. -/
def workerJob (ops : FileOps) (fuel : Nat) (st : WorkerState) (job : FileJob) :
    Option WorkerState :=
  if !ops.mkdirOk job.TargetDir then
    some { st with stats := st.stats.IncrementProcessed.IncrementSkipped }
  else
    let paths1 := if st.paths.contains job.TargetDir then st.paths else st.paths ++ [job.TargetDir]
    match chooseTarget (osStat ops paths1) job.TargetDir job.Filename fuel with
    | none => none
    | some targetPath =>
      if ops.moveOk job.SourcePath targetPath then
        some { stats := st.stats.IncrementProcessed.IncrementOrganized,
               paths := paths1.erase job.SourcePath ++ [targetPath] }
      else
        some { stats := st.stats.IncrementProcessed.IncrementSkipped, paths := paths1 }

/-- Go `worker`, for all jobs of the channel one after the other; every search for a free name
may try `fuel` names. -/
def worker (ops : FileOps) (fuel : Nat) : List FileJob → WorkerState → Option WorkerState
  | [], st => some st
  | job :: rest, st =>
    match workerJob ops fuel st job with
    | none => none
    | some st1 => worker ops fuel rest st1

/-! ## `internal/utils/organize.go`: `OrganizeFiles` -/

mutual

/-- The paths of an entry of the directory `dirPath` and of everything below it. -/
def entryPaths (dirPath : String) : Tree → List String
  | Tree.file name => [filepath.Join [dirPath, name]]
  | Tree.dir name entries =>
    filepath.Join [dirPath, name] :: entriesPaths (filepath.Join [dirPath, name]) entries

/-- The paths of the entries of the directory `dirPath` and of everything below them. -/
def entriesPaths (dirPath : String) : List Tree → List String
  | [] => []
  | entry :: rest => entryPaths dirPath entry ++ entriesPaths dirPath rest

end

/-- How a call of `OrganizeFiles` ends: with an error, never (the walk waits for room in the job
channel that no worker will make), or with the counters; `paths` are the paths that exist
afterwards. `searching` is the answer of the model when a search for a free name has not ended
within the bound on its tries. -/
inductive RunResult where
  | failed (err : String) : RunResult
  | blocked : RunResult
  | searching : RunResult
  | done (stats : Stats) (paths : List String) : RunResult
deriving DecidableEq, Repr

/-- The capacity of the job channel: `make(chan types.FileJob, 100)`. -/
def jobBuffer : Nat := 100

/-- Go `OrganizeFiles` from the extension mapping on, for a source directory that can be read and
has the given entries. The counting pass and the dispatching pass walk the directory as it was at
the call; the jobs are then handled one after the other in the order they were sent (the counters
only add up, so the order of the workers does not change them). Without a worker the jobs stay in
the channel, and the walk never ends when there are more jobs than the channel holds. The progress
display only reads the counters and is left out. Every search for a free name may try `fuel`
names. -/
def organizeWith (caseTable : Char → Char) (extToFolder : ExtensionMapping)
    (opts : OrganizeOptions) (ops : FileOps) (fuel : Nat) (entries : List Tree) : RunResult :=
  let stats := countEntries extToFolder "." entries
    { TotalFiles := 0, ProcessedFiles := 0, OrganizedFiles := 0, SkippedFiles := 0 }
  let st := dispatchEntries caseTable extToFolder opts opts.SourcePath "." entries
    { stats := stats, jobs := [] }
  let paths := opts.SourcePath :: entriesPaths opts.SourcePath entries
  if opts.NumWorkers ≤ 0 then
    if st.jobs.length > jobBuffer then RunResult.blocked
    else RunResult.done st.stats paths
  else
    match worker ops fuel st.jobs { stats := st.stats, paths := paths } with
    | none => RunResult.searching
    | some final => RunResult.done final.stats final.paths

/-- Go `OrganizeFiles`, for the configuration that `loadConfig` returned. -/
def OrganizeFiles (caseTable : Char → Char) (config : Config) (opts : OrganizeOptions)
    (ops : FileOps) (fuel : Nat) (entries : List Tree) : RunResult :=
  match buildExtensionMapping config with
  | Except.error e => RunResult.failed ("error building extension mapping: " ++ e)
  | Except.ok mapping => organizeWith caseTable mapping opts ops fuel entries

/-! ## Vocabulary of the statements about the worker -/

/-- The number written by a list of decimal digits. -/
def decimalValue (cs : List Char) : Nat :=
  cs.foldl (fun acc c => acc * 10 + (c.toNat - 48)) 0

/-- The numbered candidate path that `worker` tries for the number `counter`. -/
def numberedTarget (targetDir filename : String) (counter : Nat) : String :=
  filepath.Join [targetDir,
    numberedName (strings.TrimSuffix filename (filepath.Ext filename)) counter
      (filepath.Ext filename)]

/-! ## `internal/utils/cleaner.go` -/

mutual

/-- The callback `removeIfEmpty` and the descent of `filepath.WalkDir` on one entry below the
root, on a tree where every `os.ReadDir` and `os.Remove` succeeds: what is left of the entry, and
how many directories were removed. A file is left alone. A directory that has no entry when the
callback reads it is removed and counted; `WalkDir` then fails to read it, reports that to the
callback and gets `SkipDir`. A directory with entries stays and its entries are walked. -/
def cleanupEntry (siblingsSkipped : Bool) : Tree → Option Tree × Nat
  | Tree.file name => (some (Tree.file name), 0)
  | Tree.dir _ [] => (none, 1)
  | Tree.dir name (entry :: rest) =>
    let r := cleanupEntries siblingsSkipped (entry :: rest)
    (some (Tree.dir name r.1), r.2)

/-- One pass over the entries of a directory, in order. `siblingsSkipped` tells how `WalkDir`
treats the `SkipDir` answered for a directory that was just removed: releases of Go before 1.19
leave the loop over the entries of the parent (`true`), later ones go on with the next entry
(`false`). -/
def cleanupEntries (siblingsSkipped : Bool) : List Tree → List Tree × Nat
  | [] => ([], 0)
  | entry :: rest =>
    match cleanupEntry siblingsSkipped entry with
    | (none, n) =>
      if siblingsSkipped then (rest, n)
      else
        let r := cleanupEntries siblingsSkipped rest
        (r.1, n + r.2)
    | (some entry1, n) =>
      let r := cleanupEntries siblingsSkipped rest
      (entry1 :: r.1, n + r.2)

end

/-- The loop `for` of `CleanupEmptyDirs` on the entries of the root: passes are made until one
removes nothing. The root itself is never a candidate (`filepath.Clean(path) == rootPath`). The
loop of the source has no bound; `fuel` bounds the number of passes and `none` means the bound was
reached. -/
def cleanupLoop (siblingsSkipped : Bool) : Nat → List Tree → Nat → Option (List Tree × Nat)
  | 0, _, _ => none
  | fuel + 1, entries, removedCount =>
    let currentRemovedCount := removedCount
    let r := cleanupEntries siblingsSkipped entries
    let removedCount1 := removedCount + r.2
    if removedCount1 = currentRemovedCount then some (r.1, removedCount1)
    else cleanupLoop siblingsSkipped fuel r.1 removedCount1

/-- Go `CleanupEmptyDirs` for a root directory with the given entries: the entries that are left
and the number of directories removed. -/
def CleanupEmptyDirs (siblingsSkipped : Bool) (fuel : Nat) (entries : List Tree) :
    Option (List Tree × Nat) :=
  cleanupLoop siblingsSkipped fuel entries 0

/-! ## Vocabulary of the statements about the cleanup -/

mutual

/-- Whether the subtree of the entry contains a file. -/
def hasFile : Tree → Bool
  | Tree.file _ => true
  | Tree.dir _ entries => anyHasFile entries

/-- Whether some entry of the list contains a file. -/
def anyHasFile : List Tree → Bool
  | [] => false
  | entry :: rest => hasFile entry || anyHasFile rest

end

mutual

/-- The entry without the directories below it whose subtree contains no file; nothing when the
entry itself is such a directory. -/
def pruneEntry : Tree → List Tree
  | Tree.file name => [Tree.file name]
  | Tree.dir name entries =>
    if anyHasFile entries then [Tree.dir name (pruneEntries entries)] else []

/-- The entries without every directory whose subtree contains no file. -/
def pruneEntries : List Tree → List Tree
  | [] => []
  | entry :: rest => pruneEntry entry ++ pruneEntries rest

end

mutual

/-- The number of directories in the subtree of the entry, itself included, whose subtree
contains no file. -/
def fileFreeDirs : Tree → Nat
  | Tree.file _ => 0
  | Tree.dir _ entries => (if anyHasFile entries then 0 else 1) + fileFreeDirsIn entries

/-- The number of directories below the root whose subtree contains no file. -/
def fileFreeDirsIn : List Tree → Nat
  | [] => 0
  | entry :: rest => fileFreeDirs entry + fileFreeDirsIn rest

end

mutual

/-- The number of directories in the subtree of the entry, itself included. -/
def dirCount : Tree → Nat
  | Tree.file _ => 0
  | Tree.dir _ entries => 1 + dirCountIn entries

/-- The number of directories below the root. -/
def dirCountIn : List Tree → Nat
  | [] => 0
  | entry :: rest => dirCount entry + dirCountIn rest

end

mutual

/-- Whether no directory in the subtree of the entry, itself included, is empty. -/
def noEmptyDir : Tree → Bool
  | Tree.file _ => true
  | Tree.dir _ [] => false
  | Tree.dir _ (entry :: rest) => noEmptyDirIn (entry :: rest)

/-- Whether no directory below the root is empty. -/
def noEmptyDirIn : List Tree → Bool
  | [] => true
  | entry :: rest => noEmptyDir entry && noEmptyDirIn rest

end

mutual

/-- The files in the subtree of the entry, each as the list of names leading to it. -/
def filesOf : Tree → List (List String)
  | Tree.file name => [[name]]
  | Tree.dir name entries => (filesIn entries).map (fun p => name :: p)

/-- The files below the root, each as the list of names leading to it. -/
def filesIn : List Tree → List (List String)
  | [] => []
  | entry :: rest => filesOf entry ++ filesIn rest

end

/-! ## Vocabulary of the statements about a run of `OrganizeFiles` -/

/-- A regular file as a walk meets it: its path, its path relative to the source root and its
name. -/
structure Visit where
  path : String
  relPath : String
  name : String
deriving DecidableEq, Repr

mutual

/-- The files that the counting pass meets in the subtree of an entry, in the order of the
walk. -/
def filesMet (dirPath relDir : String) : Tree → List Visit
  | Tree.file name =>
    [{ path := filepath.Join [dirPath, name], relPath := relChild relDir name, name := name }]
  | Tree.dir name entries =>
    filesMetIn (filepath.Join [dirPath, name]) (relChild relDir name) entries

/-- The files that the counting pass meets below a directory. -/
def filesMetIn (dirPath relDir : String) : List Tree → List Visit
  | [] => []
  | entry :: rest => filesMet dirPath relDir entry ++ filesMetIn dirPath relDir rest

end

mutual

/-- The files that the dispatching pass meets in the subtree of an entry: those of the counting
pass that are not below a pruned directory. -/
def filesDispatched (opts : OrganizeOptions) (dirPath relDir : String) : Tree → List Visit
  | Tree.file name =>
    [{ path := filepath.Join [dirPath, name], relPath := relChild relDir name, name := name }]
  | Tree.dir name entries =>
    if prunesDir opts (filepath.Join [dirPath, name]) (relChild relDir name) then []
    else filesDispatchedIn opts (filepath.Join [dirPath, name]) (relChild relDir name) entries

/-- The files that the dispatching pass meets below a directory. -/
def filesDispatchedIn (opts : OrganizeOptions) (dirPath relDir : String) :
    List Tree → List Visit
  | [] => []
  | entry :: rest =>
    filesDispatched opts dirPath relDir entry ++ filesDispatchedIn opts dirPath relDir rest

end

/-- Whether an entry is a regular file. -/
def isFile : Tree → Bool
  | Tree.file _ => true
  | Tree.dir _ _ => false

/-- File operations that always succeed: every directory can be made, every move works, and
`os.Stat` fails for no other reason than a path that does not exist. -/
def allSucceed : FileOps :=
  { mkdirOk := fun _ => true, moveOk := fun _ _ => true, statFails := fun _ => false }

/-- The options of the scenarios: source root `/src`, four workers. -/
def scenarioOptions (recursive : Bool) : OrganizeOptions :=
  { ConfigPath := "config.json", SourcePath := "/src", NumWorkers := 4, Recursive := recursive,
    ShowProgress := false }

/-- The relative path at which a first run places a file: the mapped destination, the folder named
after the lower-cased extension without its dot, and the name. -/
def placedRelPath (caseTable : Char → Char) (folder name : String) : String :=
  relChild (relChild (relChild "." folder)
    (strings.TrimPrefix (strings.ToLower caseTable (filepath.Ext name)) ".")) name

/-- File operations in which `os.Stat` fails, with an error other than the one of a missing path,
for every path of more than 13 characters (a small stand-in for the limit on the length of a
name), and everything else succeeds. -/
def longNamesFail : FileOps :=
  { mkdirOk := fun _ => true, moveOk := fun _ _ => true,
    statFails := fun path => decide (13 < path.length) }

/-! ## Vocabulary of the statements about `filepath.Clean` -/

/-- The shape of the elements kept by `Clean`, last one first: every element is a non-empty name
without separator other than `.`, and `..` only occurs in a path that is not rooted, above nothing
but `..`. -/
def cleanStackOk (rooted : Bool) : List (List Char) → Prop
  | [] => True
  | x :: below =>
    x ≠ [] ∧ x ≠ ['.'] ∧ (∀ c ∈ x, c ≠ '/') ∧ cleanStackOk rooted below ∧
      (x = ['.', '.'] → rooted = false ∧ ∀ y ∈ below, y = ['.', '.'])

/-- The characters `Clean` writes for the elements it kept, before an empty result is turned into
a dot. -/
def renderStack (rooted : Bool) (out : List (List Char)) : List Char :=
  if rooted then filepath.Separator :: strings.joinChars filepath.Separator out.reverse
  else strings.joinChars filepath.Separator out.reverse

/-! ## Vocabulary of the statements about the iteration order of the maps -/

/-- The loop `for topName, rawData := range config.Categories` of `buildExtensionMapping` over
categories on which `parseCategory` has succeeded: the entries of the map are met in the order of
the list. -/
def buildLoopParsed (mapping : ExtensionMapping) : List (String × Category) → ExtensionMapping
  | [] => mapping
  | (topName, category) :: rest =>
    let mapping1 := addExtensions mapping topName category.Extensions
    let mapping2 := processSubcategories mapping1 topName category.Subcategories
    buildLoopParsed mapping2 rest

mutual

/-- The category `c'` is the category `c` with its maps of subcategories, at every depth, met in
another order: the extensions (a slice) are the same list, and the subcategories of `c'` are a
permutation of the subcategories of `c`, each reordered below in the same sense. -/
def reorderedCategory : Category → Category → Prop
  | Category.mk exts subs, c' =>
    c'.Extensions = exts ∧ ∃ mid, reorderedEntries subs mid ∧ mid.Perm c'.Subcategories

/-- The entries of `other` carry, one by one, the names of the entries of the first list, each
with a reordered category. -/
def reorderedEntries : List (String × Category) → List (String × Category) → Prop
  | [], other => other = []
  | (name, c) :: rest, other =>
    ∃ c' rest', other = (name, c') :: rest' ∧ reorderedCategory c c' ∧ reorderedEntries rest rest'

end

/-- An iteration order of a map of categories: `order` holds the entries of `entries` in some
order, and every map of subcategories below them in some order as well. -/
def iterationOrder (entries order : List (String × Category)) : Prop :=
  ∃ mid, reorderedEntries entries mid ∧ mid.Perm order

/-- The path of the node that lists the dotted extension `k` last when the categories are
processed in the order `order`; `none` when no node lists it. -/
def lastListed (order : List (String × Category)) (k : String) : Option String :=
  ((configListings order).reverse.find? (fun l => ensureDot l.2 = k)).map
    (fun l => joinChain l.1)

/-- A configuration with a nested category that holds two subcategories, no extension being
listed twice. -/
def orderConfig : Config :=
  { Categories :=
      [("images", Json.arr [Json.str ".jpg"]),
       ("docs", Json.obj [("text", Json.arr [Json.str ".txt"]),
                          ("pdf", Json.arr [Json.str "pdf"])])] }

/-- The parsed categories of `orderConfig`. -/
def orderCats : List (String × Category) :=
  [("images", Category.mk [".jpg"] []),
   ("docs", Category.mk [] [("text", Category.mk [".txt"] []), ("pdf", Category.mk ["pdf"] [])])]

/-- The categories of `orderConfig` met in another order, at the top and below `docs`. -/
def orderCatsReordered : List (String × Category) :=
  [("docs", Category.mk [] [("pdf", Category.mk ["pdf"] []), ("text", Category.mk [".txt"] [])]),
   ("images", Category.mk [".jpg"] [])]

/-! ## Vocabulary of the statements about the extensions a configuration lists -/

mutual

/-- The extensions that a category value of the configuration document lists, each with the names
on the way to the node that lists it, read off the document as the specification describes the
three shapes: an array of strings lists its strings at this node; in an array of mixed values an
item that is a string array lists its strings at this node, an item that is an object lists what
the values of its keys list one name further down, any other item lists nothing; an object lists
what the values of its keys list one name further down. A `null` among strings counts as the empty
string, as the decoder reads it. -/
def documentListings (chain : List String) : Json → List (List String × String)
  | Json.arr items =>
    match json.stringElems items with
    | some extensions => extensions.map (fun e => (chain, e))
    | none => itemListings chain items
  | Json.obj fields => fieldListings chain fields
  | Json.null => []
  | Json.bool _ => []
  | Json.num _ => []
  | Json.str _ => []

/-- The listings of the items of an array of mixed values. -/
def itemListings (chain : List String) : List Json → List (List String × String)
  | [] => []
  | Json.arr strs :: rest =>
    (match json.stringElems strs with
      | some strArray => strArray.map (fun e => (chain, e))
      | none => []) ++ itemListings chain rest
  | Json.obj fields :: rest => fieldListings chain fields ++ itemListings chain rest
  | Json.null :: rest => itemListings chain rest
  | Json.bool _ :: rest => itemListings chain rest
  | Json.num _ :: rest => itemListings chain rest
  | Json.str _ :: rest => itemListings chain rest

/-- The listings of the keys of an object: what each value lists below the name of its key. -/
def fieldListings (chain : List String) : List (String × Json) → List (List String × String)
  | [] => []
  | (subName, subData) :: rest =>
    documentListings (chain ++ [subName]) subData ++ fieldListings chain rest

end

/-- Every extension listed anywhere in the configuration document, with the chain
`[t, s1, .., sk]` of the node that lists it. -/
def listedIn (config : Config) : List (List String × String) :=
  (config.Categories.map (fun tv => documentListings [tv.1] tv.2)).flatten

/-- The subcategory names that the items of an array of mixed values give to one node: the keys of
all its objects. -/
def itemNames : List Json → List String
  | [] => []
  | Json.obj fields :: rest => fields.map Prod.fst ++ itemNames rest
  | Json.null :: rest => itemNames rest
  | Json.bool _ :: rest => itemNames rest
  | Json.num _ :: rest => itemNames rest
  | Json.str _ :: rest => itemNames rest
  | Json.arr _ :: rest => itemNames rest

mutual

/-- No node of the category value is given the same subcategory name twice: the keys of an object
are pairwise different, the keys of all objects of one array of mixed values are pairwise
different, and the same holds below. -/
def namesUnique : Json → Bool
  | Json.arr items => decide (itemNames items).Nodup && namesUniqueInItems items
  | Json.obj fields => decide (fields.map Prod.fst).Nodup && namesUniqueInFields fields
  | Json.null => true
  | Json.bool _ => true
  | Json.num _ => true
  | Json.str _ => true

/-- The same below the objects among the items of an array. -/
def namesUniqueInItems : List Json → Bool
  | [] => true
  | Json.obj fields :: rest => namesUniqueInFields fields && namesUniqueInItems rest
  | Json.null :: rest => namesUniqueInItems rest
  | Json.bool _ :: rest => namesUniqueInItems rest
  | Json.num _ :: rest => namesUniqueInItems rest
  | Json.str _ :: rest => namesUniqueInItems rest
  | Json.arr _ :: rest => namesUniqueInItems rest

/-- The same below the values of the keys of an object. -/
def namesUniqueInFields : List (String × Json) → Bool
  | [] => true
  | (_, subData) :: rest => namesUnique subData && namesUniqueInFields rest

end

/-- A configuration whose category `a` is an array of two objects that both name the
subcategory `b`. -/
def repeatedNameConfig : Config :=
  { Categories :=
      [("a", Json.arr [Json.obj [("b", Json.arr [Json.str ".x"])],
                       Json.obj [("b", Json.arr [Json.str ".y"])]])] }

/-- A configuration with an array of mixed values (a string array and an object) and an object. -/
def mixedConfig : Config :=
  { Categories :=
      [("images", Json.arr [Json.arr [Json.str ".jpg", Json.str "png"],
                            Json.obj [("raw", Json.arr [Json.str ".cr2"])]]),
       ("docs", Json.obj [("text", Json.arr [Json.str ".txt"])])] }

end FolderOrganizer

/-! # Theorems -/

namespace FolderOrganizer

/-! ## Facts about the models of `strings` -/

theorem string_eq_empty_iff (s : String) : s = "" ↔ s.data = [] := by
  constructor
  · intro h; rw [h]
  · intro h
    cases s with
    | mk data =>
      simp only at h
      subst h
      rfl

theorem ToLower_eq_empty_iff (caseTable : Char → Char) (s : String) :
    strings.ToLower caseTable s = "" ↔ s = "" := by
  rw [string_eq_empty_iff, string_eq_empty_iff]
  simp [strings.ToLower]

theorem TrimPrefix_dot (s : String) (tail : List Char) (h : s.data = '.' :: tail) :
    strings.TrimPrefix s "." = String.mk (s.data.drop 1) := by
  have hp : strings.HasPrefix s "." = true := by
    simp [strings.HasPrefix, h, strings.hasPrefixChars]
  simp [strings.TrimPrefix, hp]

theorem hasPrefixChars_append (p q : List Char) : strings.hasPrefixChars (p ++ q) p = true := by
  induction p with
  | nil => cases q <;> rfl
  | cons c p ih => simp [strings.hasPrefixChars, ih]

theorem splitChars_ne_nil (sep : Char) (cs : List Char) : strings.splitChars sep cs ≠ [] := by
  induction cs with
  | nil => simp [strings.splitChars]
  | cons c cs ih =>
    rw [strings.splitChars]
    split
    · simp
    · split <;> simp

theorem splitChars_append_sep (sep : Char) (x r : List Char) (hx : ∀ c ∈ x, c ≠ sep) :
    strings.splitChars sep (x ++ sep :: r) = x :: strings.splitChars sep r := by
  induction x with
  | nil => simp [strings.splitChars]
  | cons c x ih =>
    have hc : c ≠ sep := hx c (List.mem_cons_self _ _)
    have ih1 := ih (fun d hd => hx d (List.mem_cons_of_mem _ hd))
    rw [List.cons_append, strings.splitChars, if_neg hc, ih1]

theorem splitChars_sepFree (sep : Char) (x : List Char) (hx : ∀ c ∈ x, c ≠ sep) :
    strings.splitChars sep x = [x] := by
  induction x with
  | nil => simp [strings.splitChars]
  | cons c x ih =>
    have hc : c ≠ sep := hx c (List.mem_cons_self _ _)
    have ih1 := ih (fun d hd => hx d (List.mem_cons_of_mem _ hd))
    simp only [strings.splitChars, if_neg hc, ih1]

theorem splitChars_append_sepFree (sep : Char) (V : List Char) :
    ∃ init last, strings.splitChars sep V = init ++ [last] ∧
      ∀ Y : List Char, (∀ c ∈ Y, c ≠ sep) →
        strings.splitChars sep (V ++ Y) = init ++ [last ++ Y] := by
  induction V with
  | nil =>
    refine ⟨[], [], rfl, ?_⟩
    intro Y hY
    simpa using splitChars_sepFree sep Y hY
  | cons c V ih =>
    obtain ⟨init, last, h1, h2⟩ := ih
    by_cases hc : c = sep
    · refine ⟨[] :: init, last, ?_, ?_⟩
      · rw [strings.splitChars, if_pos hc, h1]; rfl
      · intro Y hY
        rw [List.cons_append, strings.splitChars, if_pos hc, h2 Y hY]; rfl
    · cases init with
      | nil =>
        refine ⟨[], c :: last, ?_, ?_⟩
        · rw [strings.splitChars, if_neg hc, h1]; rfl
        · intro Y hY
          rw [List.cons_append, strings.splitChars, if_neg hc, h2 Y hY]; rfl
      | cons p ps =>
        refine ⟨(c :: p) :: ps, last, ?_, ?_⟩
        · rw [strings.splitChars, if_neg hc, h1]; rfl
        · intro Y hY
          rw [List.cons_append, strings.splitChars, if_neg hc, h2 Y hY]; rfl

theorem splitChars_append_sep_any (sep : Char) (A B : List Char) :
    strings.splitChars sep (A ++ sep :: B)
      = strings.splitChars sep A ++ strings.splitChars sep B := by
  induction A with
  | nil => simp [strings.splitChars]
  | cons c A ih =>
    by_cases hc : c = sep
    · rw [List.cons_append, strings.splitChars, if_pos hc, ih, strings.splitChars, if_pos hc]
      rfl
    · rw [List.cons_append, strings.splitChars, if_neg hc, ih, strings.splitChars, if_neg hc]
      have hne := splitChars_ne_nil sep A
      obtain ⟨p, ps, hp⟩ := List.exists_cons_of_ne_nil hne
      rw [hp]
      rfl

theorem splitChars_sepFree_pieces (sep : Char) (cs : List Char) :
    ∀ x ∈ strings.splitChars sep cs, ∀ c ∈ x, c ≠ sep := by
  induction cs with
  | nil =>
    intro x hx c hc
    simp only [strings.splitChars, List.mem_singleton] at hx
    rw [hx] at hc
    cases hc
  | cons d cs ih =>
    intro x hx
    rw [strings.splitChars] at hx
    by_cases hd : d = sep
    · rw [if_pos hd] at hx
      rcases List.mem_cons.mp hx with h | h
      · rw [h]
        intro c hc
        cases hc
      · exact ih x h
    · rw [if_neg hd] at hx
      have hne := splitChars_ne_nil sep cs
      obtain ⟨p, ps, hp⟩ := List.exists_cons_of_ne_nil hne
      rw [hp] at hx ih
      rcases List.mem_cons.mp hx with h | h
      · rw [h]
        intro c hc
        rcases List.mem_cons.mp hc with h1 | h1
        · rw [h1]; exact hd
        · exact ih p (List.mem_cons_self _ _) c h1
      · exact ih x (List.mem_cons_of_mem _ h)

theorem Split_three (a b c : List Char) (ha : ∀ x ∈ a, x ≠ '/') (hb : ∀ x ∈ b, x ≠ '/')
    (hc : ∀ x ∈ c, x ≠ '/') :
    strings.Split (String.mk (a ++ '/' :: (b ++ '/' :: c))) '/'
      = [String.mk a, String.mk b, String.mk c] := by
  simp only [strings.Split]
  rw [splitChars_append_sep '/' a _ ha, splitChars_append_sep '/' b _ hb,
    splitChars_sepFree '/' c hc]
  rfl

theorem joinChars_head (sep : Char) (c : Char) (x : List Char) (rest : List (List Char)) :
    ∃ tail, strings.joinChars sep ((c :: x) :: rest) = c :: tail := by
  cases rest with
  | nil => exact ⟨x, rfl⟩
  | cons y rest1 => exact ⟨_, rfl⟩

theorem joinChars_snoc (sep : Char) (pieces : List (List Char)) (hne : pieces ≠ [])
    (x : List Char) :
    strings.joinChars sep (pieces ++ [x]) = strings.joinChars sep pieces ++ sep :: x := by
  induction pieces with
  | nil => exact absurd rfl hne
  | cons y rest ih =>
    cases rest with
    | nil => simp [strings.joinChars]
    | cons z rest1 =>
      have ih1 := ih (by simp)
      rw [List.cons_append] at ih1
      rw [List.cons_append, List.cons_append, strings.joinChars, ih1, strings.joinChars]
      simp

theorem joinChars_snoc_any (sep : Char) (pieces : List (List Char)) :
    ∃ B, ∀ X : List Char, strings.joinChars sep (pieces ++ [X]) = B ++ X := by
  by_cases h : pieces = []
  · subst h
    exact ⟨[], fun X => rfl⟩
  · refine ⟨strings.joinChars sep pieces ++ [sep], fun X => ?_⟩
    rw [joinChars_snoc sep pieces h X]
    simp

theorem joinChars_ne_nil (sep : Char) (pieces : List (List Char)) (hne : pieces ≠ [])
    (hx : ∀ x ∈ pieces, x ≠ []) : strings.joinChars sep pieces ≠ [] := by
  cases pieces with
  | nil => exact absurd rfl hne
  | cons x rest =>
    obtain ⟨c, cs, hc⟩ := List.exists_cons_of_ne_nil (hx x (List.mem_cons_self _ _))
    obtain ⟨tail, ht⟩ := joinChars_head sep c cs rest
    rw [hc, ht]
    simp

theorem splitChars_joinChars (sep : Char) (pieces : List (List Char)) (hne : pieces ≠ [])
    (hfree : ∀ x ∈ pieces, ∀ c ∈ x, c ≠ sep) :
    strings.splitChars sep (strings.joinChars sep pieces) = pieces := by
  induction pieces with
  | nil => exact absurd rfl hne
  | cons x rest ih =>
    cases rest with
    | nil =>
      simp only [strings.joinChars]
      exact splitChars_sepFree sep x (hfree x (List.mem_cons_self _ _))
    | cons y rest1 =>
      simp only [strings.joinChars]
      rw [splitChars_append_sep sep x _ (hfree x (List.mem_cons_self _ _)),
        ih (by simp) (fun z hz => hfree z (List.mem_cons_of_mem _ hz))]

/-! ## Facts about the model of `filepath.Ext` -/

theorem lastDotSuffix_some (cs r : List Char) (h : filepath.lastDotSuffix cs = some r) :
    ∃ tail, r = '.' :: tail ∧ filepath.hasSeparator tail = false := by
  induction cs with
  | nil => simp [filepath.lastDotSuffix] at h
  | cons c cs ih =>
    rw [filepath.lastDotSuffix] at h
    cases hrec : filepath.lastDotSuffix cs with
    | some r1 =>
      rw [hrec] at h
      simp only [Option.some.injEq] at h
      subst h
      exact ih hrec
    | none =>
      rw [hrec] at h
      by_cases hc : (c = '.' && !filepath.hasSeparator cs) = true
      · rw [if_pos hc] at h
        simp only [Option.some.injEq] at h
        subst h
        simp only [Bool.and_eq_true, decide_eq_true_eq, Bool.not_eq_true'] at hc
        exact ⟨cs, by rw [hc.1], hc.2⟩
      · rw [if_neg hc] at h
        cases h

theorem Ext_data (name : String) :
    (filepath.Ext name).data = [] ∨
      ∃ tail, (filepath.Ext name).data = '.' :: tail ∧ filepath.hasSeparator tail = false := by
  unfold filepath.Ext
  cases h : filepath.lastDotSuffix name.data with
  | none => exact Or.inl rfl
  | some r =>
    obtain ⟨tail, rfl, ht⟩ := lastDotSuffix_some _ _ h
    exact Or.inr ⟨tail, rfl, ht⟩

theorem ToLower_Ext_data (caseTable : Char → Char) (name : String)
    (h : filepath.Ext name ≠ "") :
    ∃ tail, (strings.ToLower caseTable (filepath.Ext name)).data = '.' :: tail := by
  rcases Ext_data name with h0 | ⟨tail, ht, _⟩
  · exact absurd ((string_eq_empty_iff _).mpr h0) h
  · refine ⟨tail.map (unicode.ToLower caseTable), ?_⟩
    have hdot : unicode.ToLower caseTable '.' = '.' := rfl
    simp only [strings.ToLower, ht, List.map_cons, hdot]

theorem hasSeparator_false_iff (cs : List Char) :
    filepath.hasSeparator cs = false ↔ ∀ c ∈ cs, c ≠ '/' := by
  simp [filepath.hasSeparator, filepath.Separator]

theorem Ext_sepFree (name : String) : ∀ c ∈ (filepath.Ext name).data, c ≠ '/' := by
  intro c hc
  rcases Ext_data name with h0 | ⟨tail, ht, hsep⟩
  · rw [h0] at hc; cases hc
  · rw [ht] at hc
    rcases List.mem_cons.mp hc with h1 | h1
    · rw [h1]; decide
    · intro hcs
      have : filepath.hasSeparator tail = true := by
        simp only [filepath.hasSeparator, List.any_eq_true, decide_eq_true_eq]
        exact ⟨c, h1, hcs⟩
      rw [hsep] at this
      cases this

theorem TrimPrefix_Ext_sepFree (name : String) :
    ∀ c ∈ (strings.TrimPrefix (filepath.Ext name) ".").data, c ≠ '/' := by
  rcases Ext_data name with h0 | ⟨tail, ht, hsep⟩
  · have h1 : strings.TrimPrefix (filepath.Ext name) "." = filepath.Ext name := by
      simp [strings.TrimPrefix, strings.HasPrefix, h0, strings.hasPrefixChars]
    rw [h1, h0]
    intro c hc
    cases hc
  · rw [TrimPrefix_dot _ tail ht, ht]
    exact (hasSeparator_false_iff tail).mp hsep

theorem lastDotSuffix_suffix (cs r : List Char) (h : filepath.lastDotSuffix cs = some r) :
    ∃ pre, cs = pre ++ r := by
  induction cs with
  | nil => simp [filepath.lastDotSuffix] at h
  | cons c cs ih =>
    rw [filepath.lastDotSuffix] at h
    cases hrec : filepath.lastDotSuffix cs with
    | some r1 =>
      rw [hrec] at h
      simp only [Option.some.injEq] at h
      subst h
      obtain ⟨pre, hpre⟩ := ih hrec
      exact ⟨c :: pre, by rw [hpre]; rfl⟩
    | none =>
      rw [hrec] at h
      by_cases hc : (c = '.' && !filepath.hasSeparator cs) = true
      · rw [if_pos hc] at h
        simp only [Option.some.injEq] at h
        exact ⟨[], by rw [← h]; rfl⟩
      · rw [if_neg hc] at h
        cases h

theorem TrimSuffix_Ext (filename : String) :
    strings.TrimSuffix filename (filepath.Ext filename) ++ filepath.Ext filename = filename := by
  have hsuf : ∃ pre, filename.data = pre ++ (filepath.Ext filename).data := by
    unfold filepath.Ext
    cases h : filepath.lastDotSuffix filename.data with
    | none => exact ⟨filename.data, by simp⟩
    | some r => exact lastDotSuffix_suffix _ _ h
  obtain ⟨pre, hpre⟩ := hsuf
  have h1 : strings.HasSuffix filename (filepath.Ext filename) = true := by
    rw [strings.HasSuffix, hpre, List.reverse_append]
    exact hasPrefixChars_append _ _
  apply String.ext
  rw [String.data_append, strings.TrimSuffix, if_pos h1]
  simp only
  rw [hpre]
  simp

/-! ## `filepath.Clean` and `filepath.Join` on plain names -/

theorem foldl_cleanStep_plain (pieces : List (List Char)) (acc : List (List Char))
    (hplain : ∀ x ∈ pieces, x ≠ [] ∧ x ≠ ['.'] ∧ x ≠ ['.', '.']) :
    pieces.foldl (filepath.cleanStep false) acc = pieces.reverse ++ acc := by
  induction pieces generalizing acc with
  | nil => rfl
  | cons x rest ih =>
    obtain ⟨h1, h2, h3⟩ := hplain x (List.mem_cons_self _ _)
    rw [List.foldl_cons, ih _ (fun z hz => hplain z (List.mem_cons_of_mem _ hz))]
    simp [filepath.cleanStep, h1, h2, h3]

theorem plainName_iff (s : String) :
    plainName s = true ↔
      (s.data ≠ [] ∧ s.data ≠ ['.'] ∧ s.data ≠ ['.', '.'] ∧ ∀ c ∈ s.data, c ≠ '/') := by
  simp [plainName, filepath.hasSeparator, filepath.Separator, and_assoc]

theorem Clean_joinChars (pieces : List (List Char)) (hne : pieces ≠ [])
    (hplain : ∀ x ∈ pieces, x ≠ [] ∧ x ≠ ['.'] ∧ x ≠ ['.', '.'] ∧ ∀ c ∈ x, c ≠ '/') :
    filepath.Clean (String.mk (strings.joinChars '/' pieces))
      = String.mk (strings.joinChars '/' pieces) := by
  have hsplit := splitChars_joinChars '/' pieces hne (fun x hx => (hplain x hx).2.2.2)
  have hfold := foldl_cleanStep_plain pieces []
    (fun x hx => ⟨(hplain x hx).1, (hplain x hx).2.1, (hplain x hx).2.2.1⟩)
  cases pieces with
  | nil => exact absurd rfl hne
  | cons x rest =>
    obtain ⟨hx1, _, _, hx4⟩ := hplain x (List.mem_cons_self _ _)
    cases x with
    | nil => exact absurd rfl hx1
    | cons c x1 =>
      have hc : c ≠ '/' := hx4 c (List.mem_cons_self _ _)
      obtain ⟨tail, htail⟩ := joinChars_head '/' c x1 rest
      unfold filepath.Clean
      simp only [htail, filepath.Separator, hc, decide_False]
      rw [← htail, hsplit, hfold]
      simp [htail]

theorem Join_pair_plain (pieces : List String) (hne : pieces ≠ [])
    (hplain : ∀ s ∈ pieces, plainName s = true) (s : String) (hs : plainName s = true) :
    filepath.Join [strings.Join pieces '/', s] = strings.Join (pieces ++ [s]) '/' := by
  have hall : ∀ x ∈ (pieces ++ [s]).map String.data,
      x ≠ [] ∧ x ≠ ['.'] ∧ x ≠ ['.', '.'] ∧ ∀ c ∈ x, c ≠ '/' := by
    intro x hx
    obtain ⟨t, ht, rfl⟩ := List.mem_map.mp hx
    rcases List.mem_append.mp ht with h | h
    · exact (plainName_iff t).mp (hplain t h)
    · rw [List.mem_singleton] at h
      subst h
      exact (plainName_iff t).mp hs
  have hne1 : strings.Join pieces '/' ≠ "" := by
    cases pieces with
    | nil => exact absurd rfl hne
    | cons t rest =>
      have ht := ((plainName_iff t).mp (hplain t (List.mem_cons_self _ _))).1
      obtain ⟨c, x1, hcx⟩ := List.exists_cons_of_ne_nil ht
      obtain ⟨tail, htail⟩ := joinChars_head '/' c x1 (rest.map String.data)
      intro h
      have h2 := congrArg String.data h
      simp only [strings.Join, List.map_cons, hcx, htail] at h2
      cases h2
  have hjoin : strings.Join [strings.Join pieces '/', s] filepath.Separator
      = String.mk (strings.joinChars '/' ((pieces ++ [s]).map String.data)) := by
    simp only [strings.Join, filepath.Separator, List.map_cons, List.map_nil, List.map_append,
      strings.joinChars]
    rw [joinChars_snoc '/' (pieces.map String.data) (by simpa using hne)]
  unfold filepath.Join
  simp only [List.dropWhile, hne1, decide_False]
  rw [hjoin, Clean_joinChars _ (by simp) hall]
  rfl

theorem joinChain_snoc (chain : List String) (h : chain ≠ []) (s : String) :
    joinChain (chain ++ [s]) = filepath.Join [joinChain chain, s] := by
  cases chain with
  | nil => exact absurd rfl h
  | cons t ss => simp [joinChain, List.foldl_append]

theorem joinChain_plain (chain : List String) (hne : chain ≠ [])
    (hplain : ∀ s ∈ chain, plainName s = true) :
    joinChain chain = strings.Join chain '/' := by
  induction chain using List.reverseRecOn with
  | nil => exact absurd rfl hne
  | append_singleton init s ih =>
    by_cases hinit : init = []
    · subst hinit
      simp [joinChain, strings.Join, strings.joinChars]
    · rw [joinChain_snoc init hinit, ih hinit (fun t ht => hplain t (List.mem_append_left _ ht)),
        Join_pair_plain init hinit (fun t ht => hplain t (List.mem_append_left _ ht)) s
          (hplain s (by simp))]

/-! ## `filepath.Clean` on a path that ends in a plain last element -/

theorem cleanStep_real (rooted : Bool) (out : List (List Char)) (X : List Char)
    (hX : '_' ∈ X) : filepath.cleanStep rooted out X = X :: out := by
  have h1 : X ≠ [] := by intro h; rw [h] at hX; cases hX
  have h2 : X ≠ ['.'] := by intro h; rw [h] at hX; simp at hX
  have h3 : X ≠ ['.', '.'] := by intro h; rw [h] at hX; simp at hX
  simp [filepath.cleanStep, h1, h2, h3]

theorem Clean_append_real (V : List Char) :
    ∃ G : List Char, ∀ Y : List Char, (∀ c ∈ Y, c ≠ '/') → '_' ∈ Y →
      filepath.Clean (String.mk (V ++ Y)) = String.mk (G ++ Y) := by
  obtain ⟨init, last, _, hsplit⟩ := splitChars_append_sepFree '/' V
  cases V with
  | nil =>
    refine ⟨[], ?_⟩
    intro Y hY hmem
    cases Y with
    | nil => cases hmem
    | cons c Y1 =>
      have hc : c ≠ '/' := hY c (List.mem_cons_self _ _)
      have hs := splitChars_sepFree '/' (c :: Y1) hY
      unfold filepath.Clean
      simp only [List.nil_append, filepath.Separator, hc, decide_False, hs, List.foldl_cons,
        List.foldl_nil, cleanStep_real false [] (c :: Y1) hmem]
      simp [strings.joinChars]
  | cons v V1 =>
    obtain ⟨B, hB⟩ := joinChars_snoc_any '/'
      ((init.foldl (filepath.cleanStep (decide (v = '/'))) []).reverse)
    refine ⟨(if v = '/' then ['/'] else []) ++ B ++ last, ?_⟩
    intro Y hY hmem
    have hX : '_' ∈ last ++ Y := List.mem_append_right _ hmem
    have hs := hsplit Y hY
    rw [List.cons_append] at hs
    unfold filepath.Clean
    simp only [List.cons_append, filepath.Separator, hs, List.foldl_append, List.foldl_cons,
      List.foldl_nil, cleanStep_real _ _ _ hX, List.reverse_cons, hB]
    by_cases hv : v = '/'
    · simp [hv]
    · have hne : B ++ (last ++ Y) ≠ [] := by
        intro h
        rw [← List.append_assoc] at h
        rw [List.append_eq_nil] at h
        rw [h.2] at hmem
        cases hmem
      simp [hv, hne]

/-! ## `filepath.Join` of a joined path equals the join of all elements -/

theorem cleanStep_ok (rooted : Bool) (out : List (List Char)) (x : List Char)
    (hout : cleanStackOk rooted out) (hx : ∀ c ∈ x, c ≠ '/') :
    cleanStackOk rooted (filepath.cleanStep rooted out x) := by
  unfold filepath.cleanStep
  by_cases h1 : x = []
  · simp only [h1, if_true]; exact hout
  · by_cases h2 : x = ['.']
    · simp only [h1, h2, if_true, if_false]
      simpa using hout
    · by_cases h3 : x = ['.', '.']
      · simp only [h1, h2, h3, if_true, if_false]
        cases out with
        | nil =>
          cases rooted with
          | true => simp [cleanStackOk]
          | false => simp [cleanStackOk]
        | cons top below =>
          simp only
          obtain ⟨t1, t2, t3, t4, t5⟩ := hout
          by_cases ht : top = ['.', '.']
          · rw [if_pos ht]
            obtain ⟨hr, hall⟩ := t5 ht
            refine ⟨by simp, by simp, by simp, ⟨t1, t2, t3, t4, t5⟩, fun _ => ⟨hr, ?_⟩⟩
            intro y hy
            rcases List.mem_cons.mp hy with h | h
            · rw [h, ht]
            · exact hall y h
          · rw [if_neg ht]
            exact t4
      · simp only [h1, h2, h3, if_false]
        exact ⟨h1, h2, hx, hout, fun h => absurd h h3⟩

theorem foldl_cleanStep_ok (rooted : Bool) (pieces : List (List Char))
    (out : List (List Char)) (hout : cleanStackOk rooted out)
    (hp : ∀ x ∈ pieces, ∀ c ∈ x, c ≠ '/') :
    cleanStackOk rooted (pieces.foldl (filepath.cleanStep rooted) out) := by
  induction pieces generalizing out with
  | nil => exact hout
  | cons x rest ih =>
    rw [List.foldl_cons]
    exact ih _ (cleanStep_ok rooted out x hout (hp x (List.mem_cons_self _ _)))
      (fun y hy => hp y (List.mem_cons_of_mem _ hy))

theorem cleanStackOk_ne_nil (rooted : Bool) (out : List (List Char))
    (h : cleanStackOk rooted out) : ∀ x ∈ out, x ≠ [] := by
  induction out with
  | nil => intro x hx; cases hx
  | cons y below ih =>
    intro x hx
    rcases List.mem_cons.mp hx with h1 | h1
    · rw [h1]; exact h.1
    · exact ih h.2.2.2.1 x h1

theorem renderStack_cons (rooted : Bool) (x : List Char) (below : List (List Char))
    (hb : below ≠ []) :
    renderStack rooted (x :: below) = renderStack rooted below ++ '/' :: x := by
  have hrev : below.reverse ≠ [] := by simpa using hb
  unfold renderStack
  rw [List.reverse_cons, joinChars_snoc _ _ hrev]
  cases rooted <;> simp [filepath.Separator]

theorem replay_renderStack (rooted : Bool) (out : List (List Char))
    (h : cleanStackOk rooted out) :
    (strings.splitChars '/' (renderStack rooted out)).foldl (filepath.cleanStep rooted) []
      = out := by
  induction out with
  | nil =>
    cases rooted <;>
      simp [renderStack, strings.joinChars, strings.splitChars, filepath.Separator,
        filepath.cleanStep]
  | cons x below ih =>
    obtain ⟨x1, x2, x3, x4, x5⟩ := h
    have hstep : filepath.cleanStep rooted below x = x :: below := by
      unfold filepath.cleanStep
      by_cases h3 : x = ['.', '.']
      · obtain ⟨hr, hall⟩ := x5 h3
        simp only [x1, x2, h3, if_true, if_false]
        cases below with
        | nil => simp [hr]
        | cons top rest => simp [hall top (List.mem_cons_self _ _)]
      · simp only [x1, x2, h3, if_false]
    by_cases hb : below = []
    · subst hb
      cases rooted with
      | true =>
        simp only [renderStack, List.reverse_cons, List.reverse_nil, List.nil_append,
          strings.joinChars, filepath.Separator, if_true]
        rw [strings.splitChars, if_pos rfl, splitChars_sepFree '/' x x3]
        simp only [List.foldl_cons, List.foldl_nil]
        have h0 : filepath.cleanStep true [] [] = [] := by simp [filepath.cleanStep]
        rw [h0, hstep]
      | false =>
        simp only [renderStack, List.reverse_cons, List.reverse_nil, List.nil_append,
          strings.joinChars, Bool.false_eq_true, if_false]
        rw [splitChars_sepFree '/' x x3]
        simp only [List.foldl_cons, List.foldl_nil]
        rw [hstep]
    · rw [renderStack_cons rooted x below hb, splitChars_append_sep_any,
        splitChars_sepFree '/' x x3, List.foldl_append, ih x4]
      simp only [List.foldl_cons, List.foldl_nil]
      exact hstep

theorem Clean_cons (c : Char) (cs : List Char) :
    filepath.Clean (String.mk (c :: cs))
      = if renderStack (decide (c = '/'))
            ((strings.splitChars '/' (c :: cs)).foldl
              (filepath.cleanStep (decide (c = '/'))) []) = []
        then "."
        else String.mk (renderStack (decide (c = '/'))
            ((strings.splitChars '/' (c :: cs)).foldl
              (filepath.cleanStep (decide (c = '/'))) [])) := by
  rfl

theorem renderStack_head (rooted : Bool) (out : List (List Char))
    (hok : cleanStackOk rooted out) (hne : renderStack rooted out ≠ []) :
    ∃ q qs, renderStack rooted out = q :: qs ∧ decide (q = '/') = rooted := by
  cases rooted with
  | true => exact ⟨'/', _, rfl, rfl⟩
  | false =>
    have hrev : ∀ x ∈ out.reverse, x ≠ [] ∧ ∀ c ∈ x, c ≠ '/' := by
      intro x hx
      have hx1 : x ∈ out := List.mem_reverse.mp hx
      refine ⟨cleanStackOk_ne_nil false out hok x hx1, ?_⟩
      clear hne hx
      induction out with
      | nil => cases hx1
      | cons y below ih =>
        rcases List.mem_cons.mp hx1 with h | h
        · rw [h]; exact hok.2.2.1
        · exact ih hok.2.2.2.1 h
    cases hrv : out.reverse with
    | nil =>
      simp only [renderStack, hrv, strings.joinChars, Bool.false_eq_true, if_false] at hne
      exact absurd rfl hne
    | cons x rest =>
      rw [hrv] at hrev
      obtain ⟨hx1, hx2⟩ := hrev x (List.mem_cons_self _ _)
      obtain ⟨q, qs, hq⟩ := List.exists_cons_of_ne_nil hx1
      obtain ⟨tail, ht⟩ := joinChars_head '/' q qs rest
      refine ⟨q, tail, ?_, ?_⟩
      · simp only [renderStack, hrv, Bool.false_eq_true, if_false, hq, filepath.Separator]
        exact ht
      · have : q ≠ '/' := hx2 q (by rw [hq]; exact List.mem_cons_self _ _)
        simp [this]

theorem Clean_Clean_append (P S : List Char) (hP : P ≠ []) :
    filepath.Clean (String.mk ((filepath.Clean (String.mk P)).data ++ '/' :: S))
      = filepath.Clean (String.mk (P ++ '/' :: S)) := by
  obtain ⟨c, cs, hc⟩ := List.exists_cons_of_ne_nil hP
  subst hc
  have hok : cleanStackOk (decide (c = '/'))
      ((strings.splitChars '/' (c :: cs)).foldl (filepath.cleanStep (decide (c = '/'))) []) :=
    foldl_cleanStep_ok _ _ [] trivial (splitChars_sepFree_pieces '/' (c :: cs))
  generalize hσ : (strings.splitChars '/' (c :: cs)).foldl
    (filepath.cleanStep (decide (c = '/'))) [] = σ at hok
  have hrhs : filepath.Clean (String.mk ((c :: cs) ++ '/' :: S))
      = if renderStack (decide (c = '/'))
            ((strings.splitChars '/' S).foldl (filepath.cleanStep (decide (c = '/'))) σ) = []
        then "."
        else String.mk (renderStack (decide (c = '/'))
            ((strings.splitChars '/' S).foldl (filepath.cleanStep (decide (c = '/'))) σ)) := by
    rw [List.cons_append, Clean_cons, ← List.cons_append, splitChars_append_sep_any,
      List.foldl_append, hσ]
  rw [hrhs, Clean_cons, hσ]
  by_cases hraw : renderStack (decide (c = '/')) σ = []
  · have hr : decide (c = '/') = false := by
      cases hd : decide (c = '/') with
      | false => rfl
      | true =>
        rw [hd] at hraw
        simp [renderStack] at hraw
    have hσnil : σ = [] := by
      by_contra hne
      rw [hr] at hraw hok
      have hrev : σ.reverse ≠ [] := by simpa using hne
      exact joinChars_ne_nil '/' σ.reverse hrev
        (fun x hx => cleanStackOk_ne_nil false σ hok x (List.mem_reverse.mp hx))
        (by simpa [renderStack, filepath.Separator] using hraw)
    rw [if_pos hraw]
    have hdot : ("." : String).data ++ '/' :: S = '.' :: ('/' :: S) := rfl
    rw [hdot, Clean_cons]
    have hd : decide (('.' : Char) = '/') = false := by decide
    have hsplit : strings.splitChars '/' ('.' :: '/' :: S)
        = ['.'] :: strings.splitChars '/' S := by
      simp [strings.splitChars]
    rw [hd, hsplit, List.foldl_cons, hr, hσnil]
    have h0 : filepath.cleanStep false [] ['.'] = [] := by simp [filepath.cleanStep]
    rw [h0]
  · rw [if_neg hraw]
    obtain ⟨q, qs, hq, hqr⟩ := renderStack_head _ σ hok hraw
    have hdata : (String.mk (renderStack (decide (c = '/')) σ)).data ++ '/' :: S
        = q :: (qs ++ '/' :: S) := by
      simp only [hq, List.cons_append]
    rw [hdata, Clean_cons, hqr, ← List.cons_append, ← hq, splitChars_append_sep_any,
      List.foldl_append, replay_renderStack _ σ hok]

theorem Clean_ne_empty (p : String) : filepath.Clean p ≠ "" := by
  cases p with
  | mk data =>
    cases data with
    | nil => decide
    | cons c cs =>
      rw [Clean_cons]
      split
      · decide
      · rename_i h
        intro h0
        exact h (congrArg String.data h0)

theorem dropWhile_empty_append (init rest : List String) :
    (init ++ rest).dropWhile (fun e => decide (e = ""))
      = match init.dropWhile (fun e => decide (e = "")) with
        | [] => rest.dropWhile (fun e => decide (e = ""))
        | e :: es => (e :: es) ++ rest := by
  induction init with
  | nil =>
    simp only [List.nil_append, List.dropWhile]
  | cons x xs ih =>
    by_cases hx : x = ""
    · simp only [List.cons_append, List.dropWhile, hx, decide_True]
      exact ih
    · simp only [List.cons_append, List.dropWhile, hx, decide_False]
      rfl

theorem Join_snoc (init : List String) (s : String) :
    filepath.Join [filepath.Join init, s] = filepath.Join (init ++ [s]) := by
  have hdrop := dropWhile_empty_append init [s]
  cases hd : init.dropWhile (fun e => decide (e = "")) with
  | nil =>
    rw [hd] at hdrop
    have h1 : filepath.Join init = "" := by
      simp only [filepath.Join, hd]
    rw [h1]
    simp only [filepath.Join, hdrop]
    simp only [List.dropWhile, decide_True]
  | cons e rest =>
    rw [hd] at hdrop
    have he : e ≠ "" := by
      have := List.head_dropWhile_not (fun e => decide (e = "")) init
        (by rw [hd]; simp)
      simpa [hd] using this
    have h1 : filepath.Join init = filepath.Clean (strings.Join (e :: rest) '/') := by
      simp only [filepath.Join, hd, filepath.Separator]
    have hPne : (strings.Join (e :: rest) '/').data ≠ [] := by
      obtain ⟨c, cs, hc⟩ := List.exists_cons_of_ne_nil
        (fun h => he ((string_eq_empty_iff e).mpr h))
      obtain ⟨tail, ht⟩ := joinChars_head '/' c cs (rest.map String.data)
      simp only [strings.Join, List.map_cons, hc, ht]
      simp
    have h2 : filepath.Join (init ++ [s])
        = filepath.Clean (String.mk ((strings.Join (e :: rest) '/').data ++ '/' :: s.data)) := by
      have hj := joinChars_snoc '/' ((e :: rest).map String.data) (by simp) s.data
      simp only [filepath.Join, hdrop, filepath.Separator, strings.Join, List.cons_append,
        List.map_append, List.map_cons, List.map_nil]
      simp only [List.map_cons, List.cons_append] at hj
      rw [hj]
    have h3 : filepath.Join [filepath.Clean (strings.Join (e :: rest) '/'), s]
        = filepath.Clean (String.mk
            ((filepath.Clean (strings.Join (e :: rest) '/')).data ++ '/' :: s.data)) := by
      simp only [filepath.Join, List.dropWhile, Clean_ne_empty, decide_False, strings.Join,
        List.map_cons, List.map_nil, strings.joinChars, filepath.Separator]
    rw [h1, h2, h3]
    exact Clean_Clean_append _ _ hPne

theorem joinChain_eq_Join (chain : List String) (h : 2 ≤ chain.length) :
    joinChain chain = filepath.Join chain := by
  induction chain using List.reverseRecOn with
  | nil => simp at h
  | append_singleton init s ih =>
    cases init with
    | nil => simp at h
    | cons t rest =>
      rw [joinChain_snoc _ (by simp)]
      cases rest with
      | nil => rfl
      | cons u rest1 =>
        rw [ih (by simp), Join_snoc]

/-! ## Decimal numerals -/

theorem digitChar_value (d : Nat) (hd : d < 10) :
    (Nat.digitChar d).toNat - 48 = d ∧ Nat.digitChar d ≠ '/' ∧ Nat.digitChar d ≠ '_' := by
  interval_cases d <;> decide

theorem decimalValue_snoc (pre : List Char) (c : Char) :
    decimalValue (pre ++ [c]) = decimalValue pre * 10 + (c.toNat - 48) := by
  simp [decimalValue, List.foldl_append]

theorem toDigitsCore_spec (fuel : Nat) : ∀ (n : Nat) (ds : List Char), n < fuel →
    ∃ pre, Nat.toDigitsCore 10 fuel n ds = pre ++ ds ∧ decimalValue pre = n ∧
      ∀ c ∈ pre, c ≠ '/' := by
  induction fuel with
  | zero => intro n ds h; omega
  | succ fuel ih =>
    intro n ds h
    obtain ⟨hv, hs, _⟩ := digitChar_value (n % 10) (Nat.mod_lt _ (by decide))
    rw [Nat.toDigitsCore]
    by_cases h0 : n / 10 = 0
    · simp only [h0, if_true]
      refine ⟨[Nat.digitChar (n % 10)], rfl, ?_, ?_⟩
      · simp only [decimalValue, List.foldl_cons, List.foldl_nil, hv]
        omega
      · intro c hc
        rw [List.mem_singleton] at hc
        rw [hc]
        exact hs
    · simp only [h0, if_false]
      obtain ⟨pre, hpre, hval, hfree⟩ := ih (n / 10) (Nat.digitChar (n % 10) :: ds) (by omega)
      refine ⟨pre ++ [Nat.digitChar (n % 10)], ?_, ?_, ?_⟩
      · rw [hpre]; simp
      · rw [decimalValue_snoc, hval, hv]
        omega
      · intro c hc
        rcases List.mem_append.mp hc with h1 | h1
        · exact hfree c h1
        · rw [List.mem_singleton] at h1
          rw [h1]
          exact hs

theorem repr_spec (n : Nat) :
    decimalValue (Nat.repr n).data = n ∧ ∀ c ∈ (Nat.repr n).data, c ≠ '/' := by
  obtain ⟨pre, hpre, hval, hfree⟩ := toDigitsCore_spec (n + 1) n [] (by omega)
  have h : (Nat.repr n).data = pre := by
    simp only [Nat.repr, Nat.toDigits, List.asString, hpre, List.append_nil]
  rw [h]
  exact ⟨hval, hfree⟩

theorem repr_data_injective (a b : Nat) (h : (Nat.repr a).data = (Nat.repr b).data) : a = b := by
  rw [← (repr_spec a).1, ← (repr_spec b).1, h]

/-! ## The extension mapping as a sequence of writes -/

theorem mapGet_mapSet (m : ExtensionMapping) (k v k' : String) :
    mapGet (mapSet m k v) k' = if k = k' then some v else mapGet m k' := by
  induction m with
  | nil => simp [mapSet, mapGet]
  | cons hd tl ih =>
    obtain ⟨k0, v0⟩ := hd
    by_cases h0 : k0 = k
    · subst h0; by_cases h1 : k0 = k' <;> simp [mapSet, mapGet, h1]
    · by_cases h1 : k0 = k'
      · subst h1; simp [mapSet, mapGet, h0, Ne.symm h0]
      · simp [mapSet, mapGet, h0, h1, ih]

theorem mem_of_mapGet (m : ExtensionMapping) (k v : String) (h : mapGet m k = some v) :
    (k, v) ∈ m := by
  induction m with
  | nil => simp [mapGet] at h
  | cons hd tl ih =>
    obtain ⟨k0, v0⟩ := hd
    rw [mapGet] at h
    by_cases hk : k0 = k
    · rw [if_pos hk] at h
      simp only [Option.some.injEq] at h
      rw [hk, h]
      exact List.mem_cons_self _ _
    · rw [if_neg hk] at h
      exact List.mem_cons_of_mem _ (ih h)

theorem applyWrites_append (m : ExtensionMapping) (ws1 ws2 : List (String × String)) :
    applyWrites m (ws1 ++ ws2) = applyWrites (applyWrites m ws1) ws2 := by
  simp [applyWrites, List.foldl_append]

theorem applyWrites_cons (m : ExtensionMapping) (kv : String × String)
    (ws : List (String × String)) :
    applyWrites m (kv :: ws) = applyWrites (mapSet m kv.1 kv.2) ws := rfl

theorem addExtensions_eq (path : String) (exts : List String) (m : ExtensionMapping) :
    addExtensions m path exts = applyWrites m (exts.map (fun e => (ensureDot e, path))) := by
  induction exts generalizing m with
  | nil => rfl
  | cons e rest ih => simp [addExtensions, applyWrites, ih]

mutual
theorem processCategory_eq : ∀ (c : Category) (chain : List String) (_ : chain ≠ [])
    (m : ExtensionMapping),
    processCategory m (joinChain chain) c
      = applyWrites m ((categoryListings chain c).map listingWrite)
  | Category.mk exts subs, chain, hc, m => by
    rw [processCategory, categoryListings, List.map_append, applyWrites_append,
      processSubcategories_eq subs chain hc, addExtensions_eq]
    simp [List.map_map, Function.comp_def, listingWrite]
theorem processSubcategories_eq : ∀ (subs : List (String × Category)) (chain : List String)
    (_ : chain ≠ []) (m : ExtensionMapping),
    processSubcategories m (joinChain chain) subs
      = applyWrites m ((subListings chain subs).map listingWrite)
  | [], chain, _, m => by simp [processSubcategories, subListings, applyWrites]
  | (subName, subCat) :: rest, chain, hc, m => by
    rw [processSubcategories, subListings, List.map_append, applyWrites_append,
      ← joinChain_snoc chain hc, processCategory_eq subCat (chain ++ [subName]) (by simp),
      processSubcategories_eq rest chain hc]
end

theorem mapGet_applyWrites_of_not_key (ws : List (String × String)) (m : ExtensionMapping)
    (k : String) (h : ∀ kv ∈ ws, kv.1 ≠ k) : mapGet (applyWrites m ws) k = mapGet m k := by
  induction ws generalizing m with
  | nil => rfl
  | cons kv rest ih =>
    rw [applyWrites_cons, ih _ (fun kv1 h1 => h kv1 (List.mem_cons_of_mem _ h1)), mapGet_mapSet,
      if_neg (h kv (List.mem_cons_self _ _))]

theorem mapGet_applyWrites (ws : List (String × String)) (m : ExtensionMapping) (k v : String)
    (hex : ∃ kv ∈ ws, kv.1 = k) (hall : ∀ kv ∈ ws, kv.1 = k → kv.2 = v) :
    mapGet (applyWrites m ws) k = some v := by
  induction ws generalizing m with
  | nil => obtain ⟨kv, hkv, _⟩ := hex; cases hkv
  | cons kv rest ih =>
    rw [applyWrites_cons]
    by_cases hr : ∃ kv1 ∈ rest, kv1.1 = k
    · exact ih _ hr (fun kv1 h1 => hall kv1 (List.mem_cons_of_mem _ h1))
    · have hnot : ∀ kv1 ∈ rest, kv1.1 ≠ k := fun kv1 h1 h2 => hr ⟨kv1, h1, h2⟩
      rw [mapGet_applyWrites_of_not_key rest _ k hnot, mapGet_mapSet]
      obtain ⟨kv0, hkv0, hk0⟩ := hex
      rcases List.mem_cons.mp hkv0 with h0 | h0
      · subst h0
        rw [if_pos hk0, hall kv0 (List.mem_cons_self _ _) hk0]
      · exact absurd hk0 (hnot kv0 h0)

theorem mem_of_mapGet_applyWrites (ws : List (String × String)) (m : ExtensionMapping)
    (k v : String) (h : mapGet (applyWrites m ws) k = some v) :
    (k, v) ∈ ws ∨ mapGet m k = some v := by
  induction ws generalizing m with
  | nil => exact Or.inr h
  | cons kv rest ih =>
    rw [applyWrites_cons] at h
    rcases ih _ h with h1 | h1
    · exact Or.inl (List.mem_cons_of_mem _ h1)
    · rw [mapGet_mapSet] at h1
      by_cases hk : kv.1 = k
      · rw [if_pos hk] at h1
        simp only [Option.some.injEq] at h1
        left
        rw [← hk, ← h1]
        exact List.mem_cons_self _ _
      · rw [if_neg hk] at h1
        exact Or.inr h1

theorem buildLoop_eq (cfg : List (String × Json)) (m : ExtensionMapping)
    (cats : List (String × Category)) (hp : parseAll cfg = Except.ok cats) :
    buildLoop m cfg = Except.ok (applyWrites m ((configListings cats).map listingWrite)) := by
  induction cfg generalizing m cats with
  | nil =>
    simp only [parseAll, Except.ok.injEq] at hp
    subst hp
    rfl
  | cons hd rest ih =>
    obtain ⟨topName, rawData⟩ := hd
    rw [parseAll] at hp
    rw [buildLoop]
    cases hc : parseCategory rawData with
    | error e => rw [hc] at hp; cases hp
    | ok category =>
      rw [hc] at hp
      cases hr : parseAll rest with
      | error e => rw [hr] at hp; cases hp
      | ok cats1 =>
        rw [hr] at hp
        simp only [Except.ok.injEq] at hp
        subst hp
        obtain ⟨exts, subs⟩ := category
        simp only [Category.Extensions, Category.Subcategories]
        rw [ih _ cats1 hr, configListings, List.map_append, applyWrites_append]
        have h1 := processCategory_eq (Category.mk exts subs) [topName] (by simp) m
        rw [processCategory] at h1
        simp only [joinChain, List.foldl_nil] at h1
        rw [h1]

theorem buildLoop_ok_parseAll (cfg : List (String × Json)) (m0 m : ExtensionMapping)
    (h : buildLoop m0 cfg = Except.ok m) : ∃ cats, parseAll cfg = Except.ok cats := by
  induction cfg generalizing m0 with
  | nil => exact ⟨[], rfl⟩
  | cons hd rest ih =>
    obtain ⟨topName, rawData⟩ := hd
    rw [buildLoop] at h
    rw [parseAll]
    cases hc : parseCategory rawData with
    | error e => rw [hc] at h; cases h
    | ok category =>
      rw [hc] at h
      obtain ⟨cats, hcats⟩ := ih _ h
      exact ⟨(topName, category) :: cats, by simp [hcats]⟩

theorem buildExtensionMapping_listed (config : Config) (cats : List (String × Category))
    (hp : parseAll config.Categories = Except.ok cats)
    (hnodup : ∀ l1 ∈ configListings cats, ∀ l2 ∈ configListings cats,
      ensureDot l1.2 = ensureDot l2.2 → l1.1 = l2.1) :
    ∃ m, buildExtensionMapping config = Except.ok m ∧
      ∀ l ∈ configListings cats, mapGet m (ensureDot l.2) = some (joinChain l.1) := by
  refine ⟨_, buildLoop_eq config.Categories [] cats hp, ?_⟩
  intro l hl
  apply mapGet_applyWrites
  · exact ⟨listingWrite l, List.mem_map_of_mem _ hl, rfl⟩
  · intro kv hkv hk
    obtain ⟨l2, hl2, rfl⟩ := List.mem_map.mp hkv
    simp only [listingWrite] at hk ⊢
    rw [hnodup l2 hl2 l hl hk]

theorem buildExtensionMapping_only_listed (config : Config) (cats : List (String × Category))
    (hp : parseAll config.Categories = Except.ok cats) (m : ExtensionMapping)
    (hm : buildExtensionMapping config = Except.ok m) (k v : String)
    (hkv : mapGet m k = some v) :
    ∃ l ∈ configListings cats, ensureDot l.2 = k ∧ joinChain l.1 = v := by
  have h1 := buildLoop_eq config.Categories [] cats hp
  rw [buildExtensionMapping, h1] at hm
  simp only [Except.ok.injEq] at hm
  subst hm
  rcases mem_of_mapGet_applyWrites _ _ k v hkv with h2 | h2
  · obtain ⟨l, hl, hlw⟩ := List.mem_map.mp h2
    simp only [listingWrite, Prod.mk.injEq] at hlw
    exact ⟨l, hl, hlw.1, hlw.2⟩
  · simp [mapGet] at h2

theorem ensureDot_ne_empty (e : String) : ensureDot e ≠ "" := by
  unfold ensureDot
  by_cases h : strings.HasPrefix e "." = true
  · simp only [h, Bool.not_true, Bool.false_eq_true, if_false]
    intro he
    rw [he] at h
    revert h
    decide
  · simp only [h, Bool.not_false, if_true]
    intro he
    have := congrArg String.data he
    simp [String.data_append] at this

theorem built_mapping_no_empty_key (config : Config) (m : ExtensionMapping)
    (hm : buildExtensionMapping config = Except.ok m) : mapGet m "" = none := by
  obtain ⟨cats, hcats⟩ := buildLoop_ok_parseAll config.Categories [] m hm
  cases hget : mapGet m "" with
  | none => rfl
  | some v =>
    obtain ⟨l, _, hk, _⟩ := buildExtensionMapping_only_listed config cats hcats m hm "" v hget
    exact absurd hk (ensureDot_ne_empty l.2)

theorem stringElems_map_str (es : List String) :
    json.stringElems (es.map Json.str) = some es := by
  induction es with
  | nil => rfl
  | cons e rest ih => simp [json.stringElems, ih]

theorem parseAll_flat (cats : List (String × List String)) :
    parseAll (flatConfig cats).Categories
      = Except.ok (cats.map (fun tc => (tc.1, Category.mk tc.2 []))) := by
  induction cats with
  | nil => rfl
  | cons tc rest ih =>
    simp only [flatConfig, List.map_cons] at ih ⊢
    rw [parseAll, parseCategory, stringElems_map_str, ih]

theorem mem_configListings_flat (cats : List (String × List String)) (l : List String × String) :
    l ∈ configListings (cats.map (fun tc => (tc.1, Category.mk tc.2 [])))
      ↔ ∃ tc ∈ cats, l.1 = [tc.1] ∧ l.2 ∈ tc.2 := by
  induction cats with
  | nil => simp [configListings]
  | cons tc rest ih =>
    simp only [List.map_cons, configListings, categoryListings, subListings, List.append_nil,
      List.mem_append, List.mem_map, ih, List.mem_cons, exists_eq_or_imp]
    constructor
    · rintro (⟨e, he, rfl⟩ | h)
      · exact Or.inl ⟨rfl, he⟩
      · exact Or.inr h
    · rintro (⟨h1, h2⟩ | h)
      · exact Or.inl ⟨l.2, h2, by rw [← h1]⟩
      · exact Or.inr h

theorem parseAll_cons_ok (topName : String) (rawData : Json) (rest : List (String × Json))
    (cats : List (String × Category))
    (h : parseAll ((topName, rawData) :: rest) = Except.ok cats) :
    ∃ c cats1, parseCategory rawData = Except.ok c ∧ parseAll rest = Except.ok cats1 ∧
      cats = (topName, c) :: cats1 := by
  rw [parseAll] at h
  cases hc : parseCategory rawData with
  | error e => rw [hc] at h; cases h
  | ok c =>
    rw [hc] at h
    cases hr : parseAll rest with
    | error e => rw [hr] at h; cases h
    | ok cats1 =>
      rw [hr] at h
      simp only [Except.ok.injEq] at h
      exact ⟨c, cats1, rfl, rfl, h.symm⟩

theorem parseAll_cons_of_ok (topName : String) (rawData : Json) (rest : List (String × Json))
    (c : Category) (cats1 : List (String × Category))
    (hc : parseCategory rawData = Except.ok c) (hr : parseAll rest = Except.ok cats1) :
    parseAll ((topName, rawData) :: rest) = Except.ok ((topName, c) :: cats1) := by
  rw [parseAll, hc, hr]

/-! ## The failures of `parseCategory` -/

mutual

theorem isError_parseCategory : ∀ (data : Json), isError (parseCategory data) = scalarReached data
  | Json.null => rfl
  | Json.bool _ => rfl
  | Json.num _ => rfl
  | Json.str _ => rfl
  | Json.arr items => by
    rw [parseCategory, scalarReached]
    cases h : json.stringElems items with
    | some exts => rfl
    | none => exact isError_parseItems items _
  | Json.obj fields => by
    rw [parseCategory, scalarReached]
    exact isError_parseFields fields _

theorem isError_parseItems : ∀ (items : List Json) (category : Category),
    isError (parseItems items category) = scalarInItems items
  | [], _ => rfl
  | Json.obj fields :: rest, category => by
    rw [parseItems, scalarInItems]
    have h1 := isError_parseFields fields category
    cases hf : parseFields fields category with
    | error e =>
      rw [hf] at h1
      rw [← h1]
      rfl
    | ok category1 =>
      rw [hf] at h1
      rw [← h1]
      exact isError_parseItems rest category1
  | Json.null :: rest, category => by
    rw [parseItems, scalarInItems]
    exact isError_parseItems rest category
  | Json.arr strs :: rest, category => by
    rw [parseItems, scalarInItems]
    cases json.stringElems strs with
    | some strArray => exact isError_parseItems rest _
    | none => exact isError_parseItems rest category
  | Json.bool _ :: rest, category => by
    rw [parseItems, scalarInItems]
    exact isError_parseItems rest category
  | Json.num _ :: rest, category => by
    rw [parseItems, scalarInItems]
    exact isError_parseItems rest category
  | Json.str _ :: rest, category => by
    rw [parseItems, scalarInItems]
    exact isError_parseItems rest category

theorem isError_parseFields : ∀ (fields : List (String × Json)) (category : Category),
    isError (parseFields fields category) = scalarInFields fields
  | [], _ => rfl
  | (subName, subData) :: rest, category => by
    rw [parseFields, scalarInFields]
    by_cases hov : json.overwrittenLater subName rest = true
    · rw [if_pos hov, hov]
      simpa using isError_parseFields rest category
    · rw [if_neg hov]
      have hov1 : json.overwrittenLater subName rest = false := by simpa using hov
      have h1 := isError_parseCategory subData
      cases hc : parseCategory subData with
      | error e =>
        rw [hc] at h1
        rw [hov1, ← h1]
        rfl
      | ok subCategory =>
        rw [hc] at h1
        rw [hov1, ← h1]
        simpa [isError] using isError_parseFields rest _

end

theorem isError_iff (r : Except String Category) :
    isError r = true ↔ ∃ e, r = Except.error e := by
  cases r with
  | error e => simp [isError]
  | ok c => simp [isError]

/-! ## The listings of the document and of the parsed categories -/

theorem subListings_append (chain : List String) (xs ys : List (String × Category)) :
    subListings chain (xs ++ ys) = subListings chain xs ++ subListings chain ys := by
  induction xs with
  | nil => simp [subListings]
  | cons x rest ih =>
    obtain ⟨n, c⟩ := x
    simp [subListings, ih]

theorem setSubcategory_of_not_mem (subs : List (String × Category)) (name : String)
    (c : Category) (h : name ∉ subs.map Prod.fst) :
    setSubcategory subs name c = subs ++ [(name, c)] := by
  induction subs with
  | nil => rfl
  | cons x rest ih =>
    obtain ⟨k0, v0⟩ := x
    simp only [List.map_cons, List.mem_cons, not_or] at h
    have hne : ¬ k0 = name := fun e => h.1 e.symm
    simp [setSubcategory, hne, ih h.2]

theorem overwrittenLater_of_not_mem (name : String) (rest : List (String × Json))
    (h : name ∉ rest.map Prod.fst) : json.overwrittenLater name rest = false := by
  simp only [json.overwrittenLater, List.any_eq_false, decide_eq_true_eq]
  intro kv hkv heq
  exact h (List.mem_map.mpr ⟨kv, hkv, heq⟩)

mutual

theorem parseCategory_listings : ∀ (data : Json) (c : Category),
    parseCategory data = Except.ok c → namesUnique data = true →
    ∀ (chain : List String) (l : List String × String),
      l ∈ categoryListings chain c ↔ l ∈ documentListings chain data
  | Json.null, c, hp, _ => by
    intro chain l
    simp only [parseCategory, Except.ok.injEq] at hp
    subst hp
    simp [categoryListings, subListings, documentListings]
  | Json.bool _, c, hp, _ => by simp [parseCategory] at hp
  | Json.num _, c, hp, _ => by simp [parseCategory] at hp
  | Json.str _, c, hp, _ => by simp [parseCategory] at hp
  | Json.arr items, c, hp, hu => by
    intro chain l
    rw [parseCategory] at hp
    rw [documentListings]
    rw [namesUnique, Bool.and_eq_true, decide_eq_true_eq] at hu
    cases hs : json.stringElems items with
    | some exts =>
      rw [hs] at hp
      simp only [Except.ok.injEq] at hp
      subst hp
      simp [categoryListings, subListings]
    | none =>
      rw [hs] at hp
      have h := (parseItems_listings items (Category.mk [] []) c hp hu.1
        (by simp [Category.Subcategories]) hu.2).2 chain l
      simpa [categoryListings, subListings] using h
  | Json.obj fields, c, hp, hu => by
    intro chain l
    rw [parseCategory] at hp
    rw [documentListings]
    rw [namesUnique, Bool.and_eq_true, decide_eq_true_eq] at hu
    have h := (parseFields_listings fields (Category.mk [] []) c hp hu.1
      (by simp [Category.Subcategories]) hu.2).2 chain l
    simpa [categoryListings, subListings] using h

theorem parseItems_listings : ∀ (items : List Json) (acc c : Category),
    parseItems items acc = Except.ok c → (itemNames items).Nodup →
    (∀ n ∈ itemNames items, n ∉ acc.Subcategories.map Prod.fst) →
    namesUniqueInItems items = true →
    c.Subcategories.map Prod.fst = acc.Subcategories.map Prod.fst ++ itemNames items ∧
    ∀ (chain : List String) (l : List String × String),
      l ∈ categoryListings chain c ↔
        l ∈ categoryListings chain acc ∨ l ∈ itemListings chain items
  | [], acc, c, hp, _, _, _ => by
    simp only [parseItems, Except.ok.injEq] at hp
    subst hp
    simp [itemNames, itemListings]
  | Json.obj fields :: rest, acc, c, hp, hnd, hdis, hu => by
    rw [parseItems] at hp
    rw [itemNames, List.nodup_append] at hnd
    rw [namesUniqueInItems, Bool.and_eq_true] at hu
    cases hf : parseFields fields acc with
    | error e => rw [hf] at hp; cases hp
    | ok acc1 =>
      rw [hf] at hp
      simp only at hp
      obtain ⟨hn1, hl1⟩ := parseFields_listings fields acc acc1 hf hnd.1
        (fun n hn => hdis n (by rw [itemNames]; exact List.mem_append_left _ hn)) hu.1
      obtain ⟨hn2, hl2⟩ := parseItems_listings rest acc1 c hp hnd.2.1
        (by
          intro n hn
          rw [hn1, List.mem_append, not_or]
          exact ⟨hdis n (by rw [itemNames]; exact List.mem_append_right _ hn),
            fun hin => hnd.2.2 hin hn⟩)
        hu.2
      refine ⟨by rw [hn2, hn1, itemNames, List.append_assoc], ?_⟩
      intro chain l
      rw [hl2 chain l, hl1 chain l, itemListings, List.mem_append, or_assoc]
  | Json.arr strs :: rest, acc, c, hp, hnd, hdis, hu => by
    rw [parseItems] at hp
    rw [itemNames] at hnd hdis
    rw [namesUniqueInItems] at hu
    cases hs : json.stringElems strs with
    | some strArray =>
      rw [hs] at hp
      simp only at hp
      obtain ⟨hn2, hl2⟩ := parseItems_listings rest _ c hp hnd
        (by simpa [Category.Subcategories] using hdis) hu
      obtain ⟨exts, subs⟩ := acc
      refine ⟨by simpa [Category.Subcategories, itemNames] using hn2, ?_⟩
      intro chain l
      rw [hl2 chain l, itemListings]
      simp only [Category.Extensions, Category.Subcategories, categoryListings, List.map_append,
        List.mem_append, hs]
      tauto
    | none =>
      rw [hs] at hp
      simp only at hp
      obtain ⟨hn2, hl2⟩ := parseItems_listings rest acc c hp hnd hdis hu
      refine ⟨by simpa [itemNames] using hn2, ?_⟩
      intro chain l
      rw [hl2 chain l, itemListings]
      simp [hs]
  | Json.null :: rest, acc, c, hp, hnd, hdis, hu => by
    rw [parseItems] at hp
    rw [itemNames] at hnd hdis
    rw [namesUniqueInItems] at hu
    obtain ⟨hn2, hl2⟩ := parseItems_listings rest acc c hp hnd hdis hu
    exact ⟨by simpa [itemNames] using hn2, fun chain l => by rw [hl2 chain l, itemListings]⟩
  | Json.bool _ :: rest, acc, c, hp, hnd, hdis, hu => by
    rw [parseItems] at hp
    rw [itemNames] at hnd hdis
    rw [namesUniqueInItems] at hu
    obtain ⟨hn2, hl2⟩ := parseItems_listings rest acc c hp hnd hdis hu
    exact ⟨by simpa [itemNames] using hn2, fun chain l => by rw [hl2 chain l, itemListings]⟩
  | Json.num _ :: rest, acc, c, hp, hnd, hdis, hu => by
    rw [parseItems] at hp
    rw [itemNames] at hnd hdis
    rw [namesUniqueInItems] at hu
    obtain ⟨hn2, hl2⟩ := parseItems_listings rest acc c hp hnd hdis hu
    exact ⟨by simpa [itemNames] using hn2, fun chain l => by rw [hl2 chain l, itemListings]⟩
  | Json.str _ :: rest, acc, c, hp, hnd, hdis, hu => by
    rw [parseItems] at hp
    rw [itemNames] at hnd hdis
    rw [namesUniqueInItems] at hu
    obtain ⟨hn2, hl2⟩ := parseItems_listings rest acc c hp hnd hdis hu
    exact ⟨by simpa [itemNames] using hn2, fun chain l => by rw [hl2 chain l, itemListings]⟩

theorem parseFields_listings : ∀ (fields : List (String × Json)) (acc c : Category),
    parseFields fields acc = Except.ok c → (fields.map Prod.fst).Nodup →
    (∀ n ∈ fields.map Prod.fst, n ∉ acc.Subcategories.map Prod.fst) →
    namesUniqueInFields fields = true →
    c.Subcategories.map Prod.fst = acc.Subcategories.map Prod.fst ++ fields.map Prod.fst ∧
    ∀ (chain : List String) (l : List String × String),
      l ∈ categoryListings chain c ↔
        l ∈ categoryListings chain acc ∨ l ∈ fieldListings chain fields
  | [], acc, c, hp, _, _, _ => by
    simp only [parseFields, Except.ok.injEq] at hp
    subst hp
    simp [fieldListings]
  | (subName, subData) :: rest, acc, c, hp, hnd, hdis, hu => by
    rw [parseFields] at hp
    rw [List.map_cons, List.nodup_cons] at hnd
    rw [namesUniqueInFields, Bool.and_eq_true] at hu
    rw [overwrittenLater_of_not_mem subName rest hnd.1] at hp
    simp only [Bool.false_eq_true, if_false] at hp
    cases hc : parseCategory subData with
    | error e => rw [hc] at hp; cases hp
    | ok sub =>
      rw [hc] at hp
      simp only at hp
      have hnot : subName ∉ acc.Subcategories.map Prod.fst :=
        hdis subName (by simp)
      rw [setSubcategory_of_not_mem _ _ _ hnot] at hp
      obtain ⟨hn2, hl2⟩ := parseFields_listings rest _ c hp hnd.2
        (by
          intro n hn
          simp only [Category.Subcategories, List.map_append, List.map_cons, List.map_nil,
            List.mem_append, List.mem_singleton, not_or]
          refine ⟨hdis n (by simp [hn]), ?_⟩
          intro e
          rw [e] at hn
          exact hnd.1 hn)
        hu.2
      have hsub := parseCategory_listings subData sub hc hu.1
      obtain ⟨exts, subs⟩ := acc
      refine ⟨by simpa [Category.Subcategories] using hn2, ?_⟩
      intro chain l
      rw [hl2 chain l, fieldListings]
      simp only [Category.Extensions, Category.Subcategories, categoryListings,
        subListings_append, subListings, List.append_nil, List.mem_append,
        hsub (chain ++ [subName]) l]
      tauto

end

theorem parseAll_listings (cfg : List (String × Json)) (cats : List (String × Category))
    (hp : parseAll cfg = Except.ok cats) (hu : ∀ tv ∈ cfg, namesUnique tv.2 = true)
    (l : List String × String) :
    l ∈ configListings cats ↔ l ∈ listedIn { Categories := cfg } := by
  induction cfg generalizing cats with
  | nil =>
    simp only [parseAll, Except.ok.injEq] at hp
    subst hp
    simp [configListings, listedIn]
  | cons hd rest ih =>
    obtain ⟨topName, rawData⟩ := hd
    obtain ⟨c, cats1, hc, hr, rfl⟩ := parseAll_cons_ok topName rawData rest cats hp
    have h1 := parseCategory_listings rawData c hc (hu _ (List.mem_cons_self _ _)) [topName] l
    have h2 := ih cats1 hr (fun tv htv => hu tv (List.mem_cons_of_mem _ htv))
    simp only [listedIn, List.map_cons, List.flatten_cons, List.mem_append] at h2 ⊢
    rw [configListings, List.mem_append, h1, h2]

theorem parseAll_ok_of_no_scalar (cfg : List (String × Json))
    (h : ∀ tv ∈ cfg, scalarReached tv.2 = false) : ∃ cats, parseAll cfg = Except.ok cats := by
  induction cfg with
  | nil => exact ⟨[], rfl⟩
  | cons hd rest ih =>
    obtain ⟨topName, rawData⟩ := hd
    obtain ⟨cats1, hr⟩ := ih (fun tv htv => h tv (List.mem_cons_of_mem _ htv))
    have h1 := isError_parseCategory rawData
    rw [h _ (List.mem_cons_self _ _)] at h1
    cases hc : parseCategory rawData with
    | error e => rw [hc] at h1; cases h1
    | ok c => exact ⟨(topName, c) :: cats1, parseAll_cons_of_ok topName rawData rest c cats1 hc hr⟩

/-! ## C1 -/

/-- C1, as stated, fails: for the flat configuration with the one category `images` listing `JPG`
the mapping holds the key `.JPG` only, and the lower-case key `.jpg` is absent. -/
theorem flat_config_lowercase_key_absent :
    buildExtensionMapping (flatConfig [("images", ["JPG"])]) = Except.ok [(".JPG", "images")] ∧
      lowerDotted unicode.latin1 "JPG" = ".jpg" ∧
      mapGet [(".JPG", "images")] (lowerDotted unicode.latin1 "JPG") = none := by
  decide

/-- C1, amended: for a configuration whose categories are all flat string arrays and in which no
two categories list the same dot-prefixed extension, `buildExtensionMapping` returns a mapping in
which every listed extension, given a leading dot when it has none and otherwise unchanged (its
case is kept), is a key that maps to the name of the top-level category listing it. -/
theorem flat_config_maps_dotted_extension (cats : List (String × List String))
    (hnodup : ∀ tc1 ∈ cats, ∀ tc2 ∈ cats, ∀ e1 ∈ tc1.2, ∀ e2 ∈ tc2.2,
      ensureDot e1 = ensureDot e2 → tc1.1 = tc2.1) :
    ∃ m, buildExtensionMapping (flatConfig cats) = Except.ok m ∧
      ∀ tc ∈ cats, ∀ e ∈ tc.2, mapGet m (ensureDot e) = some tc.1 := by
  obtain ⟨m, hm, hall⟩ := buildExtensionMapping_listed (flatConfig cats) _ (parseAll_flat cats)
    (by
      intro l1 h1 l2 h2 heq
      obtain ⟨tc1, ht1, hc1, he1⟩ := (mem_configListings_flat cats l1).mp h1
      obtain ⟨tc2, ht2, hc2, he2⟩ := (mem_configListings_flat cats l2).mp h2
      rw [hc1, hc2, hnodup tc1 ht1 tc2 ht2 l1.2 he1 l2.2 he2 heq])
  refine ⟨m, hm, ?_⟩
  intro tc htc e he
  have h := hall ([tc.1], e) ((mem_configListings_flat cats _).mpr ⟨tc, htc, rfl, he⟩)
  simpa [joinChain] using h

/-- The amended C1 at the configuration `images: [".jpg", "png"]`, `docs: ["TXT"]`. -/
theorem flat_config_maps_dotted_extension_witness :
    (∀ tc1 ∈ [("images", [".jpg", "png"]), ("docs", ["TXT"])],
      ∀ tc2 ∈ [("images", [".jpg", "png"]), ("docs", ["TXT"])],
      ∀ e1 ∈ tc1.2, ∀ e2 ∈ tc2.2, ensureDot e1 = ensureDot e2 → tc1.1 = tc2.1) ∧
    ∃ m, buildExtensionMapping (flatConfig [("images", [".jpg", "png"]), ("docs", ["TXT"])])
        = Except.ok m ∧
      ∀ tc ∈ [("images", [".jpg", "png"]), ("docs", ["TXT"])], ∀ e ∈ tc.2,
        mapGet m (ensureDot e) = some tc.1 :=
  ⟨by decide, flat_config_maps_dotted_extension _ (by decide)⟩

/-! ## C2 -/

/-- C2, as stated, fails: in the configuration whose category `a` is an array of two objects that
both name the subcategory `b`, the first listing `.x` and the second `.y`, no extension is listed
twice, yet the later object replaces the subcategory of the earlier one and `.x` is not mapped;
and in the configuration with the categories `a: [".x"]` and `b: 5` the extension `.x` is listed
once, yet no mapping is returned at all. -/
theorem listed_extension_is_not_mapped :
    listedIn repeatedNameConfig = [(["a", "b"], ".x"), (["a", "b"], ".y")] ∧
    (∀ l1 ∈ listedIn repeatedNameConfig, ∀ l2 ∈ listedIn repeatedNameConfig,
      ensureDot l1.2 = ensureDot l2.2 → l1.1 = l2.1) ∧
    parseAll repeatedNameConfig.Categories
      = Except.ok [("a", Category.mk [] [("b", Category.mk [".y"] [])])] ∧
    buildExtensionMapping repeatedNameConfig = Except.ok [(".y", "a/b")] ∧
    mapGet [(".y", "a/b")] (ensureDot ".x") = none ∧
    listedIn { Categories := [("a", Json.arr [Json.str ".x"]), ("b", Json.num 5)] }
      = [(["a"], ".x")] ∧
    buildExtensionMapping { Categories := [("a", Json.arr [Json.str ".x"]), ("b", Json.num 5)] }
      = Except.error "error parsing top-level category b: unable to parse category data" :=
  ⟨by decide, by decide, rfl, by decide, by decide, by decide, by decide⟩

/-- C2, amended: for a configuration in which no category value, at any depth, is a JSON string,
number or boolean, no node is given the same subcategory name twice (in one object, or among the
objects of one array of mixed values), and no dot-prefixed extension is listed at two different
chains of names, `buildExtensionMapping` returns a mapping that sends every extension listed in
the document at the node reached by `t, s1, .., sk` to the path of that chain and holds nothing
else; the path of the chain, built by joining one name after the other, is `t` for `k = 0` and
`filepath.Join(t, s1, .., sk)` for `k >= 1`, which for plain names is `t/s1/../sk`; and the
configuration with category `a` holding subcategory `b` that lists `.x` yields exactly
`.x -> a/b`. -/
theorem nested_extension_maps_to_joined_path (config : Config)
    (hshape : ∀ tv ∈ config.Categories, scalarReached tv.2 = false)
    (hunique : ∀ tv ∈ config.Categories, namesUnique tv.2 = true)
    (hnodup : ∀ l1 ∈ listedIn config, ∀ l2 ∈ listedIn config,
      ensureDot l1.2 = ensureDot l2.2 → l1.1 = l2.1) :
    (∃ m, buildExtensionMapping config = Except.ok m ∧
      (∀ l ∈ listedIn config, mapGet m (ensureDot l.2) = some (joinChain l.1)) ∧
      (∀ k v, mapGet m k = some v →
        ∃ l ∈ listedIn config, ensureDot l.2 = k ∧ joinChain l.1 = v)) ∧
    (∀ l ∈ listedIn config, 2 ≤ l.1.length → joinChain l.1 = filepath.Join l.1) ∧
    (∀ l ∈ listedIn config, (∀ s ∈ l.1, plainName s = true) →
      joinChain l.1 = strings.Join l.1 '/') ∧
    buildExtensionMapping { Categories := [("a", Json.obj [("b", Json.arr [Json.str ".x"])])] }
      = Except.ok [(".x", "a/b")] := by
  obtain ⟨cats, hp⟩ := parseAll_ok_of_no_scalar config.Categories hshape
  have hmem : ∀ l, l ∈ configListings cats ↔ l ∈ listedIn config :=
    fun l => parseAll_listings config.Categories cats hp hunique l
  refine ⟨?_, fun l _ hlen => joinChain_eq_Join l.1 hlen, ?_, by decide⟩
  · obtain ⟨m, hm, hall⟩ := buildExtensionMapping_listed config cats hp
      (fun l1 h1 l2 h2 => hnodup l1 ((hmem l1).mp h1) l2 ((hmem l2).mp h2))
    refine ⟨m, hm, fun l hl => hall l ((hmem l).mpr hl), ?_⟩
    intro k v hkv
    obtain ⟨l, hl, h1, h2⟩ := buildExtensionMapping_only_listed config cats hp m hm k v hkv
    exact ⟨l, (hmem l).mp hl, h1, h2⟩
  · intro l _ hplain
    by_cases hne : l.1 = []
    · rw [hne]; rfl
    · exact joinChain_plain l.1 hne hplain

/-- The amended C2 at the configuration `images: [[".jpg", "png"], (raw: [".cr2"])]`,
`docs: (text: [".txt"])`. -/
theorem nested_extension_maps_to_joined_path_witness :
    (∀ tv ∈ mixedConfig.Categories, scalarReached tv.2 = false) ∧
    (∀ tv ∈ mixedConfig.Categories, namesUnique tv.2 = true) ∧
    listedIn mixedConfig
      = [(["images"], ".jpg"), (["images"], "png"), (["images", "raw"], ".cr2"),
         (["docs", "text"], ".txt")] ∧
    (∀ l1 ∈ listedIn mixedConfig, ∀ l2 ∈ listedIn mixedConfig,
      ensureDot l1.2 = ensureDot l2.2 → l1.1 = l2.1) ∧
    buildExtensionMapping mixedConfig
      = Except.ok [(".jpg", "images"), (".png", "images"), (".cr2", "images/raw"),
                   (".txt", "docs/text")] ∧
    (∃ m, buildExtensionMapping mixedConfig = Except.ok m ∧
      (∀ l ∈ listedIn mixedConfig, mapGet m (ensureDot l.2) = some (joinChain l.1)) ∧
      (∀ k v, mapGet m k = some v →
        ∃ l ∈ listedIn mixedConfig, ensureDot l.2 = k ∧ joinChain l.1 = v)) :=
  ⟨by decide, by decide, by decide, by decide, by decide,
    (nested_extension_maps_to_joined_path mixedConfig (by decide) (by decide) (by decide)).1⟩

/-! ## The walks of `OrganizeFiles` as folds over the files met -/

mutual

theorem countEntry_eq (m : ExtensionMapping) (dirPath : String) : ∀ (t : Tree) (relDir : String)
    (stats : Stats),
    countEntry m relDir t stats
      = (filesMet dirPath relDir t).foldl (fun s v => countFile m v.relPath v.name s) stats
  | Tree.file name, relDir, stats => by simp [countEntry, filesMet]
  | Tree.dir name entries, relDir, stats => by
    rw [countEntry, filesMet]
    exact countEntries_eq m (filepath.Join [dirPath, name]) entries _ stats

theorem countEntries_eq (m : ExtensionMapping) (dirPath : String) : ∀ (entries : List Tree)
    (relDir : String) (stats : Stats),
    countEntries m relDir entries stats
      = (filesMetIn dirPath relDir entries).foldl (fun s v => countFile m v.relPath v.name s)
          stats
  | [], relDir, stats => by simp [countEntries, filesMetIn]
  | entry :: rest, relDir, stats => by
    rw [countEntries, filesMetIn, List.foldl_append, countEntry_eq m dirPath entry,
      countEntries_eq m dirPath rest]

end

mutual

theorem dispatchEntry_eq (caseTable : Char → Char) (m : ExtensionMapping)
    (opts : OrganizeOptions) : ∀ (t : Tree)
    (dirPath relDir : String) (st : Dispatch),
    dispatchEntry caseTable m opts dirPath relDir t st
      = (filesDispatched opts dirPath relDir t).foldl
          (fun s v => dispatchFile caseTable m opts.SourcePath v.path v.relPath v.name s) st
  | Tree.file name, dirPath, relDir, st => by simp [dispatchEntry, filesDispatched]
  | Tree.dir name entries, dirPath, relDir, st => by
    rw [dispatchEntry, filesDispatched]
    by_cases hp : prunesDir opts (filepath.Join [dirPath, name]) (relChild relDir name) = true
    · simp [hp]
    · rw [if_neg hp, if_neg hp]
      exact dispatchEntries_eq caseTable m opts entries _ _ st

theorem dispatchEntries_eq (caseTable : Char → Char) (m : ExtensionMapping)
    (opts : OrganizeOptions) :
    ∀ (entries : List Tree) (dirPath relDir : String) (st : Dispatch),
    dispatchEntries caseTable m opts dirPath relDir entries st
      = (filesDispatchedIn opts dirPath relDir entries).foldl
          (fun s v => dispatchFile caseTable m opts.SourcePath v.path v.relPath v.name s) st
  | [], dirPath, relDir, st => by simp [dispatchEntries, filesDispatchedIn]
  | entry :: rest, dirPath, relDir, st => by
    rw [dispatchEntries, filesDispatchedIn, List.foldl_append, dispatchEntry_eq caseTable m opts entry,
      dispatchEntries_eq caseTable m opts rest]

end

mutual

theorem filesDispatched_recursive (opts : OrganizeOptions) (hr : opts.Recursive = true) :
    ∀ (t : Tree) (dirPath relDir : String),
    filesDispatched opts dirPath relDir t = filesMet dirPath relDir t
  | Tree.file name, dirPath, relDir => by simp [filesDispatched, filesMet]
  | Tree.dir name entries, dirPath, relDir => by
    rw [filesDispatched, filesMet]
    simp only [prunesDir, hr, Bool.not_true, Bool.false_and, Bool.false_eq_true, if_false]
    exact filesDispatchedIn_recursive opts hr entries _ _

theorem filesDispatchedIn_recursive (opts : OrganizeOptions) (hr : opts.Recursive = true) :
    ∀ (entries : List Tree) (dirPath relDir : String),
    filesDispatchedIn opts dirPath relDir entries = filesMetIn dirPath relDir entries
  | [], dirPath, relDir => by simp [filesDispatchedIn, filesMetIn]
  | entry :: rest, dirPath, relDir => by
    rw [filesDispatchedIn, filesMetIn, filesDispatched_recursive opts hr entry,
      filesDispatchedIn_recursive opts hr rest]

end

theorem filesDispatchedIn_files (opts : OrganizeOptions) (dirPath relDir : String)
    (entries : List Tree) (hf : ∀ e ∈ entries, isFile e = true) :
    filesDispatchedIn opts dirPath relDir entries = filesMetIn dirPath relDir entries := by
  induction entries with
  | nil => simp [filesDispatchedIn, filesMetIn]
  | cons e rest ih =>
    have he := hf e (List.mem_cons_self _ _)
    rw [filesDispatchedIn, filesMetIn, ih (fun x hx => hf x (List.mem_cons_of_mem _ hx))]
    cases e with
    | file name => simp [filesDispatched, filesMet]
    | dir name es => simp [isFile] at he

theorem dispatchSkips_imp_countingSkips (m : ExtensionMapping) (relPath name : String)
    (h : dispatchSkips m relPath name = true) : countingSkips m relPath name = true := by
  unfold dispatchSkips at h
  unfold countingSkips
  split at h
  · split at h
    · split at h
      · rename_i h1 h2
        simp only [Bool.and_eq_true, decide_eq_true_eq] at h2
        rw [if_pos h1, if_pos h2.2]
      · cases h
    · cases h
  · cases h

theorem foldl_countFile_counted (m : ExtensionMapping) (vs : List Visit) (stats : Stats)
    (h : ∀ v ∈ vs, countingSkips m v.relPath v.name = false) :
    vs.foldl (fun s v => countFile m v.relPath v.name s) stats
      = { stats with TotalFiles := stats.TotalFiles + vs.length } := by
  induction vs generalizing stats with
  | nil => rfl
  | cons v rest ih =>
    rw [List.foldl_cons, ih _ (fun x hx => h x (List.mem_cons_of_mem _ hx))]
    simp only [countFile, h v (List.mem_cons_self _ _), Bool.false_eq_true, if_false,
      List.length_cons]
    congr 1
    omega

theorem foldl_countFile_skipped (m : ExtensionMapping) (vs : List Visit) (stats : Stats)
    (h : ∀ v ∈ vs, countingSkips m v.relPath v.name = true) :
    vs.foldl (fun s v => countFile m v.relPath v.name s) stats = stats := by
  induction vs generalizing stats with
  | nil => rfl
  | cons v rest ih =>
    rw [List.foldl_cons, ih _ (fun x hx => h x (List.mem_cons_of_mem _ hx))]
    simp only [countFile, h v (List.mem_cons_self _ _), if_true]

theorem foldl_countFile_fields (m : ExtensionMapping) (vs : List Visit) (stats : Stats) :
    (vs.foldl (fun s v => countFile m v.relPath v.name s) stats).ProcessedFiles
        = stats.ProcessedFiles ∧
      (vs.foldl (fun s v => countFile m v.relPath v.name s) stats).OrganizedFiles
        = stats.OrganizedFiles ∧
      (vs.foldl (fun s v => countFile m v.relPath v.name s) stats).SkippedFiles
        = stats.SkippedFiles := by
  induction vs generalizing stats with
  | nil => exact ⟨rfl, rfl, rfl⟩
  | cons v rest ih =>
    obtain ⟨h1, h2, h3⟩ := ih (countFile m v.relPath v.name stats)
    rw [List.foldl_cons, h1, h2, h3]
    unfold countFile
    split <;> exact ⟨rfl, rfl, rfl⟩

theorem foldl_dispatchFile_jobs (caseTable : Char → Char) (m : ExtensionMapping) (sourcePath : String) (vs : List Visit)
    (st : Dispatch)
    (h : ∀ v ∈ vs, dispatchSkips m v.relPath v.name = false ∧
      strings.ToLower caseTable (filepath.Ext v.name) ≠ "" ∧
      ∃ folder, mapGet m (strings.ToLower caseTable (filepath.Ext v.name)) = some folder) :
    (vs.foldl (fun s v => dispatchFile caseTable m sourcePath v.path v.relPath v.name s) st).stats
        = st.stats ∧
      (vs.foldl (fun s v => dispatchFile caseTable m sourcePath v.path v.relPath v.name s) st).jobs.length
        = st.jobs.length + vs.length := by
  induction vs generalizing st with
  | nil => exact ⟨rfl, rfl⟩
  | cons v rest ih =>
    obtain ⟨h1, h2, folder, h3⟩ := h v (List.mem_cons_self _ _)
    obtain ⟨g1, g2⟩ := ih (dispatchFile caseTable m sourcePath v.path v.relPath v.name st)
      (fun x hx => h x (List.mem_cons_of_mem _ hx))
    rw [List.foldl_cons, g1, g2]
    simp only [dispatchFile, h1, Bool.false_eq_true, if_false, h2, h3, List.length_append,
      List.length_cons, List.length_nil]
    exact ⟨trivial, by omega⟩

theorem foldl_dispatchFile_skipped (caseTable : Char → Char) (m : ExtensionMapping) (sourcePath : String)
    (vs : List Visit) (st : Dispatch)
    (h : ∀ v ∈ vs, dispatchSkips m v.relPath v.name = true) :
    vs.foldl (fun s v => dispatchFile caseTable m sourcePath v.path v.relPath v.name s) st
      = { stats := { st.stats with
            ProcessedFiles := st.stats.ProcessedFiles + vs.length,
            SkippedFiles := st.stats.SkippedFiles + vs.length },
          jobs := st.jobs } := by
  induction vs generalizing st with
  | nil => rfl
  | cons v rest ih =>
    rw [List.foldl_cons, ih _ (fun x hx => h x (List.mem_cons_of_mem _ hx))]
    simp only [dispatchFile, h v (List.mem_cons_self _ _), if_true, Dispatch.skip,
      Stats.IncrementProcessed, Stats.IncrementSkipped, List.length_cons]
    congr 2 <;> omega

/-! ## C3 -/

/-- C3 fails on the code: with the mapping `.jpg -> images`, the file `images/jpg/a.jpg` is left
out of `TotalFiles` by the counting pass, while the dispatching pass, which also asks for a file
name starting with a dot, does not treat it as already organized and sends a job for it. -/
theorem passes_disagree_on_placed_file :
    countingSkips [(".jpg", "images")] "images/jpg/a.jpg" "a.jpg" = true ∧
    countFile [(".jpg", "images")] "images/jpg/a.jpg" "a.jpg"
        { TotalFiles := 0, ProcessedFiles := 0, OrganizedFiles := 0, SkippedFiles := 0 }
      = { TotalFiles := 0, ProcessedFiles := 0, OrganizedFiles := 0, SkippedFiles := 0 } ∧
    dispatchSkips [(".jpg", "images")] "images/jpg/a.jpg" "a.jpg" = false ∧
    dispatchFile unicode.latin1 [(".jpg", "images")] "/src" "/src/images/jpg/a.jpg" "images/jpg/a.jpg" "a.jpg"
        { stats := { TotalFiles := 0, ProcessedFiles := 0, OrganizedFiles := 0,
                     SkippedFiles := 0 },
          jobs := [] }
      = { stats := { TotalFiles := 0, ProcessedFiles := 0, OrganizedFiles := 0,
                     SkippedFiles := 0 },
          jobs := [{ SourcePath := "/src/images/jpg/a.jpg", TargetDir := "/src/images/jpg",
                     Filename := "a.jpg" }] } := by
  decide

/-! ## Files placed by an earlier run -/

theorem placedRelPath_eq (caseTable : Char → Char) (folder name : String) (hf : plainName folder = true) :
    placedRelPath caseTable folder name
      = String.mk (folder.data ++ '/' ::
          ((strings.TrimPrefix (strings.ToLower caseTable (filepath.Ext name)) ".").data
            ++ '/' :: name.data)) := by
  obtain ⟨h1, h2, _, _⟩ := (plainName_iff folder).mp hf
  have hne1 : folder ≠ "." := by
    intro h
    rw [h] at h2
    exact h2 rfl
  obtain ⟨c, cs, hcs⟩ := List.exists_cons_of_ne_nil h1
  have hne2 : folder ++ "/"
      ++ strings.TrimPrefix (strings.ToLower caseTable (filepath.Ext name)) "." ≠ "." := by
    intro h
    have h3 := congrArg String.data h
    simp only [String.data_append, hcs] at h3
    have h4 := congrArg List.length h3
    simp at h4
  apply String.ext
  simp only [placedRelPath, relChild, if_true, hne1, hne2, if_false, String.data_append]
  simp

theorem placed_file_countingSkips (caseTable : Char → Char) (m : ExtensionMapping) (folder name : String)
    (hget : mapGet m (strings.ToLower caseTable (filepath.Ext name)) = some folder)
    (hf : plainName folder = true) (hname : filepath.hasSeparator name.data = false)
    (hlow : strings.ToLower caseTable (filepath.Ext name) = filepath.Ext name) :
    countingSkips m (placedRelPath caseTable folder name) name = true := by
  have hfs : ∀ x ∈ folder.data, x ≠ '/' := ((plainName_iff folder).mp hf).2.2.2
  have hsplit := Split_three folder.data
    (strings.TrimPrefix (strings.ToLower caseTable (filepath.Ext name)) ".").data name.data hfs
    (by rw [hlow]; exact TrimPrefix_Ext_sepFree name)
    ((hasSeparator_false_iff _).mp hname)
  have hmem : folder ∈ targetFolders m := by
    have h1 := mem_of_mapGet m _ _ hget
    have h2 : (strings.Split folder filepath.Separator).headD "" = folder := by
      simp only [strings.Split, filepath.Separator, splitChars_sepFree '/' folder.data hfs]
      rfl
    rw [← h2]
    exact List.mem_map_of_mem (fun kv => (strings.Split kv.2 filepath.Separator).headD "") h1
  rw [countingSkips, filepath.ToSlash, placedRelPath_eq caseTable folder name hf, hsplit]
  simp [hmem, hlow]

/-! ## C4 -/

/-- C4 fails on the code: with the mapping `.jpg -> images`, a first run places the root file
`a.jpg` at `images/jpg/a.jpg`; in a second run on the resulting tree the counting pass leaves the
file out of `TotalFiles`, but the dispatching pass, which also asks for a file name starting with
a dot, sends a job for it, and the worker, which finds the file at its own target, renames it to
`a_1.jpg`: total 0, organized 1, skipped 0. With the nested destination `.txt -> docs/text` the
placed file `docs/text/txt/b.txt` is recognised by neither pass and the second run renames it to
`b_1.txt`: total 1, organized 1, skipped 0. -/
theorem second_run_moves_placed_file_again :
    OrganizeFiles unicode.latin1 (flatConfig [("images", [".jpg"])]) (scenarioOptions true)
        allSucceed 4 [Tree.file "a.jpg"]
      = RunResult.done
          { TotalFiles := 1, ProcessedFiles := 1, OrganizedFiles := 1, SkippedFiles := 0 }
          ["/src", "/src/images/jpg", "/src/images/jpg/a.jpg"] ∧
    placedRelPath unicode.latin1 "images" "a.jpg" = "images/jpg/a.jpg" ∧
    countingSkips [(".jpg", "images")] "images/jpg/a.jpg" "a.jpg" = true ∧
    dispatchSkips [(".jpg", "images")] "images/jpg/a.jpg" "a.jpg" = false ∧
    OrganizeFiles unicode.latin1 (flatConfig [("images", [".jpg"])]) (scenarioOptions true)
        allSucceed 4 [Tree.dir "images" [Tree.dir "jpg" [Tree.file "a.jpg"]]]
      = RunResult.done
          { TotalFiles := 0, ProcessedFiles := 1, OrganizedFiles := 1, SkippedFiles := 0 }
          ["/src", "/src/images", "/src/images/jpg", "/src/images/jpg/a_1.jpg"] ∧
    OrganizeFiles unicode.latin1
        { Categories := [("docs", Json.obj [("text", Json.arr [Json.str ".txt"])])] }
        (scenarioOptions true) allSucceed 4 [Tree.file "b.txt"]
      = RunResult.done
          { TotalFiles := 1, ProcessedFiles := 1, OrganizedFiles := 1, SkippedFiles := 0 }
          ["/src", "/src/docs/text/txt", "/src/docs/text/txt/b.txt"] ∧
    placedRelPath unicode.latin1 "docs/text" "b.txt" = "docs/text/txt/b.txt" ∧
    countingSkips [(".txt", "docs/text")] "docs/text/txt/b.txt" "b.txt" = false ∧
    dispatchSkips [(".txt", "docs/text")] "docs/text/txt/b.txt" "b.txt" = false ∧
    OrganizeFiles unicode.latin1
        { Categories := [("docs", Json.obj [("text", Json.arr [Json.str ".txt"])])] }
        (scenarioOptions true) allSucceed 4
        [Tree.dir "docs" [Tree.dir "text" [Tree.dir "txt" [Tree.file "b.txt"]]]]
      = RunResult.done
          { TotalFiles := 1, ProcessedFiles := 1, OrganizedFiles := 1, SkippedFiles := 0 }
          ["/src", "/src/docs", "/src/docs/text", "/src/docs/text/txt",
           "/src/docs/text/txt/b_1.txt"] := by
  decide

/-! ## C5 -/

/-- C5: for a file that the dispatching pass does not treat as already organized, a name without
extension is counted as processed and skipped and no job is sent; otherwise, with `ext` the
lower-cased extension, a job is sent exactly when `ext` is a key of the mapping, with the path and
the name of the file and the target directory `Join(sourceRoot, mapping[ext], ext without dot)`,
and a file whose `ext` is not a key is counted as processed and skipped. -/
theorem dispatch_of_unorganized_file (caseTable : Char → Char)
    (extToFolder : ExtensionMapping)
    (sourcePath path relPath name : String) (st : Dispatch)
    (hnot : dispatchSkips extToFolder relPath name = false) :
    (filepath.Ext name = "" →
      dispatchFile caseTable extToFolder sourcePath path relPath name st
        = { stats := st.stats.IncrementProcessed.IncrementSkipped, jobs := st.jobs }) ∧
    (filepath.Ext name ≠ "" →
      (∀ folder, mapGet extToFolder (strings.ToLower caseTable (filepath.Ext name)) = some folder →
        dispatchFile caseTable extToFolder sourcePath path relPath name st
          = { stats := st.stats,
              jobs := st.jobs ++
                [{ SourcePath := path,
                   TargetDir := filepath.Join [sourcePath, folder,
                     strings.TrimPrefix (strings.ToLower caseTable (filepath.Ext name)) "."],
                   Filename := name }] }) ∧
      (mapGet extToFolder (strings.ToLower caseTable (filepath.Ext name)) = none →
        dispatchFile caseTable extToFolder sourcePath path relPath name st
          = { stats := st.stats.IncrementProcessed.IncrementSkipped, jobs := st.jobs })) := by
  refine ⟨?_, ?_⟩
  · intro hext
    simp [dispatchFile, hnot, hext, strings.ToLower, Dispatch.skip]
  · intro hext
    have hlow : strings.ToLower caseTable (filepath.Ext name) ≠ "" := by
      rw [Ne, ToLower_eq_empty_iff]
      exact hext
    obtain ⟨tail, htail⟩ := ToLower_Ext_data caseTable name hext
    refine ⟨?_, ?_⟩
    · intro folder hfolder
      rw [TrimPrefix_dot _ tail htail]
      simp [dispatchFile, hnot, hlow, hfolder]
    · intro hnone
      simp [dispatchFile, hnot, hlow, hnone, Dispatch.skip]

/-- C5 at the file `a.JPÉG` of the source `/src` for the mapping `.jpég -> images`, with the
Latin-1 rows of the case tables. -/
theorem dispatch_of_unorganized_file_witness :
    dispatchSkips [(".jpég", "images")] "a.JPÉG" "a.JPÉG" = false ∧
    filepath.Ext "a.JPÉG" ≠ "" ∧
    mapGet [(".jpég", "images")] (strings.ToLower unicode.latin1 (filepath.Ext "a.JPÉG"))
      = some "images" ∧
    strings.ToLower unicode.latin1 (filepath.Ext "a.JPÉG") = ".jpég" ∧
    dispatchFile unicode.latin1 [(".jpég", "images")] "/src" "/src/a.JPÉG" "a.JPÉG" "a.JPÉG"
        { stats := { TotalFiles := 1, ProcessedFiles := 0, OrganizedFiles := 0,
                     SkippedFiles := 0 },
          jobs := [] }
      = { stats := { TotalFiles := 1, ProcessedFiles := 0, OrganizedFiles := 0,
                     SkippedFiles := 0 },
          jobs := [{ SourcePath := "/src/a.JPÉG",
                     TargetDir := filepath.Join ["/src", "images",
                       strings.TrimPrefix
                         (strings.ToLower unicode.latin1 (filepath.Ext "a.JPÉG")) "."],
                     Filename := "a.JPÉG" }] } :=
  ⟨by decide, by decide, by decide, by decide,
    ((dispatch_of_unorganized_file unicode.latin1 [(".jpég", "images")] "/src" "/src/a.JPÉG"
      "a.JPÉG" "a.JPÉG"
      { stats := { TotalFiles := 1, ProcessedFiles := 0, OrganizedFiles := 0,
                   SkippedFiles := 0 },
        jobs := [] } (by decide)).2 (by decide)).1 "images" (by decide)⟩

/-! ## The search for a free name -/

theorem numberedName_data (baseName : String) (counter : Nat) (ext : String) :
    (numberedName baseName counter ext).data
      = baseName.data ++ ('_' :: (Nat.repr counter).data ++ ext.data) := by
  simp [numberedName, String.data_append]

theorem numberedTarget_form (targetDir filename : String) :
    ∃ G : List Char, ∀ k, numberedTarget targetDir filename k
      = String.mk (G ++ ('_' :: (Nat.repr k).data ++ (filepath.Ext filename).data)) := by
  have hfree : ∀ k, ∀ c ∈ ('_' :: (Nat.repr k).data ++ (filepath.Ext filename).data),
      c ≠ '/' := by
    intro k c hc
    rcases List.mem_cons.mp hc with h1 | h1
    · rw [h1]; decide
    · rcases List.mem_append.mp h1 with h2 | h2
      · exact (repr_spec k).2 c h2
      · exact Ext_sepFree filename c h2
  have hmem : ∀ k, '_' ∈ ('_' :: (Nat.repr k).data ++ (filepath.Ext filename).data) :=
    fun k => List.mem_cons_self _ _
  have hne : ∀ k, numberedName (strings.TrimSuffix filename (filepath.Ext filename)) k
      (filepath.Ext filename) ≠ "" := by
    intro k h
    have h2 := congrArg String.data h
    rw [numberedName_data] at h2
    simp at h2
  by_cases hdir : targetDir = ""
  · obtain ⟨G, hG⟩ := Clean_append_real
      (strings.TrimSuffix filename (filepath.Ext filename)).data
    refine ⟨G, fun k => ?_⟩
    rw [← hG _ (hfree k) (hmem k), ← numberedName_data]
    simp [numberedTarget, filepath.Join, hdir, List.dropWhile, hne k, strings.Join,
      strings.joinChars]
  · obtain ⟨G, hG⟩ := Clean_append_real
      (targetDir.data ++ '/' :: (strings.TrimSuffix filename (filepath.Ext filename)).data)
    refine ⟨G, fun k => ?_⟩
    rw [← hG _ (hfree k) (hmem k)]
    simp [numberedTarget, filepath.Join, hdir, List.dropWhile, strings.Join,
      strings.joinChars, numberedName_data, filepath.Separator]

theorem numberedTarget_injective (targetDir filename : String) (a b : Nat)
    (h : numberedTarget targetDir filename a = numberedTarget targetDir filename b) : a = b := by
  obtain ⟨G, hG⟩ := numberedTarget_form targetDir filename
  rw [hG a, hG b] at h
  have h1 := congrArg String.data h
  simp only [List.append_cancel_left_eq, List.cons.injEq, true_and,
    List.append_cancel_right_eq] at h1
  exact repr_data_injective a b h1

theorem freeTarget_spec (stat : String → StatResult) (targetDir filename : String) :
    ∀ (fuel : Nat) (busy : List String) (counter : Nat),
      (∀ j, counter ≤ j → stat (numberedTarget targetDir filename j) ≠ StatResult.notExist →
        numberedTarget targetDir filename j ∈ busy) →
      busy.length < fuel →
      ∃ k, counter ≤ k ∧
        freeTarget stat targetDir (strings.TrimSuffix filename (filepath.Ext filename))
          (filepath.Ext filename) fuel counter = some (numberedTarget targetDir filename k) ∧
        stat (numberedTarget targetDir filename k) = StatResult.notExist ∧
        ∀ j, counter ≤ j → j < k →
          stat (numberedTarget targetDir filename j) ≠ StatResult.notExist := by
  intro fuel
  induction fuel with
  | zero => intro busy counter _ h; omega
  | succ fuel ih =>
    intro busy counter hbusy hlen
    by_cases hm : stat (numberedTarget targetDir filename counter) = StatResult.notExist
    · refine ⟨counter, Nat.le_refl _, ?_, hm, fun j h1 h2 => by omega⟩
      have hm1 : stat (filepath.Join [targetDir,
          numberedName (strings.TrimSuffix filename (filepath.Ext filename)) counter
            (filepath.Ext filename)]) = StatResult.notExist := hm
      simp [freeTarget, hm1, numberedTarget]
    · have hin := hbusy counter (Nat.le_refl _) hm
      obtain ⟨k, hk, hres, hfree, hbelow⟩ :=
        ih (busy.erase (numberedTarget targetDir filename counter)) (counter + 1)
          (by
            intro j hj hne
            have hneq : numberedTarget targetDir filename j
                ≠ numberedTarget targetDir filename counter := by
              intro h
              have := numberedTarget_injective targetDir filename j counter h
              omega
            exact (List.mem_erase_of_ne hneq).mpr (hbusy j (by omega) hne))
          (by
            have := List.length_pos_of_mem hin
            rw [List.length_erase_of_mem hin]; omega)
      refine ⟨k, by omega, ?_, hfree, ?_⟩
      · rw [← hres]
        have hm1 : ¬ stat (filepath.Join [targetDir,
            numberedName (strings.TrimSuffix filename (filepath.Ext filename)) counter
              (filepath.Ext filename)]) = StatResult.notExist := hm
        simp [freeTarget, hm1]
      · intro j hj1 hj2
        by_cases hjc : j = counter
        · rw [hjc]; exact hm
        · exact hbelow j (by omega) hj2

theorem freeTarget_never_ends (stat : String → StatResult) (targetDir baseName ext : String)
    (h : ∀ j, stat (filepath.Join [targetDir, numberedName baseName j ext])
      ≠ StatResult.notExist) :
    ∀ (fuel counter : Nat), freeTarget stat targetDir baseName ext fuel counter = none := by
  intro fuel
  induction fuel with
  | zero => intro counter; rfl
  | succ fuel ih =>
    intro counter
    simp [freeTarget, h counter, ih]

theorem freeTarget_more_fuel (stat : String → StatResult) (targetDir baseName ext : String)
    (target : String) :
    ∀ (fuel counter : Nat), freeTarget stat targetDir baseName ext fuel counter = some target →
      freeTarget stat targetDir baseName ext (fuel + 1) counter = some target := by
  intro fuel
  induction fuel with
  | zero => intro counter h; cases h
  | succ fuel ih =>
    intro counter h
    rw [freeTarget] at h ⊢
    by_cases hs : stat (filepath.Join [targetDir, numberedName baseName counter ext])
        = StatResult.notExist
    · simp only [hs, if_true] at h ⊢
      exact h
    · simp only [hs, if_false] at h ⊢
      exact ih (counter + 1) h

theorem osStat_of_no_failure (ops : FileOps) (hstat : ∀ path, ops.statFails path = false)
    (paths : List String) (path : String) :
    osStat ops paths path
      = if path ∈ paths then StatResult.found else StatResult.notExist := by
  simp [osStat, hstat]

theorem chooseTarget_some (ops : FileOps) (hstat : ∀ path, ops.statFails path = false)
    (existing : List String) (targetDir filename : String) (fuel : Nat)
    (hfuel : existing.length < fuel) :
    ∃ target, chooseTarget (osStat ops existing) targetDir filename fuel = some target := by
  by_cases h : filepath.Join [targetDir, filename] ∈ existing
  · obtain ⟨k, _, hres, _, _⟩ := freeTarget_spec (osStat ops existing) targetDir filename fuel
      existing 1
      (by
        intro j _ hne
        rw [osStat_of_no_failure ops hstat] at hne
        by_contra hnot
        exact hne (if_neg hnot))
      hfuel
    exact ⟨_, by rw [← hres]; simp [chooseTarget, osStat_of_no_failure ops hstat, h]⟩
  · exact ⟨filepath.Join [targetDir, filename],
      by simp [chooseTarget, osStat_of_no_failure ops hstat, h]⟩

theorem worker_all_succeed (ops : FileOps) (hmk : ∀ d, ops.mkdirOk d = true)
    (hmv : ∀ s t, ops.moveOk s t = true) (hstat : ∀ path, ops.statFails path = false)
    (fuel : Nat) (jobs : List FileJob) (st : WorkerState)
    (hfuel : st.paths.length + 2 * jobs.length ≤ fuel) :
    ∃ final, worker ops fuel jobs st = some final ∧
      final.stats = { st.stats with
        ProcessedFiles := st.stats.ProcessedFiles + jobs.length,
        OrganizedFiles := st.stats.OrganizedFiles + jobs.length } := by
  induction jobs generalizing st with
  | nil => exact ⟨st, rfl, rfl⟩
  | cons job rest ih =>
    simp only [List.length_cons] at hfuel
    have hlen1 : (if st.paths.contains job.TargetDir = true then st.paths
        else st.paths ++ [job.TargetDir]).length ≤ st.paths.length + 1 := by
      split
      · omega
      · simp
    obtain ⟨target, htarget⟩ := chooseTarget_some ops hstat _ job.TargetDir job.Filename fuel
      (Nat.lt_of_le_of_lt hlen1 (by omega))
    have hjob : workerJob ops fuel st job
        = some { stats := st.stats.IncrementProcessed.IncrementOrganized,
                 paths := (if st.paths.contains job.TargetDir = true then st.paths
                   else st.paths ++ [job.TargetDir]).erase job.SourcePath ++ [target] } := by
      simp only [workerJob, hmk, Bool.not_true, Bool.false_eq_true, if_false, htarget, hmv,
        if_true]
    have hlen2 : ((if st.paths.contains job.TargetDir = true then st.paths
        else st.paths ++ [job.TargetDir]).erase job.SourcePath ++ [target]).length
          ≤ st.paths.length + 2 := by
      have := (List.erase_sublist job.SourcePath
        (if st.paths.contains job.TargetDir = true then st.paths
          else st.paths ++ [job.TargetDir])).length_le
      simp only [List.length_append, List.length_singleton]
      omega
    obtain ⟨final, hfinal, hstats⟩ := ih
      { stats := st.stats.IncrementProcessed.IncrementOrganized,
        paths := (if st.paths.contains job.TargetDir = true then st.paths
          else st.paths ++ [job.TargetDir]).erase job.SourcePath ++ [target] }
      (by
        show ((if st.paths.contains job.TargetDir = true then st.paths
          else st.paths ++ [job.TargetDir]).erase job.SourcePath ++ [target]).length
            + 2 * rest.length ≤ fuel
        omega)
    refine ⟨final, ?_, ?_⟩
    · rw [worker, hjob]
      exact hfinal
    · rw [hstats]
      simp only [Stats.IncrementProcessed, Stats.IncrementOrganized, List.length_cons]
      congr 1 <;> omega

theorem chooseTarget_more_fuel (stat : String → StatResult) (targetDir filename : String)
    (fuel : Nat) (target : String)
    (h : chooseTarget stat targetDir filename fuel = some target) :
    chooseTarget stat targetDir filename (fuel + 1) = some target := by
  unfold chooseTarget at h ⊢
  by_cases hs : stat (filepath.Join [targetDir, filename]) = StatResult.found
  · simp only [hs, if_true] at h ⊢
    exact freeTarget_more_fuel stat targetDir _ _ target fuel 1 h
  · simp only [hs, if_false] at h ⊢
    exact h

theorem workerJob_more_fuel (ops : FileOps) (fuel : Nat) (st st1 : WorkerState) (job : FileJob)
    (h : workerJob ops fuel st job = some st1) : workerJob ops (fuel + 1) st job = some st1 := by
  unfold workerJob at h ⊢
  by_cases hmk : ops.mkdirOk job.TargetDir = true
  · simp only [hmk, Bool.not_true, Bool.false_eq_true, if_false] at h ⊢
    cases hc : chooseTarget
        (osStat ops (if st.paths.contains job.TargetDir = true then st.paths
          else st.paths ++ [job.TargetDir])) job.TargetDir job.Filename fuel with
    | none => rw [hc] at h; cases h
    | some target =>
      rw [hc] at h
      rw [chooseTarget_more_fuel _ _ _ _ _ hc]
      exact h
  · simp only [hmk, Bool.not_false, if_true] at h ⊢
    exact h

theorem worker_more_fuel (ops : FileOps) (fuel : Nat) (jobs : List FileJob)
    (st final : WorkerState) (h : worker ops fuel jobs st = some final) :
    worker ops (fuel + 1) jobs st = some final := by
  induction jobs generalizing st with
  | nil => exact h
  | cons job rest ih =>
    rw [worker] at h ⊢
    cases hj : workerJob ops fuel st job with
    | none => rw [hj] at h; cases h
    | some st1 =>
      rw [hj] at h
      rw [workerJob_more_fuel ops fuel st st1 job hj]
      exact ih st1 h

theorem OrganizeFiles_more_fuel (caseTable : Char → Char) (config : Config)
    (opts : OrganizeOptions) (ops : FileOps) (fuel : Nat) (entries : List Tree) (stats : Stats)
    (paths : List String)
    (h : OrganizeFiles caseTable config opts ops fuel entries = RunResult.done stats paths) :
    ∀ more, OrganizeFiles caseTable config opts ops (fuel + more) entries
      = RunResult.done stats paths := by
  intro more
  induction more with
  | zero => exact h
  | succ more ih =>
    rw [← Nat.add_assoc]
    unfold OrganizeFiles at ih ⊢
    cases hb : buildExtensionMapping config with
    | error e => rw [hb] at ih; cases ih
    | ok mapping =>
      rw [hb] at ih
      simp only at ih ⊢
      unfold organizeWith at ih ⊢
      by_cases hnw : opts.NumWorkers ≤ 0
      · simp only [hnw, if_true] at ih ⊢
        exact ih
      · simp only [hnw, if_false] at ih ⊢
        cases hw : worker ops (fuel + more)
            (dispatchEntries caseTable mapping opts opts.SourcePath "." entries
              { stats := countEntries mapping "." entries
                  { TotalFiles := 0, ProcessedFiles := 0, OrganizedFiles := 0,
                    SkippedFiles := 0 },
                jobs := [] }).jobs
            { stats := (dispatchEntries caseTable mapping opts opts.SourcePath "." entries
                { stats := countEntries mapping "." entries
                    { TotalFiles := 0, ProcessedFiles := 0, OrganizedFiles := 0,
                      SkippedFiles := 0 },
                  jobs := [] }).stats,
              paths := opts.SourcePath :: entriesPaths opts.SourcePath entries } with
        | none => rw [hw] at ih; cases ih
        | some final =>
          rw [hw] at ih
          rw [worker_more_fuel _ _ _ _ _ hw]
          exact ih

/-- The rule of the search when `os.Stat` fails for no other reason than a missing path: with
`existing` the paths that exist and more tries than there are paths, the target chosen by `worker`
is the file name in the target directory when that path does not exist, and otherwise the numbered
name `base_k+ext` for the least `k >= 1` whose path does not exist (every `base_j+ext` with
`1 <= j < k` exists); the search ends and the chosen path never exists already; `base+ext` is the
file name; and two files named `report.pdf` moved one after the other to the same directory are
both present afterwards, the second as `report_1.pdf`. -/
theorem chooseTarget_least_free (ops : FileOps) (existing : List String)
    (targetDir filename : String) (fuel : Nat)
    (hstat : ∀ path, ops.statFails path = false) (hfuel : existing.length < fuel) :
    (filepath.Join [targetDir, filename] ∉ existing →
      chooseTarget (osStat ops existing) targetDir filename fuel
        = some (filepath.Join [targetDir, filename])) ∧
    (filepath.Join [targetDir, filename] ∈ existing →
      ∃ k, 1 ≤ k ∧
        chooseTarget (osStat ops existing) targetDir filename fuel
          = some (numberedTarget targetDir filename k) ∧
        numberedTarget targetDir filename k ∉ existing ∧
        ∀ j, 1 ≤ j → j < k → numberedTarget targetDir filename j ∈ existing) ∧
    (∃ target, chooseTarget (osStat ops existing) targetDir filename fuel = some target ∧
      target ∉ existing) ∧
    strings.TrimSuffix filename (filepath.Ext filename) ++ filepath.Ext filename = filename ∧
    worker allSucceed 4
        [{ SourcePath := "/src/x/report.pdf", TargetDir := "/src/docs/pdf",
           Filename := "report.pdf" },
         { SourcePath := "/src/y/report.pdf", TargetDir := "/src/docs/pdf",
           Filename := "report.pdf" }]
        { stats := { TotalFiles := 2, ProcessedFiles := 0, OrganizedFiles := 0,
                     SkippedFiles := 0 },
          paths := ["/src", "/src/x", "/src/x/report.pdf", "/src/y", "/src/y/report.pdf"] }
      = some
        { stats := { TotalFiles := 2, ProcessedFiles := 2, OrganizedFiles := 2,
                     SkippedFiles := 0 },
          paths := ["/src", "/src/x", "/src/y", "/src/docs/pdf", "/src/docs/pdf/report.pdf",
                    "/src/docs/pdf/report_1.pdf"] } := by
  have hmem : ∀ path, osStat ops existing path ≠ StatResult.notExist ↔ path ∈ existing := by
    intro path
    rw [osStat_of_no_failure ops hstat]
    by_cases hp : path ∈ existing <;> simp [hp]
  have hno : filepath.Join [targetDir, filename] ∉ existing →
      chooseTarget (osStat ops existing) targetDir filename fuel
        = some (filepath.Join [targetDir, filename]) := by
    intro h
    simp [chooseTarget, osStat_of_no_failure ops hstat, h]
  have hyes : filepath.Join [targetDir, filename] ∈ existing →
      ∃ k, 1 ≤ k ∧
        chooseTarget (osStat ops existing) targetDir filename fuel
          = some (numberedTarget targetDir filename k) ∧
        numberedTarget targetDir filename k ∉ existing ∧
        ∀ j, 1 ≤ j → j < k → numberedTarget targetDir filename j ∈ existing := by
    intro h
    obtain ⟨k, hk, hres, hfree, hbelow⟩ := freeTarget_spec (osStat ops existing) targetDir
      filename fuel existing 1 (fun j _ hne => (hmem _).mp hne) hfuel
    refine ⟨k, hk, ?_, ?_, fun j h1 h2 => (hmem _).mp (hbelow j h1 h2)⟩
    · rw [← hres]
      simp [chooseTarget, osStat_of_no_failure ops hstat, h]
    · intro hin
      exact (hmem _).mpr hin hfree
  refine ⟨hno, hyes, ?_, TrimSuffix_Ext filename, by decide⟩
  by_cases h : filepath.Join [targetDir, filename] ∈ existing
  · obtain ⟨k, _, hres, hfree, _⟩ := hyes h
    exact ⟨_, hres, hfree⟩
  · exact ⟨_, hno h, h⟩

/-- The rule of the search at the directory `/d` that holds `report.pdf` and `report_1.pdf`, for
the file name `report.pdf` and three tries. -/
theorem chooseTarget_least_free_witness :
    (∀ path, allSucceed.statFails path = false) ∧
    ["/d/report.pdf", "/d/report_1.pdf"].length < 3 ∧
    (∃ k, 1 ≤ k ∧
      chooseTarget (osStat allSucceed ["/d/report.pdf", "/d/report_1.pdf"]) "/d" "report.pdf" 3
        = some (numberedTarget "/d" "report.pdf" k) ∧
      numberedTarget "/d" "report.pdf" k ∉ ["/d/report.pdf", "/d/report_1.pdf"] ∧
      ∀ j, 1 ≤ j → j < k →
        numberedTarget "/d" "report.pdf" j ∈ ["/d/report.pdf", "/d/report_1.pdf"]) ∧
    chooseTarget (osStat allSucceed ["/d/report.pdf", "/d/report_1.pdf"]) "/d" "report.pdf" 3
      = some "/d/report_2.pdf" :=
  ⟨fun _ => rfl, by decide,
    (chooseTarget_least_free allSucceed ["/d/report.pdf", "/d/report_1.pdf"] "/d" "report.pdf" 3
      (fun _ => rfl) (by decide)).2.1 (by decide),
    by decide⟩

/-! ## C6 -/

/-- C6 fails on the code: when `os.Stat` fails with an error other than the one of a missing path
(here: for every path of more than 13 characters, as for a name that is too long), and the target
directory `/d` holds `report.pdf`, the first test of `worker` (`err == nil`) finds the collision,
every numbered name `report_k.pdf` gets the other error, for which `os.IsNotExist` does not hold,
and the search never ends: no bound on the tries gives a target, and `worker` does not return.
The first test takes the same error for a free name: for the new file name `report-2024.pdf` the
path of the file name itself is chosen. -/
theorem search_never_ends_on_stat_error :
    osStat longNamesFail ["/s", "/s/report.pdf", "/d", "/d/report.pdf"] "/d/report.pdf"
      = StatResult.found ∧
    (∀ counter, osStat longNamesFail ["/s", "/s/report.pdf", "/d", "/d/report.pdf"]
        (numberedTarget "/d" "report.pdf" counter) = StatResult.otherError) ∧
    (∀ fuel, chooseTarget (osStat longNamesFail ["/s", "/s/report.pdf", "/d", "/d/report.pdf"])
        "/d" "report.pdf" fuel = none) ∧
    (∀ fuel, worker longNamesFail fuel
        [{ SourcePath := "/s/report.pdf", TargetDir := "/d", Filename := "report.pdf" }]
        { stats := { TotalFiles := 1, ProcessedFiles := 0, OrganizedFiles := 0,
                     SkippedFiles := 0 },
          paths := ["/s", "/s/report.pdf", "/d", "/d/report.pdf"] } = none) ∧
    (∀ fuel, chooseTarget (osStat longNamesFail ["/s", "/s/report.pdf", "/d", "/d/report.pdf"])
        "/d" "report-2024.pdf" fuel = some "/d/report-2024.pdf") := by
  have hlong : ∀ counter, 13 < (numberedTarget "/d" "report.pdf" counter).length := by
    intro counter
    obtain ⟨G, hG⟩ := numberedTarget_form "/d" "report.pdf"
    have h1 : numberedTarget "/d" "report.pdf" 1 = "/d/report_1.pdf" := by decide
    have hlen1 := congrArg String.length (hG 1)
    rw [h1] at hlen1
    have hext : (filepath.Ext "report.pdf").data.length = 4 := by decide
    have hG9 : G.length = 9 := by
      have h2 : ("/d/report_1.pdf" : String).length = 15 := by decide
      have h3 : (Nat.repr 1).data.length = 1 := by decide
      simp only [String.length, List.length_append, List.length_cons, hext, h3] at hlen1 h2
      omega
    rw [hG counter]
    simp only [String.length, List.length_append, List.length_cons, hext, hG9]
    omega
  have hother : ∀ counter, osStat longNamesFail ["/s", "/s/report.pdf", "/d", "/d/report.pdf"]
      (numberedTarget "/d" "report.pdf" counter) = StatResult.otherError := by
    intro counter
    simp [osStat, longNamesFail, hlong counter]
  have hnone : ∀ fuel, chooseTarget
      (osStat longNamesFail ["/s", "/s/report.pdf", "/d", "/d/report.pdf"])
      "/d" "report.pdf" fuel = none := by
    intro fuel
    have hfound : osStat longNamesFail ["/s", "/s/report.pdf", "/d", "/d/report.pdf"]
        (filepath.Join ["/d", "report.pdf"]) = StatResult.found := by decide
    rw [chooseTarget]
    simp only [hfound, if_true]
    apply freeTarget_never_ends
    intro j h
    have := hother j
    rw [numberedTarget, h] at this
    cases this
  refine ⟨by decide, hother, hnone, ?_, ?_⟩
  · intro fuel
    have hpaths : (if (["/s", "/s/report.pdf", "/d", "/d/report.pdf"] : List String).contains "/d"
        = true then ["/s", "/s/report.pdf", "/d", "/d/report.pdf"]
        else ["/s", "/s/report.pdf", "/d", "/d/report.pdf"] ++ ["/d"])
          = ["/s", "/s/report.pdf", "/d", "/d/report.pdf"] := by decide
    simp only [worker, workerJob, hpaths, hnone fuel]
    rfl
  · intro fuel
    have hfail : osStat longNamesFail ["/s", "/s/report.pdf", "/d", "/d/report.pdf"]
        (filepath.Join ["/d", "report-2024.pdf"]) = StatResult.otherError := by decide
    have hjoin : filepath.Join ["/d", "report-2024.pdf"] = "/d/report-2024.pdf" := by decide
    rw [hjoin] at hfail
    rw [chooseTarget]
    simp [hfail, hjoin]

/-! ## The cleanup passes -/

theorem pruneEntries_append (xs ys : List Tree) :
    pruneEntries (xs ++ ys) = pruneEntries xs ++ pruneEntries ys := by
  induction xs with
  | nil => rfl
  | cons x xs ih => simp [pruneEntries, ih]

mutual

theorem cleanupEntry_inv (b : Bool) : ∀ (t : Tree),
    pruneEntries (cleanupEntry b t).1.toList = pruneEntry t ∧
    anyHasFile (cleanupEntry b t).1.toList = hasFile t ∧
    fileFreeDirs t = (cleanupEntry b t).2 + fileFreeDirsIn (cleanupEntry b t).1.toList ∧
    ((cleanupEntry b t).2 = 0 → (cleanupEntry b t).1 = some t ∧ noEmptyDir t = true)
  | Tree.file name => by
    simp [cleanupEntry, pruneEntries, pruneEntry, anyHasFile, hasFile, fileFreeDirs,
      fileFreeDirsIn, noEmptyDir]
  | Tree.dir name [] => by
    simp [cleanupEntry, pruneEntries, pruneEntry, anyHasFile, hasFile, fileFreeDirs,
      fileFreeDirsIn]
  | Tree.dir name (entry :: rest) => by
    obtain ⟨h1, h2, h3, h4⟩ := cleanupEntries_inv b (entry :: rest)
    refine ⟨?_, ?_, ?_, ?_⟩
    · simp only [cleanupEntry, Option.toList, pruneEntries, pruneEntry, h1, h2,
        List.append_nil]
    · simp only [cleanupEntry, Option.toList, anyHasFile, hasFile, h2, Bool.or_false]
    · have e1 : fileFreeDirsIn [Tree.dir name (cleanupEntries b (entry :: rest)).1]
          = (if anyHasFile (entry :: rest) = true then 0 else 1)
            + fileFreeDirsIn (cleanupEntries b (entry :: rest)).1 := by
        simp only [fileFreeDirsIn, fileFreeDirs, h2, Nat.add_zero]
      have e2 : fileFreeDirs (Tree.dir name (entry :: rest))
          = (if anyHasFile (entry :: rest) = true then 0 else 1)
            + fileFreeDirsIn (entry :: rest) := by
        rw [fileFreeDirs]
      simp only [cleanupEntry, Option.toList]
      rw [e1, e2]
      omega
    · intro h0
      simp only [cleanupEntry] at h0
      obtain ⟨h5, h6⟩ := h4 h0
      simp only [cleanupEntry, h5, noEmptyDir, h6, and_self]

theorem cleanupEntries_inv (b : Bool) : ∀ (entries : List Tree),
    pruneEntries (cleanupEntries b entries).1 = pruneEntries entries ∧
    anyHasFile (cleanupEntries b entries).1 = anyHasFile entries ∧
    fileFreeDirsIn entries
      = (cleanupEntries b entries).2 + fileFreeDirsIn (cleanupEntries b entries).1 ∧
    ((cleanupEntries b entries).2 = 0 →
      (cleanupEntries b entries).1 = entries ∧ noEmptyDirIn entries = true)
  | [] => by simp [cleanupEntries, noEmptyDirIn]
  | entry :: rest => by
    obtain ⟨h1, h2, h3, h4⟩ := cleanupEntry_inv b entry
    obtain ⟨g1, g2, g3, g4⟩ := cleanupEntries_inv b rest
    rw [cleanupEntries]
    cases hce : cleanupEntry b entry with
    | mk o n =>
      rw [hce] at h1 h2 h3 h4
      cases o with
      | none =>
        simp only [Option.toList, pruneEntries, anyHasFile, fileFreeDirsIn] at h1 h2 h3 h4
        have hn : n ≠ 0 := fun h0 => by
          have := (h4 h0).1
          cases this
        cases b with
        | true =>
          simp only [if_true, pruneEntries, ← h1, List.nil_append, anyHasFile, ← h2,
            Bool.false_or, fileFreeDirsIn, h3, true_and]
          exact ⟨by omega, fun h0 => absurd h0 hn⟩
        | false =>
          simp only [Bool.false_eq_true, if_false, pruneEntries, ← h1, List.nil_append, anyHasFile,
            ← h2, Bool.false_or, fileFreeDirsIn, h3, g1, g2, true_and]
          exact ⟨by omega, fun h0 => absurd (by omega) hn⟩
      | some entry1 =>
        simp only [Option.toList, pruneEntries, anyHasFile, fileFreeDirsIn, List.append_nil,
          Bool.or_false, Nat.add_zero] at h1 h2 h3 h4
        simp only [pruneEntries, h1, g1, anyHasFile, h2, g2, fileFreeDirsIn, h3, true_and]
        refine ⟨by omega, fun h0 => ?_⟩
        obtain ⟨h5, h6⟩ := h4 (by omega)
        obtain ⟨g5, g6⟩ := g4 (by omega)
        simp only [Option.some.injEq] at h5
        simp [h5, g5, noEmptyDirIn, h6, g6]

end

mutual

theorem noEmptyDir_prune : ∀ (t : Tree), noEmptyDir t = true →
    pruneEntry t = [t] ∧ fileFreeDirs t = 0 ∧ hasFile t = true
  | Tree.file name, _ => by simp [pruneEntry, fileFreeDirs, hasFile]
  | Tree.dir name [], h => by simp [noEmptyDir] at h
  | Tree.dir name (entry :: rest), h => by
    rw [noEmptyDir] at h
    obtain ⟨h1, h2, h3⟩ := noEmptyDirIn_prune (entry :: rest) h
    have h4 := h3 (by simp)
    simp [pruneEntry, fileFreeDirs, hasFile, h1, h2, h4]

theorem noEmptyDirIn_prune : ∀ (entries : List Tree), noEmptyDirIn entries = true →
    pruneEntries entries = entries ∧ fileFreeDirsIn entries = 0 ∧
      (entries ≠ [] → anyHasFile entries = true)
  | [], _ => by simp [pruneEntries, fileFreeDirsIn]
  | entry :: rest, h => by
    rw [noEmptyDirIn, Bool.and_eq_true] at h
    obtain ⟨h1, h2, h3⟩ := noEmptyDir_prune entry h.1
    obtain ⟨g1, g2, _⟩ := noEmptyDirIn_prune rest h.2
    simp [pruneEntries, fileFreeDirsIn, anyHasFile, h1, h2, h3, g1, g2]

end

theorem cleanupLoop_eq (b : Bool) : ∀ (fuel : Nat) (entries : List Tree) (removedCount : Nat),
    fileFreeDirsIn entries < fuel →
      cleanupLoop b fuel entries removedCount
        = some (pruneEntries entries, removedCount + fileFreeDirsIn entries) := by
  intro fuel
  induction fuel with
  | zero => intro entries removedCount h; omega
  | succ fuel ih =>
    intro entries removedCount h
    obtain ⟨h1, _, h3, h4⟩ := cleanupEntries_inv b entries
    rw [cleanupLoop]
    by_cases h0 : (cleanupEntries b entries).2 = 0
    · obtain ⟨h5, h6⟩ := h4 h0
      obtain ⟨g1, g2, _⟩ := noEmptyDirIn_prune entries h6
      simp only [h0, Nat.add_zero, if_true, h5, g1, g2]
    · have hne : removedCount + (cleanupEntries b entries).2 ≠ removedCount := by omega
      simp only [hne, if_false]
      rw [ih _ _ (by omega), h1]
      congr 2
      omega

theorem noEmptyDirIn_append (xs ys : List Tree) :
    noEmptyDirIn (xs ++ ys) = (noEmptyDirIn xs && noEmptyDirIn ys) := by
  induction xs with
  | nil => simp [noEmptyDirIn]
  | cons x xs ih => simp [noEmptyDirIn, ih, Bool.and_assoc]

mutual

theorem pruneEntry_props : ∀ (t : Tree),
    noEmptyDirIn (pruneEntry t) = true ∧ filesIn (pruneEntry t) = filesOf t ∧
      (hasFile t = true → pruneEntry t ≠ []) ∧ (hasFile t = false → filesOf t = [])
  | Tree.file name => by simp [pruneEntry, noEmptyDirIn, noEmptyDir, filesIn, filesOf, hasFile]
  | Tree.dir name entries => by
    obtain ⟨h1, h2, h3, h4⟩ := pruneEntries_props entries
    by_cases hf : anyHasFile entries = true
    · have hne := h3 hf
      obtain ⟨x, xs, hx⟩ := List.exists_cons_of_ne_nil hne
      have h5 : noEmptyDir (Tree.dir name (pruneEntries entries)) = true := by
        rw [hx, noEmptyDir, ← hx]
        exact h1
      simp [pruneEntry, hf, noEmptyDirIn, h5, filesIn, filesOf, h2, hasFile]
    · have hf1 : anyHasFile entries = false := by simpa using hf
      simp [pruneEntry, hf1, noEmptyDirIn, filesIn, filesOf, hasFile, h4 hf1]

theorem pruneEntries_props : ∀ (entries : List Tree),
    noEmptyDirIn (pruneEntries entries) = true ∧
      filesIn (pruneEntries entries) = filesIn entries ∧
      (anyHasFile entries = true → pruneEntries entries ≠ []) ∧
      (anyHasFile entries = false → filesIn entries = [])
  | [] => by simp [pruneEntries, noEmptyDirIn, filesIn, anyHasFile]
  | entry :: rest => by
    obtain ⟨h1, h2, h3, h4⟩ := pruneEntry_props entry
    obtain ⟨g1, g2, g3, g4⟩ := pruneEntries_props rest
    have hfiles : ∀ xs ys : List Tree, filesIn (xs ++ ys) = filesIn xs ++ filesIn ys := by
      intro xs ys
      induction xs with
      | nil => rfl
      | cons x xs ih => simp [filesIn, ih]
    refine ⟨?_, ?_, ?_, ?_⟩
    · rw [pruneEntries, noEmptyDirIn_append, h1, g1]; rfl
    · rw [pruneEntries, hfiles, h2, g2, filesIn]
    · intro h
      rw [anyHasFile, Bool.or_eq_true] at h
      rw [pruneEntries]
      rcases h with h | h
      · exact fun h0 => h3 h (List.append_eq_nil.mp h0).1
      · exact fun h0 => g3 h (List.append_eq_nil.mp h0).2
    · intro h
      rw [anyHasFile, Bool.or_eq_false_iff] at h
      rw [filesIn, h4 h.1, g4 h.2]; rfl

end

mutual

theorem fileFreeDirs_of_no_file : ∀ (t : Tree), hasFile t = false →
    fileFreeDirs t = dirCount t
  | Tree.file name, h => by simp [hasFile] at h
  | Tree.dir name entries, h => by
    rw [hasFile] at h
    rw [fileFreeDirs, dirCount, fileFreeDirsIn_of_no_file entries h]
    simp [h]

theorem fileFreeDirsIn_of_no_file : ∀ (entries : List Tree), anyHasFile entries = false →
    fileFreeDirsIn entries = dirCountIn entries
  | [], _ => rfl
  | entry :: rest, h => by
    rw [anyHasFile, Bool.or_eq_false_iff] at h
    rw [fileFreeDirsIn, dirCountIn, fileFreeDirs_of_no_file entry h.1,
      fileFreeDirsIn_of_no_file rest h.2]

end

theorem dirCountIn_append (xs ys : List Tree) :
    dirCountIn (xs ++ ys) = dirCountIn xs + dirCountIn ys := by
  induction xs with
  | nil => simp [dirCountIn]
  | cons x xs ih => simp [dirCountIn, ih, Nat.add_assoc]

mutual

theorem dirCount_pruneEntry : ∀ (t : Tree),
    dirCountIn (pruneEntry t) + fileFreeDirs t = dirCount t
  | Tree.file name => by simp [pruneEntry, dirCountIn, dirCount, fileFreeDirs]
  | Tree.dir name entries => by
    have h1 := dirCount_pruneEntries entries
    by_cases hf : anyHasFile entries = true
    · simp only [pruneEntry, hf, if_true, dirCountIn, dirCount, fileFreeDirs]
      omega
    · have hf1 : anyHasFile entries = false := by simpa using hf
      simp only [pruneEntry, hf1, Bool.false_eq_true, if_false, dirCountIn, dirCount,
        fileFreeDirs, fileFreeDirsIn_of_no_file entries hf1]
      omega

theorem dirCount_pruneEntries : ∀ (entries : List Tree),
    dirCountIn (pruneEntries entries) + fileFreeDirsIn entries = dirCountIn entries
  | [] => rfl
  | entry :: rest => by
    have h1 := dirCount_pruneEntry entry
    have h2 := dirCount_pruneEntries rest
    rw [pruneEntries, dirCountIn_append, fileFreeDirsIn, dirCountIn]
    omega

end

/-! ## C7 -/

/-- C7: on a tree where every read and delete succeeds, `CleanupEmptyDirs` ends (any bound on the
number of passes above the number of file-free directories gives the same result), with either
treatment of `SkipDir` by `WalkDir`; what is left below the root is the tree without exactly the
directories whose subtree contains no file, the count returned is the number of those
directories, which is the number of directories that are gone, every file is still in its place,
and no directory left below the root is empty. The root is not an entry of the walk that can be
removed. -/
theorem CleanupEmptyDirs_removes_file_free_dirs (siblingsSkipped : Bool) (entries : List Tree) :
    (∀ fuel, fileFreeDirsIn entries < fuel →
      CleanupEmptyDirs siblingsSkipped fuel entries
        = some (pruneEntries entries, fileFreeDirsIn entries)) ∧
    dirCountIn (pruneEntries entries) + fileFreeDirsIn entries = dirCountIn entries ∧
    filesIn (pruneEntries entries) = filesIn entries ∧
    noEmptyDirIn (pruneEntries entries) = true := by
  refine ⟨?_, dirCount_pruneEntries entries, (pruneEntries_props entries).2.1,
    (pruneEntries_props entries).1⟩
  intro fuel h
  rw [CleanupEmptyDirs, cleanupLoop_eq siblingsSkipped fuel entries 0 h]
  simp

/-- C7 at the root with the file `c.bin`, the directory `x` holding only empty directories (`y`
with an empty `z`, and `w`), the directory `k` with the file `f`, and the empty directory `e`. -/
theorem CleanupEmptyDirs_removes_file_free_dirs_witness :
    fileFreeDirsIn
        [Tree.file "c.bin",
         Tree.dir "x" [Tree.dir "y" [Tree.dir "z" []], Tree.dir "w" []],
         Tree.dir "k" [Tree.file "f"], Tree.dir "e" []] < 6 ∧
    CleanupEmptyDirs false 6
        [Tree.file "c.bin",
         Tree.dir "x" [Tree.dir "y" [Tree.dir "z" []], Tree.dir "w" []],
         Tree.dir "k" [Tree.file "f"], Tree.dir "e" []]
      = some ([Tree.file "c.bin", Tree.dir "k" [Tree.file "f"]], 5) :=
  ⟨by decide,
    (CleanupEmptyDirs_removes_file_free_dirs false
      [Tree.file "c.bin",
       Tree.dir "x" [Tree.dir "y" [Tree.dir "z" []], Tree.dir "w" []],
       Tree.dir "k" [Tree.file "f"], Tree.dir "e" []]).1 6 (by decide)⟩

/-! ## C8 -/

/-- C8, as stated, fails: JSON `null` is not an array of strings, not an array of mixed values and
not an object, yet `parseCategory` accepts it, as a category without extensions. -/
theorem parseCategory_accepts_null :
    matchesAcceptedShape Json.null = false ∧
      parseCategory Json.null = Except.ok (Category.mk [] []) ∧
      buildExtensionMapping { Categories := [("misc", Json.null)] } = Except.ok [] := by
  exact ⟨rfl, rfl, rfl⟩

/-- C8, amended: `parseCategory` fails exactly when the value, or the value kept for some
subcategory key it descends into, is a JSON string, number or boolean (`null` is accepted); a
value that decodes as `[]string` is taken as a leaf before the array is read as a mixed array; and
inside a mixed array an item that neither decodes as `[]string` nor is an object changes
nothing. -/
theorem parseCategory_fails_iff_scalar_reached (data : Json) :
    ((∃ e, parseCategory data = Except.error e) ↔ scalarReached data = true) ∧
    (∀ exts, json.unmarshalStrings data = some exts →
      parseCategory data = Except.ok (Category.mk exts [])) ∧
    (∀ (rest : List Json) (category : Category), json.unmarshalStrings data = none →
      (∀ fields, data ≠ Json.obj fields) →
      parseItems (data :: rest) category = parseItems rest category) := by
  refine ⟨?_, ?_, ?_⟩
  · rw [← isError_iff, isError_parseCategory]
  · intro exts h
    cases data with
    | null =>
      simp only [json.unmarshalStrings, Option.some.injEq] at h
      subst h
      rfl
    | arr items =>
      simp only [json.unmarshalStrings] at h
      rw [parseCategory, h]
    | bool b => simp [json.unmarshalStrings] at h
    | num n => simp [json.unmarshalStrings] at h
    | str s => simp [json.unmarshalStrings] at h
    | obj fields => simp [json.unmarshalStrings] at h
  · intro rest category h hobj
    cases data with
    | null => simp [json.unmarshalStrings] at h
    | arr items =>
      simp only [json.unmarshalStrings] at h
      rw [parseItems, h]
    | bool b => rfl
    | num n => rfl
    | str s => rfl
    | obj fields => exact absurd rfl (hobj fields)

/-- The amended C8 at the mixed array `[5, ["a", 1], (b: [".x"])]`: it parses, the number and the
array that is not a string array are passed over. -/
theorem parseCategory_fails_iff_scalar_reached_witness :
    json.unmarshalStrings (Json.num 5) = none ∧
    (∀ fields, Json.num 5 ≠ Json.obj fields) ∧
    json.unmarshalStrings (Json.arr [Json.str ".x"]) = some [".x"] ∧
    parseCategory (Json.arr [Json.str ".x"]) = Except.ok (Category.mk [".x"] []) ∧
    parseItems [Json.num 5, Json.arr [Json.str "a", Json.num 1],
        Json.obj [("b", Json.arr [Json.str ".x"])]] (Category.mk [] [])
      = parseItems [Json.arr [Json.str "a", Json.num 1],
        Json.obj [("b", Json.arr [Json.str ".x"])]] (Category.mk [] []) ∧
    ((∃ e, parseCategory (Json.num 5) = Except.error e) ↔ scalarReached (Json.num 5) = true) :=
  ⟨rfl, fun _ h => Json.noConfusion h, rfl,
    (parseCategory_fails_iff_scalar_reached (Json.arr [Json.str ".x"])).2.1 [".x"] rfl,
    (parseCategory_fails_iff_scalar_reached (Json.num 5)).2.2 _ _ rfl
      (fun _ h => Json.noConfusion h),
    (parseCategory_fails_iff_scalar_reached (Json.num 5)).1⟩

/-! ## C9 -/

/-- C9 fails on the code: in non-recursive mode, with the mapping `.txt -> docs` and the file
`sub/a.txt` one level below the root, the dispatching pass prunes `sub` and meets no file (no job,
no processed, organized or skipped count), but the counting pass has no such pruning and counts
the file in `TotalFiles`. -/
theorem nonrecursive_total_counts_pruned_file :
    filesDispatchedIn (scenarioOptions false) "/src" "." [Tree.dir "sub" [Tree.file "a.txt"]]
      = [] ∧
    dispatchEntries unicode.latin1 [(".txt", "docs")] (scenarioOptions false) "/src" "."
        [Tree.dir "sub" [Tree.file "a.txt"]]
        { stats := { TotalFiles := 1, ProcessedFiles := 0, OrganizedFiles := 0,
                     SkippedFiles := 0 },
          jobs := [] }
      = { stats := { TotalFiles := 1, ProcessedFiles := 0, OrganizedFiles := 0,
                     SkippedFiles := 0 },
          jobs := [] } ∧
    countEntries [(".txt", "docs")] "." [Tree.dir "sub" [Tree.file "a.txt"]]
        { TotalFiles := 0, ProcessedFiles := 0, OrganizedFiles := 0, SkippedFiles := 0 }
      = { TotalFiles := 1, ProcessedFiles := 0, OrganizedFiles := 0, SkippedFiles := 0 } ∧
    buildExtensionMapping (flatConfig [("docs", [".txt"])]) = Except.ok [(".txt", "docs")] ∧
    OrganizeFiles unicode.latin1 (flatConfig [("docs", [".txt"])]) (scenarioOptions false)
        allSucceed 4 [Tree.dir "sub" [Tree.file "a.txt"]]
      = RunResult.done
          { TotalFiles := 1, ProcessedFiles := 0, OrganizedFiles := 0, SkippedFiles := 0 }
          ["/src", "/src/sub", "/src/sub/a.txt"] := by
  decide

/-! ## C10 -/

/-- C10, as stated, fails: for the configuration `images: [".JPG"]` and the one root file `a.JPG`,
whose extension is the mapped key `.JPG` and which is not pre-organized, a run in which every
directory creation and move would succeed organizes nothing: the lower-cased extension `.jpg` is
not a key, so the file is skipped. -/
theorem uppercase_extension_is_skipped :
    buildExtensionMapping (flatConfig [("images", [".JPG"])])
      = Except.ok [(".JPG", "images")] ∧
    mapGet [(".JPG", "images")] (filepath.Ext "a.JPG") = some "images" ∧
    countingSkips [(".JPG", "images")] "a.JPG" "a.JPG" = false ∧
    OrganizeFiles unicode.latin1 (flatConfig [("images", [".JPG"])]) (scenarioOptions true)
        allSucceed 4 [Tree.file "a.JPG"]
      = RunResult.done
          { TotalFiles := 1, ProcessedFiles := 1, OrganizedFiles := 0, SkippedFiles := 1 }
          ["/src", "/src/a.JPG"] := by
  decide

/-- C10, amended: for a configuration whose mapped extensions are all left as they are by
`strings.ToLower`, at least one worker, file operations that all succeed (every directory can be
made, every move works, `os.Stat` fails only for a path that does not exist), and a source tree
that is walked recursively or holds only files directly under the root, in which every file has a
mapped extension and none is left out by the counting pass, one run (the walks seeing the tree as
it was at the call, every search for a free name being given more tries than there are paths and
twice the files) returns counters with `OrganizedFiles == ProcessedFiles == TotalFiles`, the
number of files, and `SkippedFiles == 0`; and for the configuration
`images: [".jpg"], docs: (text: [".txt"])` with the root files `a.jpg`, `b.txt`, `c.bin` the
result is organized 2, skipped 1, total 3. -/
theorem organize_counts_all_mapped_files (caseTable : Char → Char) (config : Config)
    (m : ExtensionMapping) (opts : OrganizeOptions) (ops : FileOps) (fuel : Nat)
    (entries : List Tree)
    (hm : buildExtensionMapping config = Except.ok m)
    (hlower : ∀ kv ∈ m, strings.ToLower caseTable kv.1 = kv.1)
    (hworkers : 0 < opts.NumWorkers)
    (hmkdir : ∀ dir, ops.mkdirOk dir = true)
    (hmove : ∀ source target, ops.moveOk source target = true)
    (hstat : ∀ path, ops.statFails path = false)
    (hfuel : 1 + (entriesPaths opts.SourcePath entries).length
      + 2 * (filesMetIn opts.SourcePath "." entries).length ≤ fuel)
    (hwalk : opts.Recursive = true ∨ ∀ e ∈ entries, isFile e = true)
    (hfiles : ∀ v ∈ filesMetIn opts.SourcePath "." entries,
      countingSkips m v.relPath v.name = false ∧
      (mapGet m (filepath.Ext v.name)).isSome = true) :
    (∃ stats paths,
      OrganizeFiles caseTable config opts ops fuel entries = RunResult.done stats paths ∧
      stats.TotalFiles = (filesMetIn opts.SourcePath "." entries).length ∧
      stats.OrganizedFiles = stats.TotalFiles ∧
      stats.ProcessedFiles = stats.TotalFiles ∧
      stats.SkippedFiles = 0) ∧
    OrganizeFiles unicode.latin1 scenarioConfig (scenarioOptions true) allSucceed 4
        [Tree.file "a.jpg", Tree.file "b.txt", Tree.file "c.bin"]
      = RunResult.done
          { TotalFiles := 3, ProcessedFiles := 3, OrganizedFiles := 2, SkippedFiles := 1 }
          ["/src", "/src/c.bin", "/src/images/jpg", "/src/images/jpg/a.jpg",
           "/src/docs/text/txt", "/src/docs/text/txt/b.txt"] := by
  refine ⟨?_, by decide⟩
  have hdisp : filesDispatchedIn opts opts.SourcePath "." entries
      = filesMetIn opts.SourcePath "." entries := by
    rcases hwalk with h | h
    · exact filesDispatchedIn_recursive opts h entries _ _
    · exact filesDispatchedIn_files opts _ _ entries h
  have hcount := foldl_countFile_counted m (filesMetIn opts.SourcePath "." entries)
    { TotalFiles := 0, ProcessedFiles := 0, OrganizedFiles := 0, SkippedFiles := 0 }
    (fun v hv => (hfiles v hv).1)
  have hjobs := foldl_dispatchFile_jobs caseTable m opts.SourcePath
    (filesMetIn opts.SourcePath "." entries)
    { stats := { TotalFiles := 0 + (filesMetIn opts.SourcePath "." entries).length,
                 ProcessedFiles := 0, OrganizedFiles := 0, SkippedFiles := 0 },
      jobs := [] }
    (by
      intro v hv
      obtain ⟨h1, h2some⟩ := hfiles v hv
      obtain ⟨folder, h2⟩ := Option.isSome_iff_exists.mp h2some
      have h3 : strings.ToLower caseTable (filepath.Ext v.name) = filepath.Ext v.name :=
        hlower _ (mem_of_mapGet m _ folder h2)
      refine ⟨?_, ?_, folder, by rw [h3]; exact h2⟩
      · cases hd : dispatchSkips m v.relPath v.name with
        | false => rfl
        | true =>
          rw [dispatchSkips_imp_countingSkips m _ _ hd] at h1
          cases h1
      · rw [h3]
        intro h0
        rw [h0, built_mapping_no_empty_key config m hm] at h2
        cases h2)
  obtain ⟨hj1, hj2⟩ := hjobs
  have hjobslen : (dispatchEntries caseTable m opts opts.SourcePath "." entries
      { stats := countEntries m "." entries
          { TotalFiles := 0, ProcessedFiles := 0, OrganizedFiles := 0, SkippedFiles := 0 },
        jobs := [] }).jobs.length = (filesMetIn opts.SourcePath "." entries).length := by
    rw [dispatchEntries_eq, countEntries_eq m opts.SourcePath, hdisp, hcount, hj2]
    simp
  obtain ⟨final, hfinal, hstats⟩ := worker_all_succeed ops hmkdir hmove hstat fuel
    (dispatchEntries caseTable m opts opts.SourcePath "." entries
      { stats := countEntries m "." entries
          { TotalFiles := 0, ProcessedFiles := 0, OrganizedFiles := 0, SkippedFiles := 0 },
        jobs := [] }).jobs
    { stats := (dispatchEntries caseTable m opts opts.SourcePath "." entries
        { stats := countEntries m "." entries
            { TotalFiles := 0, ProcessedFiles := 0, OrganizedFiles := 0, SkippedFiles := 0 },
          jobs := [] }).stats,
      paths := opts.SourcePath :: entriesPaths opts.SourcePath entries }
    (by
      rw [hjobslen]
      simp only [List.length_cons]
      omega)
  have hnw : ¬ opts.NumWorkers ≤ 0 := by omega
  refine ⟨final.stats, final.paths, ?_, ?_⟩
  · simp only [OrganizeFiles, hm, organizeWith, hnw, if_false, hfinal]
  · rw [hstats, dispatchEntries_eq, countEntries_eq m opts.SourcePath, hdisp, hcount, hj1, hj2]
    simp

/-- The amended C10 at the scenario configuration, walked recursively, with the root files `a.jpg`
and `b.txt`, the Latin-1 rows of the case tables and 7 tries for every search. -/
theorem organize_counts_all_mapped_files_witness :
    buildExtensionMapping scenarioConfig = Except.ok [(".jpg", "images"), (".txt", "docs/text")] ∧
    (∀ kv ∈ [(".jpg", "images"), (".txt", "docs/text")],
      strings.ToLower unicode.latin1 kv.1 = kv.1) ∧
    0 < (scenarioOptions true).NumWorkers ∧
    (∀ path, allSucceed.statFails path = false) ∧
    1 + (entriesPaths (scenarioOptions true).SourcePath
          [Tree.file "a.jpg", Tree.file "b.txt"]).length
      + 2 * (filesMetIn (scenarioOptions true).SourcePath "."
          [Tree.file "a.jpg", Tree.file "b.txt"]).length ≤ 7 ∧
    (∀ v ∈ filesMetIn (scenarioOptions true).SourcePath "." [Tree.file "a.jpg", Tree.file "b.txt"],
      countingSkips [(".jpg", "images"), (".txt", "docs/text")] v.relPath v.name = false ∧
      (mapGet [(".jpg", "images"), (".txt", "docs/text")] (filepath.Ext v.name)).isSome
        = true) ∧
    ((∃ stats paths,
        OrganizeFiles unicode.latin1 scenarioConfig (scenarioOptions true) allSucceed 7
            [Tree.file "a.jpg", Tree.file "b.txt"]
          = RunResult.done stats paths ∧
        stats.TotalFiles
          = (filesMetIn (scenarioOptions true).SourcePath "."
              [Tree.file "a.jpg", Tree.file "b.txt"]).length ∧
        stats.OrganizedFiles = stats.TotalFiles ∧
        stats.ProcessedFiles = stats.TotalFiles ∧
        stats.SkippedFiles = 0) ∧
      OrganizeFiles unicode.latin1 scenarioConfig (scenarioOptions true) allSucceed 4
          [Tree.file "a.jpg", Tree.file "b.txt", Tree.file "c.bin"]
        = RunResult.done
            { TotalFiles := 3, ProcessedFiles := 3, OrganizedFiles := 2, SkippedFiles := 1 }
            ["/src", "/src/c.bin", "/src/images/jpg", "/src/images/jpg/a.jpg",
             "/src/docs/text/txt", "/src/docs/text/txt/b.txt"]) :=
  ⟨by decide, by decide, by decide, fun _ => rfl, by decide, by decide,
    organize_counts_all_mapped_files unicode.latin1 scenarioConfig
      [(".jpg", "images"), (".txt", "docs/text")]
      (scenarioOptions true) allSucceed 7 [Tree.file "a.jpg", Tree.file "b.txt"]
      (by decide) (by decide) (by decide) (fun _ => rfl) (fun _ _ => rfl) (fun _ => rfl)
      (by decide) (Or.inl rfl) (by decide)⟩

/-! ## The iteration order of the maps -/

theorem buildLoopParsed_eq (cats : List (String × Category)) (m : ExtensionMapping) :
    buildLoopParsed m cats = applyWrites m ((configListings cats).map listingWrite) := by
  induction cats generalizing m with
  | nil => rfl
  | cons hd rest ih =>
    obtain ⟨topName, category⟩ := hd
    obtain ⟨exts, subs⟩ := category
    rw [buildLoopParsed]
    simp only [Category.Extensions, Category.Subcategories]
    rw [ih, configListings, List.map_append, applyWrites_append]
    have h1 := processCategory_eq (Category.mk exts subs) [topName] (by simp) m
    rw [processCategory] at h1
    simp only [joinChain, List.foldl_nil] at h1
    rw [h1]

theorem subListings_perm (chain : List String) (l1 l2 : List (String × Category))
    (h : l1.Perm l2) : (subListings chain l1).Perm (subListings chain l2) := by
  induction h with
  | nil => exact List.Perm.refl _
  | cons x _ ih =>
    obtain ⟨n, c⟩ := x
    simp only [subListings]
    exact List.Perm.append_left _ ih
  | swap x y l =>
    obtain ⟨n, c⟩ := x
    obtain ⟨n2, c2⟩ := y
    simp only [subListings]
    exact List.perm_append_comm_assoc _ _ _
  | trans _ _ ih1 ih2 => exact ih1.trans ih2

mutual
theorem reorderedCategory_listings : ∀ (c c' : Category) (chain : List String),
    reorderedCategory c c' → (categoryListings chain c').Perm (categoryListings chain c)
  | Category.mk exts subs, Category.mk exts' subs', chain, h => by
    rw [reorderedCategory] at h
    obtain ⟨he, mid, hmid, hperm⟩ := h
    simp only [Category.Extensions, Category.Subcategories] at he hperm
    subst he
    simp only [categoryListings]
    exact List.Perm.append_left _
      ((subListings_perm chain _ _ hperm).symm.trans
        (reorderedEntries_listings subs mid chain hmid))
theorem reorderedEntries_listings : ∀ (subs mid : List (String × Category))
    (chain : List String),
    reorderedEntries subs mid → (subListings chain mid).Perm (subListings chain subs)
  | [], mid, chain, h => by
    rw [reorderedEntries] at h
    subst h
    exact List.Perm.refl _
  | (name, c) :: rest, mid, chain, h => by
    rw [reorderedEntries] at h
    obtain ⟨c', rest', hmid, hc, hrest⟩ := h
    subst hmid
    simp only [subListings]
    exact List.Perm.append (reorderedCategory_listings c c' _ hc)
      (reorderedEntries_listings rest rest' chain hrest)
end

theorem configListings_eq_subListings (cats : List (String × Category)) :
    configListings cats = subListings [] cats := by
  induction cats with
  | nil => rfl
  | cons hd rest ih =>
    obtain ⟨n, c⟩ := hd
    simp [configListings, subListings, ih]

theorem iterationOrder_listings (cats order : List (String × Category))
    (h : iterationOrder cats order) : (configListings order).Perm (configListings cats) := by
  obtain ⟨mid, hmid, hperm⟩ := h
  rw [configListings_eq_subListings, configListings_eq_subListings]
  exact (subListings_perm [] _ _ hperm).symm.trans (reorderedEntries_listings cats mid [] hmid)

mutual
theorem reorderedCategory_refl : ∀ (c : Category), reorderedCategory c c
  | Category.mk exts subs => by
    rw [reorderedCategory]
    exact ⟨rfl, subs, reorderedEntries_refl subs, List.Perm.refl _⟩
theorem reorderedEntries_refl : ∀ (subs : List (String × Category)), reorderedEntries subs subs
  | [] => by rw [reorderedEntries]
  | (name, c) :: rest => by
    rw [reorderedEntries]
    exact ⟨c, rest, rfl, reorderedCategory_refl c, reorderedEntries_refl rest⟩
end

theorem iterationOrder_of_perm (cats order : List (String × Category)) (h : cats.Perm order) :
    iterationOrder cats order :=
  ⟨cats, reorderedEntries_refl cats, h⟩

theorem mapGet_applyWrites_same (ws1 ws2 : List (String × String)) (m : ExtensionMapping)
    (hmem : ∀ kv, kv ∈ ws1 ↔ kv ∈ ws2)
    (hfun : ∀ kv1 ∈ ws1, ∀ kv2 ∈ ws1, kv1.1 = kv2.1 → kv1.2 = kv2.2) (k : String) :
    mapGet (applyWrites m ws1) k = mapGet (applyWrites m ws2) k := by
  by_cases hex : ∃ kv ∈ ws1, kv.1 = k
  · obtain ⟨kv, hkv, hk⟩ := hex
    rw [mapGet_applyWrites ws1 m k kv.2 ⟨kv, hkv, hk⟩
        (fun kv1 h1 hk1 => hfun kv1 h1 kv hkv (hk1.trans hk.symm)),
      mapGet_applyWrites ws2 m k kv.2 ⟨kv, (hmem kv).mp hkv, hk⟩
        (fun kv1 h1 hk1 => hfun kv1 ((hmem kv1).mpr h1) kv hkv (hk1.trans hk.symm))]
  · have h1 : ∀ kv ∈ ws1, kv.1 ≠ k := fun kv hkv hk => hex ⟨kv, hkv, hk⟩
    have h2 : ∀ kv ∈ ws2, kv.1 ≠ k := fun kv hkv hk => hex ⟨kv, (hmem kv).mpr hkv, hk⟩
    rw [mapGet_applyWrites_of_not_key ws1 m k h1, mapGet_applyWrites_of_not_key ws2 m k h2]

theorem mapGet_applyWrites_last (ws : List (String × String)) (m : ExtensionMapping)
    (k : String) :
    mapGet (applyWrites m ws) k
      = match ws.reverse.find? (fun kv => kv.1 = k) with
        | some kv => some kv.2
        | none => mapGet m k := by
  induction ws using List.reverseRecOn with
  | nil => rfl
  | append_singleton ws kv ih =>
    rw [applyWrites_append, applyWrites_cons, List.reverse_append]
    simp only [List.reverse_cons, List.reverse_nil, List.nil_append, List.singleton_append,
      List.find?_cons]
    show mapGet (mapSet (applyWrites m ws) kv.1 kv.2) k = _
    rw [mapGet_mapSet]
    by_cases hk : kv.1 = k
    · simp [hk]
    · simp [hk, ih]

theorem parseAll_perm (cfg1 cfg2 : List (String × Json)) (h : cfg1.Perm cfg2) :
    ∀ cats, parseAll cfg1 = Except.ok cats →
      ∃ cats2, parseAll cfg2 = Except.ok cats2 ∧ cats.Perm cats2 := by
  induction h with
  | nil => exact fun cats hp => ⟨cats, hp, List.Perm.refl _⟩
  | cons x _ ih =>
    intro cats hp
    obtain ⟨n, raw⟩ := x
    obtain ⟨c, cats1, hc, hr, rfl⟩ := parseAll_cons_ok n raw _ cats hp
    obtain ⟨cats2, h2, hperm⟩ := ih cats1 hr
    exact ⟨(n, c) :: cats2, parseAll_cons_of_ok n raw _ c cats2 hc h2, List.Perm.cons _ hperm⟩
  | swap x y l =>
    intro cats hp
    obtain ⟨n, raw⟩ := x
    obtain ⟨n2, raw2⟩ := y
    obtain ⟨c2, cats1, hc2, hr, rfl⟩ := parseAll_cons_ok n2 raw2 _ cats hp
    obtain ⟨c, cats0, hc, hr0, rfl⟩ := parseAll_cons_ok n raw _ cats1 hr
    exact ⟨(n, c) :: (n2, c2) :: cats0,
      parseAll_cons_of_ok n raw _ c _ hc (parseAll_cons_of_ok n2 raw2 _ c2 _ hc2 hr0),
      List.Perm.swap _ _ _⟩
  | trans _ _ ih1 ih2 =>
    intro cats hp
    obtain ⟨cats2, h2, hperm2⟩ := ih1 cats hp
    obtain ⟨cats3, h3, hperm3⟩ := ih2 cats2 h2
    exact ⟨cats3, h3, hperm2.trans hperm3⟩

theorem buildLoopParsed_same (cats order1 order2 : List (String × Category))
    (hnodup : ∀ l1 ∈ configListings cats, ∀ l2 ∈ configListings cats,
      ensureDot l1.2 = ensureDot l2.2 → l1.1 = l2.1)
    (h1 : iterationOrder cats order1) (h2 : iterationOrder cats order2) (k : String) :
    mapGet (buildLoopParsed [] order1) k = mapGet (buildLoopParsed [] order2) k := by
  have p1 := iterationOrder_listings cats order1 h1
  have p2 := iterationOrder_listings cats order2 h2
  rw [buildLoopParsed_eq, buildLoopParsed_eq]
  apply mapGet_applyWrites_same
  · intro kv
    rw [((p1.trans p2.symm).map listingWrite).mem_iff]
  · intro kv1 hkv1 kv2 hkv2 hk
    obtain ⟨l1, hl1, rfl⟩ := List.mem_map.mp hkv1
    obtain ⟨l2, hl2, rfl⟩ := List.mem_map.mp hkv2
    simp only [listingWrite] at hk ⊢
    rw [hnodup l1 (p1.mem_iff.mp hl1) l2 (p1.mem_iff.mp hl2) hk]

theorem buildLoopParsed_last (order : List (String × Category)) (k : String) :
    mapGet (buildLoopParsed [] order) k = lastListed order k := by
  rw [buildLoopParsed_eq, mapGet_applyWrites_last, lastListed, ← List.map_reverse]
  generalize (configListings order).reverse = ls
  induction ls with
  | nil => rfl
  | cons l rest ih =>
    simp only [List.map_cons, List.find?_cons]
    by_cases hk : ensureDot l.2 = k
    · simp [listingWrite, hk]
    · simp only [listingWrite, hk, decide_False] at ih ⊢
      exact ih

/-! ## C11 -/

/-- C11: for a configuration that parses, `buildExtensionMapping` returns the mapping of the loop
over the parsed categories; when no dot-prefixed extension is listed at two different chains of
names, any two iteration orders of the maps of categories and subcategories give mappings with the
same entries, and so does `buildExtensionMapping` on the top-level entries met in any other order;
in every iteration order the entry of an extension is the path of the node that lists it last in
that order; and with `.x` listed by both `a` and `b` the order `a, b` gives `.x -> b` while the
order `b, a` gives `.x -> a`. -/
theorem mapping_independent_of_iteration_order (config : Config)
    (cats : List (String × Category)) (hp : parseAll config.Categories = Except.ok cats) :
    buildExtensionMapping config = Except.ok (buildLoopParsed [] cats) ∧
    ((∀ l1 ∈ configListings cats, ∀ l2 ∈ configListings cats,
        ensureDot l1.2 = ensureDot l2.2 → l1.1 = l2.1) →
      (∀ order1 order2, iterationOrder cats order1 → iterationOrder cats order2 →
        ∀ k, mapGet (buildLoopParsed [] order1) k = mapGet (buildLoopParsed [] order2) k) ∧
      (∀ raw, config.Categories.Perm raw →
        ∃ m, buildExtensionMapping { Categories := raw } = Except.ok m ∧
          ∀ k, mapGet m k = mapGet (buildLoopParsed [] cats) k)) ∧
    (∀ order, iterationOrder cats order →
      ∀ k, mapGet (buildLoopParsed [] order) k = lastListed order k) ∧
    (buildExtensionMapping (flatConfig [("a", [".x"]), ("b", [".x"])])
        = Except.ok [(".x", "b")] ∧
      buildExtensionMapping (flatConfig [("b", [".x"]), ("a", [".x"])])
        = Except.ok [(".x", "a")]) := by
  have hbuild : ∀ (cfg : List (String × Json)) (cs : List (String × Category)),
      parseAll cfg = Except.ok cs →
      buildExtensionMapping { Categories := cfg } = Except.ok (buildLoopParsed [] cs) := by
    intro cfg cs h
    rw [buildExtensionMapping, buildLoop_eq cfg [] cs h, buildLoopParsed_eq]
  refine ⟨hbuild config.Categories cats hp, ?_, fun order _ k => buildLoopParsed_last order k,
    by decide⟩
  intro hnodup
  refine ⟨fun order1 order2 h1 h2 k => buildLoopParsed_same cats order1 order2 hnodup h1 h2 k, ?_⟩
  intro raw hraw
  obtain ⟨cats2, h2, hperm⟩ := parseAll_perm _ _ hraw cats hp
  exact ⟨_, hbuild raw cats2 h2, fun k =>
    buildLoopParsed_same cats cats2 cats hnodup (iterationOrder_of_perm cats cats2 hperm)
      (iterationOrder_of_perm cats cats (List.Perm.refl _)) k⟩

/-- The statement of C11 at the configuration `images: [".jpg"]`,
`docs: (text: [".txt"], pdf: ["pdf"])`, with the order `docs (pdf, text), images` compared with the
order of the file. -/
theorem mapping_independent_of_iteration_order_witness :
    parseAll orderConfig.Categories = Except.ok orderCats ∧
    (∀ l1 ∈ configListings orderCats, ∀ l2 ∈ configListings orderCats,
      ensureDot l1.2 = ensureDot l2.2 → l1.1 = l2.1) ∧
    iterationOrder orderCats orderCatsReordered ∧
    buildExtensionMapping orderConfig
      = Except.ok [(".jpg", "images"), (".txt", "docs/text"), (".pdf", "docs/pdf")] ∧
    buildLoopParsed [] orderCatsReordered
      = [(".pdf", "docs/pdf"), (".txt", "docs/text"), (".jpg", "images")] ∧
    (∀ k, mapGet (buildLoopParsed [] orderCatsReordered) k
      = mapGet (buildLoopParsed [] orderCats) k) := by
  have horder : iterationOrder orderCats orderCatsReordered := by
    refine ⟨[("images", Category.mk [".jpg"] []),
      ("docs", Category.mk []
        [("pdf", Category.mk ["pdf"] []), ("text", Category.mk [".txt"] [])])], ?_,
      List.Perm.swap _ _ _⟩
    refine ⟨_, _, rfl, reorderedCategory_refl _, _, _, rfl, ?_, rfl⟩
    exact ⟨rfl, _, reorderedEntries_refl _, List.Perm.swap _ _ _⟩
  exact ⟨rfl, by decide, horder, by decide, by decide, fun k =>
    ((mapping_independent_of_iteration_order orderConfig orderCats rfl).2.1 (by decide)).1
      orderCatsReordered orderCats horder
      (iterationOrder_of_perm orderCats orderCats (List.Perm.refl _)) k⟩

end FolderOrganizer
